import Mathlib

/-!
# SIRIUS: chunked overlap operators, keyed operator dispatch, G-vector setup,
input and output helpers

A shallow embedding of

* `src/hamiltonian/inverse_overlap.hpp` (`S_k`, `InverseS_k`),
* `src/nlcglib/overlap.hpp`, `src/nlcglib/ultrasoft_precond.hpp`
  (`Overlap_operators`, `UltrasoftPrecond`),
* `src/K_point/generate_gkvec.hpp` (`K_point::generate_gkvec`),
* `src/lib/global.h` (`global_fft::init_fft_grid`, with the GSL index heapsort
  it calls),
* `src/input.h` (`unit_cell_input_section::read`),
* `src/sirius_io.h` (`pstdout::printf`, `pstdout::flush`),
* the block-cyclic index map of the distributed matrix and `transform`, used by
  `apps/tests/test_wf_trans.cpp`.

Arithmetic is exact: the template parameter `numeric_t` is a field `T` with a
conjugation (`StarRing T`) and the pivot magnitude `cabs1` of LAPACK; doubles
are rationals.
Arrays are column-major, as `mdarray` is: element `(i, j)` of an array with
leading dimension `ld` is stored at position `i + j * ld`.  Freshly allocated
(uninitialised) memory is an arbitrary function supplied by the caller of a
model function.  Memory residency (host / device) does not change values and is
not modelled; the host path is followed.
-/

namespace sirius

section

open Finset

/-! ## Scalars -/

/-- Pivot magnitude used by the LAPACK pivot search (`|re| + |im|`,
`dcabs1`): rational valued, non-negative, and zero only at zero. -/
class PivotAbs (T : Type) [Zero T] where
  /-- The magnitude compared by the pivot search. -/
  cabs1 : T → ℚ
  /-- Magnitudes are never negative. -/
  cabs1_nonneg : ∀ x, 0 ≤ cabs1 x
  /-- Zero has magnitude zero. -/
  cabs1_zero : cabs1 0 = 0
  /-- Only zero has magnitude zero. -/
  cabs1_eq_zero : ∀ x, cabs1 x = 0 → x = 0

instance instPivotAbsRat : PivotAbs ℚ where
  cabs1 := fun x => |x|
  cabs1_nonneg := fun x => abs_nonneg x
  cabs1_zero := abs_zero
  cabs1_eq_zero := fun _ h => abs_eq_zero.mp h

/-! ## `mdarray` and the dense kernels -/

/-- Modelled from the spec: the wave-function and matrix buffers are
`mdarray<T, 2>` (`sddk::matrix<T>`), whose header is not part of the sources:
a two-dimensional array given by its sizes and its column-major storage. -/
structure mdarray (T : Type) where
  /-- Number of rows, `size(0)`. -/
  size0 : Nat
  /-- Number of columns, `size(1)`. -/
  size1 : Nat
  /-- Storage, addressed from the base pointer. -/
  data : Nat → T

/-- Leading dimension, `ld()`: the number of rows. -/
def mdarray.ld {T : Type} (A : mdarray T) : Nat := A.size0

/-- Position of element `(i, j)` from the base pointer: what `at(mem, i, j)`
points to. -/
def mdarray.idx {T : Type} (A : mdarray T) (i j : Nat) : Nat := i + j * A.ld

/-- Element access `A(i, j)`. -/
def mdarray.get {T : Type} (A : mdarray T) (i j : Nat) : T := A.data (A.idx i j)

/-- Pointer `A.at(mem, i, j)` read as an array: `p[t]`. -/
def mdarray.ptr {T : Type} (A : mdarray T) (i j : Nat) : Nat → T :=
  fun t => A.data (A.idx i j + t)

/-- Two arrays hold the same matrix: equal sizes and equal elements. -/
def mdarray.same {T : Type} (A B : mdarray T) : Prop :=
  A.size0 = B.size0 ∧ A.size1 = B.size1 ∧
    ∀ i j, i < A.size0 → j < A.size1 → A.get i j = B.get i j

/-- The `m × n` matrix held by an array. -/
def mdarray.toMatrix {T : Type} (A : mdarray T) (m n : Nat) : Matrix (Fin m) (Fin n) T :=
  fun i j => A.get i.val j.val

/-- Modelled from the spec: the raw copy `sddk::copy(mem, src, mem, dst, n)`
(not part of the sources) copies `n` consecutive elements from `src` to the
positions `doff .. doff + n - 1` of `dst`. -/
def copy_n {T : Type} (src : Nat → T) (dst : Nat → T) (doff n : Nat) : Nat → T :=
  fun a => if doff ≤ a ∧ a < doff + n then src (a - doff) else dst a

/-- Modelled from the spec: the whole-array copy `sddk::copy(dst, src)` (not
part of the sources) copies the `size(0) * size(1)` elements of `src` to the
storage of `dst` (the output is initialised as a copy of `X`). -/
def sddk_copy {T : Type} (dst src : mdarray T) : mdarray T :=
  { dst with data := copy_n src.data dst.data 0 (src.size0 * src.size1) }

/-- Write of the block `f` of `m` rows and `n` columns at element `(ro, co)` of
column-major storage with leading dimension `ld` (the block is addressed by the
pointer to `(ro, co)` together with `ld`); positions outside the block keep
their content. -/
def store_block {T : Type} (C : Nat → T) (ld ro co m n : Nat) (f : Nat → Nat → T) :
    Nat → T :=
  fun a =>
    if ro ≤ a % ld ∧ a % ld < ro + m ∧ co ≤ a / ld ∧ a / ld < co + n then
      f (a % ld - ro) (a / ld - co)
    else C a

/-- BLAS `gemm('N', 'N', m, n, k, alpha, A, lda, B, ldb, beta, C, ldc)` with
`C` the pointer to element `(ro, co)` of the output storage:
`C ← alpha * A * B + beta * C` on the `m × n` block. -/
def gemm_NN {T : Type} [Field T] (m n k : Nat) (alpha : T) (A : Nat → T) (lda : Nat)
    (B : Nat → T) (ldb : Nat) (beta : T) (C : Nat → T) (ldc ro co : Nat) : Nat → T :=
  store_block C ldc ro co m n (fun i j =>
    alpha * (∑ l in range k, A (i + l * lda) * B (l + j * ldb))
      + beta * C ((ro + i) + (co + j) * ldc))

/-- BLAS `gemm('C', 'N', m, n, k, alpha, A, lda, B, ldb, beta, C, ldc)`:
`C ← alpha * A^H * B + beta * C` on the `m × n` block at `(ro, co)`. -/
def gemm_CN {T : Type} [Field T] [StarRing T] (m n k : Nat) (alpha : T) (A : Nat → T)
    (lda : Nat) (B : Nat → T) (ldb : Nat) (beta : T) (C : Nat → T) (ldc ro co : Nat) :
    Nat → T :=
  store_block C ldc ro co m n (fun i j =>
    alpha * (∑ l in range k, star (A (l + i * lda)) * B (l + j * ldb))
      + beta * C ((ro + i) + (co + j) * ldc))

/-- BLAS `axpy(n, alpha, x, incx, y, incy)`: `y[i * incy] += alpha * x[i * incx]`
for `i = 0 .. n - 1`, in this order. -/
def axpy {T : Type} [Field T] (n : Nat) (alpha : T) (x : Nat → T) (incx : Nat)
    (y : Nat → T) (incy : Nat) : Nat → T :=
  (List.range n).foldl
    (fun y i => Function.update y (i * incy) (y (i * incy) + alpha * x (i * incx))) y

/-! ## Beta projectors and the coupling operator -/

/-- Modelled from the spec: the per-chunk offset metadata `beta_chunk_t` (not
part of the sources): the number of projectors of the chunk and the index of
its first projector. -/
structure beta_chunk_t where
  /-- Number of beta projectors of the chunk. -/
  num_beta_ : Nat
  /-- Offset of the chunk in the list of all beta projectors. -/
  offset_ : Nat
deriving DecidableEq, Repr

/-- Modelled from the spec: the coefficient storage `beta_projectors_coeffs_t`
(not part of the sources) handed out by `prepare()` and filled by `generate`:
the reusable buffer and the descriptor of the chunk it holds. -/
structure beta_projectors_coeffs_t (T : Type) where
  /-- Plane-wave coefficients of the current chunk. -/
  pw_coeffs_a : mdarray T
  /-- Descriptor of the current chunk. -/
  beta_chunk : beta_chunk_t

/-- Modelled from the spec: the projector collaborator `Beta_projectors_base`
(its header is not part of the sources).  It provides the number of chunks, the
total projector count, per-chunk offset metadata and the projector coefficients
`pw_coeffs_all g xi` of every G-vector `g` and projector `xi`. -/
structure Beta_projectors_base (T : Type) where
  /-- Number of local G+k vectors (rows of every coefficient block). -/
  num_gkvec_loc : Nat
  /-- Total number of beta projectors. -/
  num_total_beta_ : Nat
  /-- Chunk descriptors, in iteration order. -/
  beta_chunks : List beta_chunk_t
  /-- Projector coefficients of all atoms. -/
  pw_coeffs_all : Nat → Nat → T

/-- Modelled from the spec: number of chunks, `num_chunks()`. -/
def Beta_projectors_base.num_chunks {T : Type} (bp : Beta_projectors_base T) : Nat :=
  bp.beta_chunks.length

/-- Modelled from the spec: total number of projectors, `num_total_beta()`. -/
def Beta_projectors_base.num_total_beta {T : Type} (bp : Beta_projectors_base T) : Nat :=
  bp.num_total_beta_

/-- Modelled from the spec: largest chunk size, `max_num_beta()`, the column
count of the reusable buffer. -/
def Beta_projectors_base.max_num_beta {T : Type} (bp : Beta_projectors_base T) : Nat :=
  (bp.beta_chunks.map beta_chunk_t.num_beta_).foldl max 0

/-- Modelled from the spec: `prepare()` returns the reusable coefficient buffer;
its content is not initialised. -/
def Beta_projectors_base.prepare {T : Type} (bp : Beta_projectors_base T)
    (fresh : Nat → T) : beta_projectors_coeffs_t T :=
  { pw_coeffs_a := ⟨bp.num_gkvec_loc, bp.max_num_beta, fresh⟩
    beta_chunk := ⟨0, 0⟩ }

/-- Modelled from the spec: `generate(buffer, ichunk)` fills the buffer with the
projector coefficients of chunk `ichunk` (overwriting it in place) and records
the chunk descriptor.  The filled array has one column per projector of the
chunk; storage behind these columns keeps what an earlier call left there. -/
def Beta_projectors_base.generate {T : Type} (bp : Beta_projectors_base T)
    (coeffs : beta_projectors_coeffs_t T) (ichunk : Nat) : beta_projectors_coeffs_t T :=
  let c := bp.beta_chunks.getD ichunk ⟨0, 0⟩
  { pw_coeffs_a :=
      ⟨bp.num_gkvec_loc, c.num_beta_,
        store_block coeffs.pw_coeffs_a.data bp.num_gkvec_loc 0 0 bp.num_gkvec_loc c.num_beta_
          (fun g t => bp.pw_coeffs_all g (c.offset_ + t))⟩
    beta_chunk := c }

/-- Modelled from the spec: `inner(..., beta_coeffs, X, idx0, n)` returns the
inner product `Beta_chunk^H · X` of the chunk coefficients with the columns
`idx0 .. idx0 + n - 1` of `X`, a fresh array with one row per projector of the
chunk (one process: the reduction over processes is the identity). -/
def inner {T : Type} [Field T] [StarRing T] (beta_coeffs : beta_projectors_coeffs_t T)
    (X : mdarray T) (idx0 n : Nat) (fresh : Nat → T) : mdarray T :=
  let nbeta := beta_coeffs.pw_coeffs_a.size1
  { size0 := nbeta
    size1 := n
    data := gemm_CN nbeta n beta_coeffs.pw_coeffs_a.size0 1 beta_coeffs.pw_coeffs_a.data
      beta_coeffs.pw_coeffs_a.ld (X.ptr 0 idx0) X.ld 0 fresh nbeta 0 0 }

/-- Modelled from the spec: the coupling operator `Q_operator`, a fixed matrix
per spin block supplied externally; `size(0) = size(1)` is the total number of
projectors. -/
structure Q_operator (T : Type) where
  /-- Dimension of the packed matrix. -/
  size_ : Nat
  /-- Matrix element `(i, j)` of spin block `ispn`. -/
  q_mtrx : Int → Nat → Nat → T

/-- Modelled from the spec: dimension `q_op.size(i)` of the coupling matrix. -/
def Q_operator.size {T : Type} (q : Q_operator T) (_i : Nat) : Nat := q.size_

/-- Modelled from the spec: `rmatmul(out, B, ispn, mem, alpha, beta)` computes
`out ← alpha * Q * B + beta * out`. -/
def Q_operator.rmatmul {T : Type} [Field T] (q : Q_operator T) (out B : mdarray T)
    (ispn : Int) (alpha beta : T) : mdarray T :=
  { out with
    data := store_block out.data out.ld 0 0 q.size_ B.size1 (fun i j =>
      alpha * (∑ l in range q.size_, q.q_mtrx ispn i l * B.get l j) + beta * out.get i j) }

/-- Modelled from the spec: `lmatmul(out, B, ispn, mem, alpha, beta)` computes
`out ← alpha * B * Q + beta * out`. -/
def Q_operator.lmatmul {T : Type} [Field T] (q : Q_operator T) (out B : mdarray T)
    (ispn : Int) (alpha beta : T) : mdarray T :=
  { out with
    data := store_block out.data out.ld 0 0 B.size0 q.size_ (fun i j =>
      alpha * (∑ l in range q.size_, B.get i l * q.q_mtrx ispn l j) + beta * out.get i j) }

/-- Content of the memory that one call of `apply` allocates without
initialising it. -/
structure fresh_memory (T : Type) where
  /-- Content of the coefficient buffer returned by `prepare()`. -/
  beta : Nat → T
  /-- Content of `bphi` at allocation. -/
  bphi : Nat → T
  /-- Content of the arrays returned by `inner`, per chunk. -/
  bphi_loc : Nat → Nat → T
  /-- Content of `R` at allocation. -/
  R : Nat → T
  /-- Content of `Y` at allocation (the one-argument `apply`). -/
  Y : Nat → T

/-! ## `S_k` -/

/-- Forward overlap operator `S_k` (the simulation context only selects memory
and backend and is left out). -/
structure S_k (T : Type) where
  /-- Coupling operator. -/
  q_op : Q_operator T
  /-- Beta projectors of the k-point. -/
  bp : Beta_projectors_base T
  /-- Spin index. -/
  ispn : Int

/-- The arguments of `apply(Y, X)` as the caller sees them after the call. -/
structure apply_args (T : Type) where
  /-- Output array. -/
  Y : mdarray T
  /-- Input array (passed by const reference). -/
  X : mdarray T

/-- Body of the band loop of step (a): the copy of column `lbnd` of `bphi_loc`
to `bphi(beta_offset .., lbnd)`. -/
def copy_band {T : Type} (bphi_loc : mdarray T) (beta_offset : Nat) (bphi : mdarray T)
    (lbnd : Nat) : mdarray T :=
  { bphi with
    data := copy_n (bphi_loc.ptr 0 lbnd) bphi.data (bphi.idx beta_offset lbnd) bphi_loc.size0 }

/-- Body of the chunk loop of step (a): generate the coefficients of chunk
`ichunk`, take the inner product with `X` and copy it, band by band, into `bphi`
at the chunk offset. -/
def bphi_step {T : Type} [Field T] [StarRing T] (bp : Beta_projectors_base T)
    (X : mdarray T) (nbnd : Nat) (fresh : fresh_memory T)
    (st : beta_projectors_coeffs_t T × mdarray T) (ichunk : Nat) :
    beta_projectors_coeffs_t T × mdarray T :=
  let beta_coeffs := bp.generate st.1 ichunk
  let bphi_loc := inner beta_coeffs X 0 nbnd (fresh.bphi_loc ichunk)
  let beta_offset := beta_coeffs.beta_chunk.offset_
  (beta_coeffs, (List.range nbnd).foldl (copy_band bphi_loc beta_offset) st.2)

/-- Step (a) of `apply`: the loop over the chunks `0 .. num_chunks() - 1`. -/
def bphi_loop {T : Type} [Field T] [StarRing T] (bp : Beta_projectors_base T)
    (X : mdarray T) (nbnd : Nat) (fresh : fresh_memory T)
    (beta_coeffs : beta_projectors_coeffs_t T) (bphi : mdarray T) :
    beta_projectors_coeffs_t T × mdarray T :=
  (List.range bp.num_chunks).foldl (bphi_step bp X nbnd fresh) (beta_coeffs, bphi)

/-- Body of the chunk loop of step (d): generate the coefficients of chunk
`ichunk` and add `Beta_chunk · R[offset .., :]` to `Y` by a `gemm` whose inner
dimension is the column count of the generated coefficient array. -/
def accumulate_step {T : Type} [Field T] (bp : Beta_projectors_base T) (R : mdarray T)
    (st : beta_projectors_coeffs_t T × mdarray T) (ichunk : Nat) :
    beta_projectors_coeffs_t T × mdarray T :=
  let beta_coeffs := bp.generate st.1 ichunk
  let Y := st.2
  let m := Y.size0
  let n := Y.size1
  let k := beta_coeffs.pw_coeffs_a.size1
  (beta_coeffs,
    { Y with
      data := gemm_NN m n k 1 beta_coeffs.pw_coeffs_a.data beta_coeffs.pw_coeffs_a.ld
        (R.ptr beta_coeffs.beta_chunk.offset_ 0) R.ld 1 Y.data Y.ld 0 0 })

/-- Step (d) of `apply`: the loop over the chunks `0 .. num_chunks() - 1`. -/
def accumulate_loop {T : Type} [Field T] (bp : Beta_projectors_base T) (R : mdarray T)
    (beta_coeffs : beta_projectors_coeffs_t T) (Y : mdarray T) :
    beta_projectors_coeffs_t T × mdarray T :=
  (List.range bp.num_chunks).foldl (accumulate_step bp R) (beta_coeffs, Y)

/-- `S_k::apply(Y, X)`. -/
def S_k.apply {T : Type} [Field T] [StarRing T] (op : S_k T) (Y X : mdarray T)
    (fresh : fresh_memory T) : apply_args T :=
  let nbnd := X.size1
  let beta_coeffs := op.bp.prepare fresh.beta
  let num_beta := op.bp.num_total_beta
  let bphi : mdarray T := ⟨num_beta, nbnd, fresh.bphi⟩
  let st := bphi_loop op.bp X nbnd fresh beta_coeffs bphi
  let beta_coeffs := st.1
  let bphi := st.2
  let R : mdarray T := ⟨op.q_op.size 0, bphi.size1, fresh.R⟩
  let R := op.q_op.rmatmul R bphi op.ispn 1 0
  let Y := sddk_copy Y X
  let st := accumulate_loop op.bp R beta_coeffs Y
  { Y := st.2, X := X }

/-- `S_k::apply(X)`: allocates `Y` like `X`, calls `apply(Y, X)` and returns
`Y`. -/
def S_k.apply₁ {T : Type} [Field T] [StarRing T] (op : S_k T) (X : mdarray T)
    (fresh : fresh_memory T) : mdarray T :=
  let Y : mdarray T := ⟨X.size0, X.size1, fresh.Y⟩
  (op.apply Y X fresh).Y

/-- The chunk descriptors starting at projector `off` cover `off .. N - 1`
consecutively: no gaps and no overlaps. -/
def partition_from : Nat → List beta_chunk_t → Nat → Prop
  | off, [], N => off = N
  | off, c :: cs, N => c.offset_ = off ∧ partition_from (off + c.num_beta_) cs N

/-- The chunks partition the projectors `0 .. num_total_beta - 1`. -/
def Beta_projectors_base.chunks_partition {T : Type} (bp : Beta_projectors_base T) : Prop :=
  partition_from 0 bp.beta_chunks bp.num_total_beta

/-- The full projector matrix `Beta`: all projector coefficients, G-vectors by
projectors. -/
def Beta_projectors_base.Beta {T : Type} (bp : Beta_projectors_base T) :
    Matrix (Fin bp.num_gkvec_loc) (Fin bp.num_total_beta) T :=
  fun g xi => bp.pw_coeffs_all g.val xi.val

/-- The coupling matrix `Q` of spin block `ispn`, as an `N × N` matrix. -/
def Q_operator.Q {T : Type} (q : Q_operator T) (ispn : Int) (N : Nat) :
    Matrix (Fin N) (Fin N) T :=
  fun i j => q.q_mtrx ispn i.val j.val

/-- Element `(xi, b)` of `Beta^H · X`. -/
def BHX {T : Type} [Field T] [StarRing T] (bp : Beta_projectors_base T) (X : mdarray T)
    (xi b : Nat) : T :=
  ∑ g in range bp.num_gkvec_loc, star (bp.pw_coeffs_all g xi) * X.get g b

/-- What a call `apply(Y, X)` of an operator built from `bp` and `q_op` takes
for granted: the chunks partition the projectors, `Q` has one row per
projector, `X` has one row per G-vector and `Y` has the shape of `X`. -/
def apply_ready {T : Type} (bp : Beta_projectors_base T) (q_op : Q_operator T)
    (Y X : mdarray T) : Prop :=
  bp.chunks_partition ∧ q_op.size_ = bp.num_total_beta ∧ X.size0 = bp.num_gkvec_loc ∧
    Y.size0 = X.size0 ∧ Y.size1 = X.size1

/-! ## LAPACK: LU factorization with row pivoting and the solve

The routines read and write the window of the storage they are given
(`m × n` elements from the base pointer with leading dimension `lda`); inside
they work on the window as a function of row and column. -/

/-- The `m × n` window of column-major storage: element `(i, j)` for `i < m`,
`j < n`, zero elsewhere. -/
def window {T : Type} [Zero T] (A : Nat → T) (lda m n : Nat) : Nat → Nat → T :=
  fun i j => if i < m ∧ j < n then A (i + j * lda) else 0

/-- Pivot search of step `j` (`izamax` on rows `j .. m - 1` of column `j`): the
first row whose element has the largest magnitude. -/
def pivot_search {T : Type} [Zero T] [PivotAbs T] (m : Nat) (A : Nat → Nat → T) (j : Nat) :
    Nat :=
  (List.range' (j + 1) (m - (j + 1))).foldl
    (fun p i => if PivotAbs.cabs1 (A p j) < PivotAbs.cabs1 (A i j) then i else p) j

/-- Interchange of rows `r` and `s` over the columns `0 .. n - 1` (`swap`). -/
def swap_rows {T : Type} (n : Nat) (A : Nat → Nat → T) (r s : Nat) : Nat → Nat → T :=
  fun i k => if k < n then A (Equiv.swap r s i) k else A i k

/-- Division of the elements below the diagonal of column `j` by the pivot
`A j j`. -/
def scale_column {T : Type} [Field T] (m : Nat) (A : Nat → Nat → T) (j : Nat) :
    Nat → Nat → T :=
  fun i k => if k = j ∧ j < i ∧ i < m then A i j / A j j else A i k

/-- Rank-one update of the trailing block (`geru` with factor `-1`):
`A i k ← A i k - A i j * A j k` for `j < i < m`, `j < k < n`. -/
def rank1_update {T : Type} [Field T] (m n : Nat) (A : Nat → Nat → T) (j : Nat) :
    Nat → Nat → T :=
  fun i k => if j < i ∧ i < m ∧ j < k ∧ k < n then A i k - A i j * A j k else A i k

/-- State of the factorization: the matrix being overwritten by the factors,
the pivot rows (numbered from one, as LAPACK does) and the status `info`. -/
structure getf2_state (T : Type) where
  /-- Matrix, overwritten in place. -/
  A : Nat → Nat → T
  /-- Pivot indices: row `j` was interchanged with row `ipiv j - 1`. -/
  ipiv : Nat → Nat
  /-- Status: `0`, or `j + 1` for the first column `j` whose pivot is exactly
  zero. -/
  info : Nat

/-- Step `j` of the unblocked factorization `getf2`: pivot search, record the
pivot; if the pivot is non-zero interchange the rows and scale the column,
otherwise set `info` (when still zero); then update the trailing block. -/
def getf2_step {T : Type} [Field T] [DecidableEq T] [PivotAbs T] (m n : Nat)
    (st : getf2_state T) (j : Nat) : getf2_state T :=
  let jp := pivot_search m st.A j
  let ipiv := Function.update st.ipiv j (jp + 1)
  let A1 := if st.A jp j ≠ 0 then scale_column m (swap_rows n st.A j jp) j else st.A
  let info := if st.A jp j ≠ 0 then st.info else if st.info = 0 then j + 1 else st.info
  ⟨rank1_update m n A1 j, ipiv, info⟩

/-- Unblocked LU factorization with row pivoting of an `m × n` matrix. -/
def getf2 {T : Type} [Field T] [DecidableEq T] [PivotAbs T] (m n : Nat)
    (A : Nat → Nat → T) : getf2_state T :=
  (List.range (min m n)).foldl (getf2_step m n) ⟨A, fun _ => 0, 0⟩

/-- What `getrf` leaves behind: the storage holding the factors, the pivot
array and the returned status. -/
structure getrf_result (T : Type) where
  /-- Storage of `A`, overwritten by `L` (below the diagonal) and `U`. -/
  A : Nat → T
  /-- Pivot array. -/
  ipiv : Nat → Nat
  /-- Returned status: positive when a pivot was exactly zero (singular `U`). -/
  info : Nat

/-- LAPACK `getrf(m, n, A, lda, ipiv)`: the factorization `P * A = L * U` with
row pivoting, computed in place; the status is returned.  The check of the
arguments (negative status) is not modelled. -/
def getrf {T : Type} [Field T] [DecidableEq T] [PivotAbs T] (m n : Nat) (A : Nat → T)
    (lda : Nat) (ipiv : Nat → Nat) : getrf_result T :=
  let st := getf2 m n (window A lda m n)
  { A := store_block A lda 0 0 m n st.A
    ipiv := fun j => if j < min m n then st.ipiv j else ipiv j
    info := st.info }

/-- Row interchanges `laswp`: for `i = 0 .. n - 1` in this order, rows `i`
and `ipiv i - 1` of `B` are interchanged. -/
def laswp {T : Type} (n nrhs : Nat) (B : Nat → Nat → T) (ipiv : Nat → Nat) : Nat → Nat → T :=
  (List.range n).foldl (fun B i => swap_rows nrhs B i (ipiv i - 1)) B

/-- Forward substitution `trsm('L', 'L', 'N', 'U')` with the unit lower
triangle of `A`: row `i` becomes `B i - Σ_{t < i} A i t * B t`, for
`i = 0 .. n - 1`. -/
def trsm_lower_unit {T : Type} [Field T] (n : Nat) (A B : Nat → Nat → T) : Nat → Nat → T :=
  (List.range n).foldl
    (fun B i => fun r c => if r = i then B i c - ∑ t in range i, A i t * B t c else B r c) B

/-- Back substitution `trsm('L', 'U', 'N', 'N')` with the upper triangle of
`A`: row `i` becomes `(B i - Σ_{i < t < n} A i t * B t) / A i i`, for
`i = n - 1` down to `0`. -/
def trsm_upper {T : Type} [Field T] (n : Nat) (A B : Nat → Nat → T) : Nat → Nat → T :=
  (List.range n).foldr
    (fun i B => fun r c =>
      if r = i then (B i c - ∑ t in Finset.Ico (i + 1) n, A i t * B t c) / A i i else B r c) B

/-- LAPACK `getrs('N', n, nrhs, A, lda, ipiv, B, ldb)`: solves `A * X = B` from
the factors and pivots left by `getrf`, overwriting `B` with `X`. -/
def getrs {T : Type} [Field T] (n nrhs : Nat) (A : Nat → T) (lda : Nat) (ipiv : Nat → Nat)
    (B : Nat → T) (ldb : Nat) : Nat → T :=
  let a := window A lda n n
  let piv := fun i => if i < n then ipiv i else 0
  let b := window B ldb n nrhs
  let b := laswp n nrhs b piv
  let b := trsm_lower_unit n a b
  let b := trsm_upper n a b
  store_block B ldb 0 0 n nrhs b

/-! ## `InverseS_k` -/

/-- Content of the memory that `initialize` allocates without initialising
it. -/
structure fresh_init (T : Type) where
  /-- Content of the row coefficient buffer. -/
  beta_row : Nat → T
  /-- Content of the column coefficient buffer. -/
  beta_col : Nat → T
  /-- Content of `B` at allocation. -/
  B : Nat → T
  /-- Content of `BQ` at allocation. -/
  BQ : Nat → T
  /-- Content of `LU` at allocation. -/
  LU : Nat → T
  /-- Content of `ipiv` at allocation. -/
  ipiv : Nat → Nat

/-- Modelled from the spec: body of the inner chunk loop of `inner_beta`; the
block `Beta_i^H · Beta_j` is written at `(offset_i, offset_j)`. -/
def inner_beta_col_step {T : Type} [Field T] [StarRing T] (bp : Beta_projectors_base T)
    (bcoeffs_row : beta_projectors_coeffs_t T)
    (st : beta_projectors_coeffs_t T × mdarray T) (jchunk : Nat) :
    beta_projectors_coeffs_t T × mdarray T :=
  let bcoeffs_col := bp.generate st.1 jchunk
  let out := st.2
  let m := bcoeffs_row.pw_coeffs_a.size1
  let n := bcoeffs_col.pw_coeffs_a.size1
  let k := bcoeffs_col.pw_coeffs_a.size0
  let dest_row := bcoeffs_row.beta_chunk.offset_
  let dest_col := bcoeffs_col.beta_chunk.offset_
  (bcoeffs_col,
    { out with
      data := gemm_CN m n k 1 bcoeffs_row.pw_coeffs_a.data bcoeffs_row.pw_coeffs_a.ld
        bcoeffs_col.pw_coeffs_a.data bcoeffs_col.pw_coeffs_a.ld 0 out.data out.ld
        dest_row dest_col })

/-- Modelled from the spec: body of the outer chunk loop of `inner_beta`. -/
def inner_beta_row_step {T : Type} [Field T] [StarRing T] (bp : Beta_projectors_base T)
    (st : beta_projectors_coeffs_t T × beta_projectors_coeffs_t T × mdarray T)
    (ichunk : Nat) : beta_projectors_coeffs_t T × beta_projectors_coeffs_t T × mdarray T :=
  let bcoeffs_row := bp.generate st.1 ichunk
  let r := (List.range bp.num_chunks).foldl (inner_beta_col_step bp bcoeffs_row) st.2
  (bcoeffs_row, r)

/-- Modelled from the spec: `inner_beta` computes `B = Beta^H · Beta` by chunked
inner products over all pairs of projector chunks. -/
def inner_beta {T : Type} [Field T] [StarRing T] (bp : Beta_projectors_base T)
    (fresh : fresh_init T) : mdarray T :=
  let size := bp.num_total_beta
  let out : mdarray T := ⟨size, size, fresh.B⟩
  ((List.range bp.num_chunks).foldl (inner_beta_row_step bp)
    (bp.prepare fresh.beta_row, bp.prepare fresh.beta_col, out)).2.2

/-- Inverse overlap operator `InverseS_k`: the references it keeps and the
stored factorization. -/
structure InverseS_k (T : Type) where
  /-- Coupling operator. -/
  q_op : Q_operator T
  /-- Beta projectors of the k-point. -/
  bp : Beta_projectors_base T
  /-- Spin index. -/
  ispn : Int
  /-- Storage of the LU factors. -/
  LU : mdarray T
  /-- Pivot indices. -/
  ipiv : Nat → Nat

/-- The matrix `I + B·Q` as `initialize` forms it before factorizing: `B` from
`inner_beta`, `BQ ← B * Q` by `lmatmul`, then `axpy` of `n` ones with stride
`n + 1` onto the storage of `BQ`. -/
def InverseS_k.form_matrix {T : Type} [Field T] [StarRing T] (q_op : Q_operator T)
    (bp : Beta_projectors_base T) (ispn : Int) (fresh : fresh_init T) : mdarray T :=
  let B := inner_beta bp fresh
  let BQ : mdarray T := ⟨B.size0, q_op.size 1, fresh.BQ⟩
  let BQ := q_op.lmatmul BQ B ispn 1 0
  let n := BQ.size0
  let ones : Nat → T := fun _ => 1
  { BQ with data := axpy n 1 ones 1 BQ.data (n + 1) }

/-- The call of `getrf` made by `initialize`, on a copy `LU` of the matrix
formed before. -/
def InverseS_k.factorize {T : Type} [Field T] [StarRing T] [DecidableEq T] [PivotAbs T]
    (q_op : Q_operator T) (bp : Beta_projectors_base T) (ispn : Int) (fresh : fresh_init T) :
    getrf_result T :=
  let BQ := InverseS_k.form_matrix q_op bp ispn fresh
  let n := BQ.size0
  let LU : mdarray T := ⟨BQ.size0, BQ.size1, fresh.LU⟩
  let LU := sddk_copy LU BQ
  getrf n n LU.data LU.ld fresh.ipiv

/-- `InverseS_k::initialize`, as run by the constructor: the factors and pivots
are stored; the status returned by `getrf` is not looked at. -/
def InverseS_k.initialize {T : Type} [Field T] [StarRing T] [DecidableEq T] [PivotAbs T]
    (q_op : Q_operator T) (bp : Beta_projectors_base T) (ispn : Int) (fresh : fresh_init T) :
    InverseS_k T :=
  let BQ := InverseS_k.form_matrix q_op bp ispn fresh
  let r := InverseS_k.factorize q_op bp ispn fresh
  { q_op := q_op
    bp := bp
    ispn := ispn
    LU := ⟨BQ.size0, BQ.size1, r.A⟩
    ipiv := r.ipiv }

/-- The constructor `InverseS_k(ctx, q_op, bp, ispn)`: it runs `initialize` and
has no failing path. -/
def InverseS_k.construct {T : Type} [Field T] [StarRing T] [DecidableEq T] [PivotAbs T]
    (q_op : Q_operator T) (bp : Beta_projectors_base T) (ispn : Int) (fresh : fresh_init T) :
    Except String (InverseS_k T) :=
  Except.ok ( InverseS_k.initialize q_op bp ispn fresh)

/-- The operator and the arguments of `InverseS_k::apply(Y, X)` after the
call. -/
structure inverse_apply_result (T : Type) where
  /-- The operator (its stored factorization) after the call. -/
  self : InverseS_k T
  /-- Output array. -/
  Y : mdarray T
  /-- Input array (passed by const reference). -/
  X : mdarray T

/-- `InverseS_k::apply(Y, X)`. -/
def InverseS_k.apply {T : Type} [Field T] [StarRing T] (op : InverseS_k T) (Y X : mdarray T)
    (fresh : fresh_memory T) : inverse_apply_result T :=
  let nbnd := X.size1
  let beta_coeffs := op.bp.prepare fresh.beta
  let num_beta := op.bp.num_total_beta
  let bphi : mdarray T := ⟨num_beta, nbnd, fresh.bphi⟩
  let st := bphi_loop op.bp X nbnd fresh beta_coeffs bphi
  let beta_coeffs := st.1
  let bphi := st.2
  let bphi : mdarray T :=
    { bphi with data := getrs num_beta nbnd op.LU.data op.LU.ld op.ipiv bphi.data bphi.ld }
  let R : mdarray T := ⟨op.q_op.size 0, bphi.size1, fresh.R⟩
  let R := op.q_op.rmatmul R bphi op.ispn (-1) 0
  let Y := sddk_copy Y X
  let st := accumulate_loop op.bp R beta_coeffs Y
  { self := op, Y := st.2, X := X }

/-- `InverseS_k::apply(X)`: allocates `Y` like `X`, calls `apply(Y, X)` and
returns `Y`. -/
def InverseS_k.apply₁ {T : Type} [Field T] [StarRing T] (op : InverseS_k T) (X : mdarray T)
    (fresh : fresh_memory T) : mdarray T :=
  let Y : mdarray T := ⟨X.size0, X.size1, fresh.Y⟩
  (op.apply Y X fresh).Y

/-! ## Notions used to state the correctness of the factorization -/

/-- Row permutation accumulated by the first `j` interchanges recorded in
`ipiv`. -/
def perm_of (ipiv : Nat → Nat) (j : Nat) : Equiv.Perm Nat :=
  (List.range j).foldl (fun σ t => σ * Equiv.swap t (ipiv t - 1)) 1

/-- Invariant of the in-place factorization after `j` steps: the row-permuted
input equals the product of the unit lower factor built so far (columns
`< j` of `M`) with the rows `< j` of `U` and the trailing block held in `M`. -/
def lu_inv {T : Type} [Field T] (A0 : Nat → Nat → T) (n : Nat) (σ : Equiv.Perm Nat) (j : Nat)
    (M : Nat → Nat → T) : Prop :=
  ∀ i k, i < n → k < n →
    A0 (σ i) k = (∑ t in range j, if t < i ∧ t ≤ k then M i t * M t k else 0)
      + (if (i < j ∧ i ≤ k) ∨ (j ≤ i ∧ j ≤ k) then M i k else 0)

/-- The matrix in the `m × n` window of a storage with leading dimension
`lda`. -/
def window_matrix {T : Type} (A : Nat → T) (lda m n : Nat) : Matrix (Fin m) (Fin n) T :=
  fun i j => A (i.val + j.val * lda)

/-- Unit lower triangular factor held below the diagonal of `M`. -/
def lower_factor {T : Type} [Field T] (n : Nat) (M : Nat → Nat → T) : Matrix (Fin n) (Fin n) T :=
  fun i t => if t.val < i.val then M i.val t.val else if t.val = i.val then 1 else 0

/-- Upper triangular factor held on and above the diagonal of `M`. -/
def upper_factor {T : Type} [Field T] (n : Nat) (M : Nat → Nat → T) : Matrix (Fin n) (Fin n) T :=
  fun t k => if t.val ≤ k.val then M t.val k.val else 0

/-- A matrix as a function of row and column, zero outside its index range. -/
def of_matrix {T : Type} [Zero T] {m n : Nat} (M : Matrix (Fin m) (Fin n) T) : Nat → Nat → T :=
  fun i j => if h : i < m ∧ j < n then M ⟨i, h.1⟩ ⟨j, h.2⟩ else 0

/-- What `getrs` computes from the right-hand side `Bm`, given the storage of
the factors and the pivots: interchanges, forward and back substitution. -/
def getrs_fn {T : Type} [Field T] (n nrhs : Nat) (A : Nat → T) (lda : Nat) (ipiv : Nat → Nat)
    (Bm : Matrix (Fin n) (Fin nrhs) T) : Matrix (Fin n) (Fin nrhs) T :=
  fun r c =>
    trsm_upper n (window A lda n n)
      (trsm_lower_unit n (window A lda n n)
        (laswp n nrhs (of_matrix Bm) (fun i => if i < n then ipiv i else 0))) r.val c.val

/-- Factorize `W` with row pivoting and solve for the right-hand side `Bm` with
the factors: what `getrf` followed by `getrs` computes. -/
def lu_solve_fn {T : Type} [Field T] [DecidableEq T] [PivotAbs T] (n nrhs : Nat)
    (W : Matrix (Fin n) (Fin n) T) (Bm : Matrix (Fin n) (Fin nrhs) T) :
    Matrix (Fin n) (Fin nrhs) T :=
  fun r c =>
    trsm_upper n (getf2 n n (of_matrix W)).A
      (trsm_lower_unit n (getf2 n n (of_matrix W)).A
        (laswp n nrhs (of_matrix Bm) (getf2 n n (of_matrix W)).ipiv)) r.val c.val

/-- The small dense matrix `B = Beta^H · Beta`. -/
def Beta_projectors_base.B {T : Type} [Field T] [StarRing T] (bp : Beta_projectors_base T) :
    Matrix (Fin bp.num_total_beta) (Fin bp.num_total_beta) T :=
  bp.Beta.conjTranspose * bp.Beta

/-- The matrix `I + B·Q` that `initialize` factorizes. -/
def small_matrix {T : Type} [Field T] [StarRing T] (q_op : Q_operator T)
    (bp : Beta_projectors_base T) (ispn : Int) :
    Matrix (Fin bp.num_total_beta) (Fin bp.num_total_beta) T :=
  1 + bp.B * q_op.Q ispn bp.num_total_beta

/-- What the one-argument `apply(X)` of an operator built from `bp` and `q_op`
takes for granted: the chunks partition the projectors, `Q` has one row per
projector and `X` has one row per G-vector. -/
def input_ready {T : Type} (bp : Beta_projectors_base T) (q_op : Q_operator T)
    (X : mdarray T) : Prop :=
  bp.chunks_partition ∧ q_op.size_ = bp.num_total_beta ∧ X.size0 = bp.num_gkvec_loc

end

section

/-! ## A small concrete configuration

Two G-vectors, two projectors, rational coefficients. -/

/-- Projectors `Beta = [[1, 2], [0, 1]]`, split into two chunks of one
projector. -/
def ex_bp : Beta_projectors_base ℚ :=
  { num_gkvec_loc := 2
    num_total_beta_ := 2
    beta_chunks := [⟨1, 0⟩, ⟨1, 1⟩]
    pw_coeffs_all := fun g xi => if g = xi then 1 else if g = 0 then 2 else 0 }

/-- Coupling matrix `Q = [[1, 0], [0, 1]]` for every spin block. -/
def ex_q : Q_operator ℚ :=
  { size_ := 2
    q_mtrx := fun _ i j => if i = j then 1 else 0 }

/-- One band, `X = [1, 2]`. -/
def ex_X : mdarray ℚ := ⟨2, 1, fun a => (a : ℚ) + 1⟩

/-- An output array of the shape of `ex_X` with arbitrary content. -/
def ex_Y : mdarray ℚ := ⟨2, 1, fun _ => 7⟩

/-- Arbitrary content of the memory allocated by `apply`. -/
def ex_fresh : fresh_memory ℚ :=
  { beta := fun _ => 5, bphi := fun _ => 3, bphi_loc := fun _ _ => 4, R := fun _ => 9,
    Y := fun _ => 7 }

/-- Arbitrary content of the memory allocated by `initialize`. -/
def ex_finit : fresh_init ℚ :=
  { beta_row := fun _ => 5, beta_col := fun _ => 6, B := fun _ => 3, BQ := fun _ => 4,
    LU := fun _ => 9, ipiv := fun _ => 0 }

/-- The chunk list of the same two projectors as one chunk. -/
def ex_one_chunk : List beta_chunk_t := [⟨2, 0⟩]

/-- One G-vector and one projector with coefficient `1`. -/
def sing_bp : Beta_projectors_base ℚ :=
  { num_gkvec_loc := 1
    num_total_beta_ := 1
    beta_chunks := [⟨1, 0⟩]
    pw_coeffs_all := fun _ _ => 1 }

/-- Coupling matrix `Q = [-1]`, for which `I + B·Q = [0]` with `sing_bp`. -/
def sing_q : Q_operator ℚ :=
  { size_ := 1
    q_mtrx := fun _ _ _ => -1 }

/-! ## Keyed operator dispatch (`Overlap_operators`, `UltrasoftPrecond`) -/

/-- Key of an operator, `std::pair<int, int>`: (k-point index, spin index). -/
abbrev key_t : Type := Int × Int

/-- Order of `std::pair`: lexicographic. -/
def key_lt (a b : key_t) : Prop := a.1 < b.1 ∨ (a.1 = b.1 ∧ a.2 < b.2)

instance key_lt_decidable (a b : key_t) : Decidable (key_lt a b) := by
  unfold key_lt
  exact inferInstance

/-- Content of a `std::map<key_t, V>`: the entries in increasing key order. -/
abbrev std_map (V : Type) : Type := List (key_t × V)

/-- Assignment `data[key] = value` of `std::map`: the entry is inserted at its
place in the key order, or replaced when the key is present. -/
def std_map.assign {V : Type} (k : key_t) (v : V) : std_map V → std_map V
  | [] => [(k, v)]
  | (k', v') :: rest =>
    if key_lt k k' then (k, v) :: (k', v') :: rest
    else if key_lt k' k then (k', v') :: std_map.assign k v rest
    else (k, v) :: rest

/-- Lookup `data.at(key)` of `std::map`: the value, or nothing when the key is
absent (`std::out_of_range` is thrown). -/
def std_map.at {V : Type} (k : key_t) : std_map V → Option V
  | [] => none
  | (k', v') :: rest => if k' = k then some v' else std_map.at k rest

/-- The keys in iteration order. -/
def std_map.keys {V : Type} (m : std_map V) : List key_t := m.map Prod.fst

/-- What the constructors read from the k-point set: the global indices of the
local k-points (`spl_num_kpoints(ik_loc)` for
`ik_loc < spl_num_kpoints().local_size()`) and, per k-point, its beta
projectors and its G+k vectors. -/
structure K_point_set (BP GK : Type) where
  /-- Global index of each local k-point, by local index. -/
  spl_num_kpoints : List Int
  /-- Beta projectors of k-point `ik`: `kset[ik]->beta_projectors()`. -/
  beta_projectors : Int → BP
  /-- G+k vectors of k-point `ik`: `kset[ik]->gkvec()`. -/
  gkvec : Int → GK

/-- Number of local k-points, `spl_num_kpoints().local_size()`. -/
def K_point_set.local_size {BP GK : Type} (kset : K_point_set BP GK) : Nat :=
  kset.spl_num_kpoints.length

/-- The nested loop of both constructors: for each local k-point `ik` and each
spin `ispn = 0 .. num_spins - 1`, `data[(ik, ispn)] = make ik ispn`. -/
def fill_data {V : Type} (spl : List Int) (num_spins : Int) (make : Int → Int → V) :
    std_map V :=
  spl.foldl
    (fun data ik =>
      (List.range num_spins.toNat).foldl
        (fun data (ispn : Nat) => std_map.assign (ik, (ispn : Int)) (make ik ispn) data) data)
    []

/-- The keys assigned by the nested loop, in the order of assignment. -/
def assigned_keys (spl : List Int) (num_spins : Int) : List key_t :=
  spl.flatMap
    (fun ik => (List.range num_spins.toNat).map (fun (ispn : Nat) => (ik, (ispn : Int))))

/-- What the constructors read from the simulation context: the number of spin
components `ctx.num_spins()`. -/
structure Simulation_context where
  /-- Number of spin components. -/
  num_spins : Int

/-- The class `Overlap_operators<op_t>`: its map of operators.  `op_t` is the
template parameter. -/
structure Overlap_operators (op_t : Type) where
  /-- The operators by key. -/
  data : std_map op_t

/-- Constructor `Overlap_operators(kset, ctx, q_op)`; `make` is the constructor
`op_t(ctx, q_op, beta_projectors, ispn)` of the template parameter. -/
def Overlap_operators.construct {Q BP GK op_t : Type}
    (make : Simulation_context → Q → BP → Int → op_t)
    (kset : K_point_set BP GK) (ctx : Simulation_context) (q_op : Q) :
    Overlap_operators op_t :=
  ⟨fill_data kset.spl_num_kpoints ctx.num_spins
    (fun ik ispn => make ctx q_op (kset.beta_projectors ik) ispn)⟩

/-- `Overlap_operators::get_keys()`. -/
def Overlap_operators.get_keys {op_t : Type} (self : Overlap_operators op_t) : List key_t :=
  self.data.keys

/-- `Overlap_operators::apply(key, out, in)`: the status of the call and the
content of `out` after it.  `op_apply` is `op_t::apply(out, in)`; the matrix
views made of the two buffers wrap them without copying. -/
def Overlap_operators.apply {op_t Buf : Type} (op_apply : op_t → Buf → Buf → Buf)
    (self : Overlap_operators op_t) (key : key_t) (out inp : Buf) :
    Except String Unit × Buf :=
  match std_map.at key self.data with
  | none => (Except.error "std::out_of_range", out)
  | some op => (Except.ok (), op_apply op out inp)

/-- The class `UltrasoftPrecond`: its map of preconditioners. -/
structure UltrasoftPrecond (op_t : Type) where
  /-- The preconditioners by key. -/
  data : std_map op_t

/-- Constructor `UltrasoftPrecond(kset, ctx, q_op)`; `make` is the constructor
`Ultrasoft_preconditioner(ctx, q_op, ispn, beta_projectors, gkvec)`. -/
def UltrasoftPrecond.construct {Q BP GK op_t : Type}
    (make : Simulation_context → Q → Int → BP → GK → op_t)
    (kset : K_point_set BP GK) (ctx : Simulation_context) (q_op : Q) :
    UltrasoftPrecond op_t :=
  ⟨fill_data kset.spl_num_kpoints ctx.num_spins
    (fun ik ispn => make ctx q_op ispn (kset.beta_projectors ik) (kset.gkvec ik))⟩

/-- `UltrasoftPrecond::get_keys()`. -/
def UltrasoftPrecond.get_keys {op_t : Type} (self : UltrasoftPrecond op_t) : List key_t :=
  self.data.keys

/-- `UltrasoftPrecond::apply(key, out, in)`. -/
def UltrasoftPrecond.apply {op_t Buf : Type} (op_apply : op_t → Buf → Buf → Buf)
    (self : UltrasoftPrecond op_t) (key : key_t) (out inp : Buf) :
    Except String Unit × Buf :=
  match std_map.at key self.data with
  | none => (Except.error "std::out_of_range", out)
  | some op => (Except.ok (), op_apply op out inp)

/-- Two local k-points with global indices `3` and `5`, both with the
projectors of the concrete configuration. -/
def ex_kset : K_point_set (Beta_projectors_base ℚ) Unit :=
  { spl_num_kpoints := [3, 5]
    beta_projectors := fun _ => ex_bp
    gkvec := fun _ => () }

/-! ## Block-cyclic index map of the distributed matrix -/

/-- Modelled from the spec: the distributed matrix `dmatrix` and its index map
are not part of the sources.  Owning process coordinate of global index `i`:
`(i / bs) mod P`. -/
def bc_owner (bs P i : Nat) : Nat := (i / bs) % P

/-- Modelled from the spec: local offset of global index `i` on its owner,
`(i / bs / P) * bs + i mod bs`. -/
def bc_local (bs P i : Nat) : Nat := (i / bs / P) * bs + i % bs

/-- Modelled from the spec: the global index of local offset `loc` on the
process with coordinate `owner`, `((loc / bs) * P + owner) * bs + loc mod bs`. -/
def bc_global (bs P owner loc : Nat) : Nat := ((loc / bs) * P + owner) * bs + loc % bs

/-- Modelled from the spec: a block-cyclic distribution of a matrix over a 2-D
process grid: block sizes and grid dimensions for rows and columns. -/
structure block_cyclic where
  /-- Row block size. -/
  bs_row : Nat
  /-- Column block size. -/
  bs_col : Nat
  /-- Number of process rows. -/
  P_row : Nat
  /-- Number of process columns. -/
  P_col : Nat

/-- Owner (process row, process column) and local (row, column) of the global
element `(i, j)`. -/
def block_cyclic.locate (d : block_cyclic) (ij : Nat × Nat) : (Nat × Nat) × (Nat × Nat) :=
  ((bc_owner d.bs_row d.P_row ij.1, bc_owner d.bs_col d.P_col ij.2),
    (bc_local d.bs_row d.P_row ij.1, bc_local d.bs_col d.P_col ij.2))

/-- Global element held at local `(row, column)` of process `(pr, pc)`. -/
def block_cyclic.global (d : block_cyclic) (p : (Nat × Nat) × (Nat × Nat)) : Nat × Nat :=
  (bc_global d.bs_row d.P_row p.1.1 p.2.1, bc_global d.bs_col d.P_col p.1.2 p.2.2)

/-- The (process, local index) pairs of an `M × N` matrix: processes of the
grid with the local indices whose global element lies in the matrix. -/
def block_cyclic.local_entries (d : block_cyclic) (M N : Nat) :
    Set ((Nat × Nat) × (Nat × Nat)) :=
  { p | p.1.1 < d.P_row ∧ p.1.2 < d.P_col ∧ (d.global p).1 < M ∧ (d.global p).2 < N }

/-! ## `K_point::generate_gkvec` -/

/-- Conversion `int(x)` of a `double` to the 32-bit `int`: the fractional part
is discarded (rounding toward zero).  A value whose integer part is outside the
range of `int` has no conversion defined by the language; it is given the value
`-2^31` that the conversion instruction of x86 returns.  Doubles are rationals
here. -/
def int_of_double (x : ℚ) : Int :=
  let t : Int := if 0 ≤ x then ⌊x⌋ else ⌈x⌉
  if -2 ^ 31 ≤ t ∧ t < 2 ^ 31 then t else -2 ^ 31

/-- Addition `a + b` of two values of the 32-bit `int`, wrapping around at
`2^31`. -/
def int_add (a b : Int) : Int := (a + b + 2 ^ 31) % 2 ^ 32 - 2 ^ 31

/-- What `generate_gkvec` reads from `ctx_` and `unit_cell_`. -/
structure gkvec_context where
  /-- `ctx_.full_potential()`. -/
  full_potential : Bool
  /-- `ctx_.lmax_apw()`. -/
  lmax_apw : Int
  /-- `ctx_.pw_cutoff()`. -/
  pw_cutoff : ℚ
  /-- `unit_cell_.max_mt_radius()`. -/
  max_mt_radius : ℚ
  /-- `ctx_.gamma_point()`. -/
  gamma_point : Bool

/-- The two messages `generate_gkvec` can build, with the values it streams
into them. -/
inductive gkvec_message where
  /-- Message "G+k cutoff (..) is too large for a given lmax (..) and a maximum
  MT radius (..)", followed by "suggested minimum value for lmax : ..". -/
  | lmax_too_small (gk_cutoff : ℚ) (lmax_apw : Int) (max_mt_radius : ℚ) (suggested : Int)
  /-- Message "G+k cutoff is too large for a given plane-wave cutoff", followed
  by the plane-wave cutoff and the doubled G+k cutoff. -/
  | gk_cutoff_too_large (pw_cutoff : ℚ) (doubled_gk_cutoff : ℚ)
deriving DecidableEq

/-- The FFT grid handed to the `Gvec` constructor. -/
inductive fft_grid_choice where
  /-- `ctx_.fft().grid()`. -/
  | fine
  /-- `ctx_.fft_coarse().grid()`. -/
  | coarse
deriving DecidableEq

/-- A created G+k vector set, `Gvec(vk_, lattice, gk_cutoff, grid, num_ranks,
comm, gamma_point)`: the arguments that `generate_gkvec` chooses. -/
structure Gvec where
  /-- Cutoff of the set. -/
  gk_cutoff : ℚ
  /-- FFT grid of the set. -/
  grid : fft_grid_choice
  /-- Whether the Gamma-point reduction is used. -/
  gamma_point : Bool
deriving DecidableEq

/-- The members of `K_point` that `generate_gkvec` assigns; nothing stands for
a member that has not been assigned. -/
structure K_point where
  /-- The G+k vectors, `gkvec_`. -/
  gkvec_ : Option Gvec
  /-- The auxiliary partition for the local potential, `gkvec_vloc_`, by the set
  it partitions. -/
  gkvec_vloc_ : Option Gvec
deriving DecidableEq

/-- What a call of `generate_gkvec` leaves: the warnings printed, and either
the k-point after the call or the message the run was terminated with. -/
structure gkvec_outcome where
  /-- Messages passed to `WARNING`, in order. -/
  warnings : List gkvec_message
  /-- Message passed to `TERMINATE`, or the k-point when the call returns. -/
  result : Except gkvec_message K_point

/-- `K_point::generate_gkvec(gk_cutoff)`.  Modelled from the spec: the macros
`WARNING` and `TERMINATE` are not part of the sources; a warning is printed and
the call goes on, a fatal condition terminates the run at the call site with
its diagnostic. -/
def K_point.generate_gkvec (ctx : gkvec_context) (self : K_point) (gk_cutoff : ℚ) :
    gkvec_outcome :=
  let warnings : List gkvec_message :=
    if ctx.full_potential = true ∧ gk_cutoff * ctx.max_mt_radius > (ctx.lmax_apw : ℚ) then
      [gkvec_message.lmax_too_small gk_cutoff ctx.lmax_apw ctx.max_mt_radius
        (int_add (int_of_double (gk_cutoff * ctx.max_mt_radius)) 1)]
    else []
  if gk_cutoff * 2 > ctx.pw_cutoff then
    { warnings := warnings
      result := Except.error (gkvec_message.gk_cutoff_too_large ctx.pw_cutoff (gk_cutoff * 2)) }
  else if ctx.full_potential = true then
    { warnings := warnings
      result := Except.ok
        { self with gkvec_ := some ⟨gk_cutoff, fft_grid_choice.fine, ctx.gamma_point⟩ } }
  else
    { warnings := warnings
      result := Except.ok
        { gkvec_ := some ⟨gk_cutoff, fft_grid_choice.coarse, ctx.gamma_point⟩
          gkvec_vloc_ := some ⟨gk_cutoff, fft_grid_choice.coarse, ctx.gamma_point⟩ } }

/-- The call returns and has created the G+k vector set. -/
def gkvec_outcome.created (o : gkvec_outcome) : Prop :=
  ∃ kp : K_point, o.result = Except.ok kp ∧ kp.gkvec_.isSome = true

/-- The call was terminated with a diagnostic. -/
def gkvec_outcome.terminated (o : gkvec_outcome) : Prop :=
  ∃ msg : gkvec_message, o.result = Except.error msg

/-- The lmax warning was issued. -/
def gkvec_outcome.lmax_warned (o : gkvec_outcome) : Prop :=
  ∃ g l r s, gkvec_message.lmax_too_small g l r s ∈ o.warnings

/-- The value reported as "suggested minimum value for lmax" by the warnings of
a call, when the lmax warning was issued. -/
def gkvec_outcome.suggested_lmax (o : gkvec_outcome) : Option Int :=
  o.warnings.findSome? (fun m =>
    match m with
    | gkvec_message.lmax_too_small _ _ _ s => some s
    | _ => none)

/-- A full-potential context with `lmax_apw = 8`, plane-wave cutoff `20` and
the largest muffin-tin radius `2`. -/
def ex_ctx : gkvec_context :=
  { full_potential := true, lmax_apw := 8, pw_cutoff := 20, max_mt_radius := 2,
    gamma_point := false }

/-- A k-point before `generate_gkvec`. -/
def ex_kp : K_point := { gkvec_ := none, gkvec_vloc_ := none }

/-- The product `B·Q` as `initialize` holds it in `BQ` after `lmatmul`, before
the identity is added. -/
def InverseS_k.product_BQ {T : Type} [Field T] [StarRing T] (q_op : Q_operator T)
    (bp : Beta_projectors_base T) (ispn : Int) (fresh : fresh_init T) : mdarray T :=
  let B := inner_beta bp fresh
  let BQ : mdarray T := ⟨B.size0, q_op.size 1, fresh.BQ⟩
  q_op.lmatmul BQ B ispn 1 0

/-! ## Step (a) with the writes to `bphi` counted -/

/-- The storage positions of `bphi` written by the iteration `lbnd` of the band
loop: the `bphi_loc.size(0)` positions from the one of
`bphi(beta_offset, lbnd)` on. -/
def copy_band_writes {T : Type} (bphi_loc : mdarray T) (beta_offset : Nat) (bphi : mdarray T)
    (lbnd : Nat) (a : Nat) : Prop :=
  bphi.idx beta_offset lbnd ≤ a ∧ a < bphi.idx beta_offset lbnd + bphi_loc.size0

instance copy_band_writes_decidable {T : Type} (bphi_loc : mdarray T) (beta_offset : Nat)
    (bphi : mdarray T) (lbnd : Nat) (a : Nat) :
    Decidable (copy_band_writes bphi_loc beta_offset bphi lbnd a) := by
  unfold copy_band_writes
  exact inferInstance

/-- The band loop body together with a counter of the writes to every storage
position of `bphi`: the copy is `copy_band`, and the counter of each position
the copy writes goes up by one. -/
def copy_band_traced {T : Type} (bphi_loc : mdarray T) (beta_offset : Nat)
    (st : mdarray T × (Nat → Nat)) (lbnd : Nat) : mdarray T × (Nat → Nat) :=
  (copy_band bphi_loc beta_offset st.1 lbnd,
    fun a => if copy_band_writes bphi_loc beta_offset st.1 lbnd a then st.2 a + 1 else st.2 a)

/-- The chunk loop body of step (a) with the writes to `bphi` counted. -/
def bphi_step_traced {T : Type} [Field T] [StarRing T] (bp : Beta_projectors_base T)
    (X : mdarray T) (nbnd : Nat) (fresh : fresh_memory T)
    (st : (beta_projectors_coeffs_t T × mdarray T) × (Nat → Nat)) (ichunk : Nat) :
    (beta_projectors_coeffs_t T × mdarray T) × (Nat → Nat) :=
  let beta_coeffs := bp.generate st.1.1 ichunk
  let bphi_loc := inner beta_coeffs X 0 nbnd (fresh.bphi_loc ichunk)
  let beta_offset := beta_coeffs.beta_chunk.offset_
  let r := (List.range nbnd).foldl (copy_band_traced bphi_loc beta_offset) (st.1.2, st.2)
  ((beta_coeffs, r.1), r.2)

/-- Step (a) of `apply` with the writes to `bphi` counted, from no write at
all. -/
def bphi_loop_traced {T : Type} [Field T] [StarRing T] (bp : Beta_projectors_base T)
    (X : mdarray T) (nbnd : Nat) (fresh : fresh_memory T)
    (beta_coeffs : beta_projectors_coeffs_t T) (bphi : mdarray T) :
    (beta_projectors_coeffs_t T × mdarray T) × (Nat → Nat) :=
  (List.range bp.num_chunks).foldl (bphi_step_traced bp X nbnd fresh)
    ((beta_coeffs, bphi), fun _ => 0)

/-- Row `r` lies in the row range `offset_ .. offset_ + num_beta_ - 1` of the
chunk. -/
def beta_chunk_t.covers (c : beta_chunk_t) (r : Nat) : Bool :=
  decide (c.offset_ ≤ r ∧ r < c.offset_ + c.num_beta_)

/-- The row ranges of the chunks partition `0 .. num_total_beta - 1`, in
whatever order the chunks come: every range lies inside, and every row lies in
the range of exactly one chunk. -/
def Beta_projectors_base.ranges_partition {T : Type} (bp : Beta_projectors_base T) : Prop :=
  (∀ c ∈ bp.beta_chunks, c.offset_ + c.num_beta_ ≤ bp.num_total_beta) ∧
    ∀ r, r < bp.num_total_beta → bp.beta_chunks.countP (fun c => c.covers r) = 1

/-- The projectors of the concrete configuration with the two chunks listed in
the opposite order: the second projector first. -/
def ex_bp_swapped : Beta_projectors_base ℚ :=
  { ex_bp with beta_chunks := [⟨1, 1⟩, ⟨1, 0⟩] }

/-! ## The distributed matrix and `transform` -/

/-- Modelled from the spec: the block-cyclic distributed matrix `dmatrix` (its
header is not part of the sources): global shape, block sizes and process grid,
and the local storage of every process, addressed by the process coordinates
and the local (row, column) offset. -/
structure dmatrix (T : Type) where
  /-- Number of global rows. -/
  num_rows : Nat
  /-- Number of global columns. -/
  num_cols : Nat
  /-- Block sizes and process grid. -/
  grid : block_cyclic
  /-- Local storage: process `(pr, pc)`, local offset `(li, lj)`. -/
  loc : (Nat × Nat) → (Nat × Nat) → T

/-- Modelled from the spec: the global element `(i, j)` of a distributed matrix
is held by exactly one process, at the local offset given by the block-cyclic
map; this reads it there. -/
def dmatrix.elem {T : Type} (D : dmatrix T) (i j : Nat) : T :=
  D.loc (D.grid.locate (i, j)).1 (D.grid.locate (i, j)).2

/-- Modelled from the spec: the distributed matrix holding the mathematical
matrix `A` on the grid `grid`: every process stores, at each local offset, the
global element that the block-cyclic map assigns to it. -/
def dmatrix.distribute {T : Type} (grid : block_cyclic) (M N : Nat) (A : Nat → Nat → T) :
    dmatrix T :=
  { num_rows := M
    num_cols := N
    grid := grid
    loc := fun p l => A (grid.global (p, l)).1 (grid.global (p, l)).2 }

/-- Modelled from the spec: `transform(ctx, ispn, wf_in, i0, m, mtrx, irow0,
jcol0, wf_out, j0, n)` (`SDDK/wf_trans.hpp` is not part of the sources)
computes the output band block as the product of the input band block with the
distributed matrix:
`wf_out(:, j0 + j) = Σ_{i < m} wf_in(:, i0 + i) * mtrx(irow0 + i, jcol0 + j)`.
The `m × n` block of the matrix is brought from the owning processes into a
local column-major buffer (the exchange that aligns ownership), then multiplied
by a local `gemm`.  The arrays are the local coefficient blocks of one
process. -/
def transform {T : Type} [Field T] (wf_in : mdarray T) (i0 m : Nat) (mtrx : dmatrix T)
    (irow0 jcol0 : Nat) (wf_out : mdarray T) (j0 n : Nat) : mdarray T :=
  let gathered : Nat → T := fun a => mtrx.elem (irow0 + a % m) (jcol0 + a / m)
  { wf_out with
    data := gemm_NN wf_in.size0 n m 1 (wf_in.ptr 0 i0) wf_in.ld gathered m 0
      wf_out.data wf_out.ld 0 j0 }

/-! ## The index sort used by `init_fft_grid` -/

/-- Modelled from the spec: the comparison `compare_doubles` handed to the
index sort is not part of the sources; it ranks by increasing value: negative,
zero or positive as `a` is below, equal to or above `b`.  Doubles are
rationals here. -/
def compare_doubles (a b : ℚ) : Int := if a < b then -1 else if b < a then 1 else 0

/-- The child position chosen in `downheap`:
`j = 2 * k; if (j < N && CMP(p[j], p[j + 1]) < 0) j++;`. -/
def larger_child (data : Nat → ℚ) (p : Nat → Nat) (N k : Nat) : Nat :=
  if 2 * k < N ∧ compare_doubles (data (p (2 * k))) (data (p (2 * k + 1))) < 0 then 2 * k + 1
  else 2 * k

/-- The loop of `downheap` in the GSL index heapsort, with `pki` the index
taken out of position `k` on entry:
`while (k <= N / 2) { j = 2 * k; if (j < N && CMP(p[j], p[j + 1]) < 0) j++;
if (CMP(pki, p[j]) >= 0) break; p[k] = p[j]; k = j; } p[k] = pki;`.
One unit of fuel is used per test of the loop condition; nothing is returned
when the fuel runs out. -/
def index_downheap_loop (data : Nat → ℚ) (N pki : Nat) :
    Nat → (Nat → Nat) → Nat → Option (Nat → Nat)
  | 0, _, _ => none
  | fuel + 1, p, k =>
    if k ≤ N / 2 then
      if compare_doubles (data pki) (data (p (larger_child data p N k))) ≥ 0 then
        some (Function.update p k pki)
      else
        index_downheap_loop data N pki fuel
          (Function.update p k (p (larger_child data p N k))) (larger_child data p N k)
    else some (Function.update p k pki)

/-- The routine `downheap(p, data, size, N, k, compare)` of the GSL index
heapsort: the index at position `k` sinks in the heap `p[0 .. N]`. -/
def index_downheap (data : Nat → ℚ) (p : Nat → Nat) (N k : Nat) : Option (Nat → Nat) :=
  index_downheap_loop data N (p k) (N + 1) p k

/-- Exchange of two entries: `tmp = p[a]; p[a] = p[b]; p[b] = tmp`. -/
def swap_entries (p : Nat → Nat) (a b : Nat) : Nat → Nat :=
  Function.update (Function.update p a (p b)) b (p a)

/-- The GSL routine `gsl_heapsort_index(p, data, count, size, compare)` with
`compare_doubles`: `p` is set to the identity, made a heap by `downheap` for
`k = N / 2` down to `0` (`N = count - 1`), and then, for `N` down to `1`, the
root is exchanged with `p[N]` and the heap `p[0 .. N - 1]` is repaired. -/
def gsl_heapsort_index (data : Nat → ℚ) (count : Nat) (p : Nat → Nat) : Option (Nat → Nat) :=
  if count = 0 then some p
  else
    let p : Nat → Nat := fun i => if i < count then i else p i
    let N := count - 1
    ((List.range (N / 2 + 1)).reverse.foldlM (fun p k => index_downheap data p N k) p).bind
      (fun p =>
        ((List.range N).reverse.map (fun n => n + 1)).foldlM
          (fun p n => index_downheap data (swap_entries p 0 n) (n - 1) 0) p)

/-- Heap order of the index array `p[0 .. N]` for the parents from `lo` on: the
parent of position `j ≥ 1` is position `j / 2`, and no position holds a larger
datum than its parent. -/
def heap_on (data : Nat → ℚ) (p : Nat → Nat) (lo N : Nat) : Prop :=
  ∀ j, 1 ≤ j → j ≤ N → lo ≤ j / 2 → data (p j) ≤ data (p (j / 2))

/-- Invariant of the loop of `downheap` started at `k0`, for the array `f`
that holds the sinking index at the current position `k`: heap order holds
away from `k`, the children of `k` are below the parent of `k`, and the sinking
index is below the parent of `k`. -/
def downheap_inv (data : Nat → ℚ) (f : Nat → Nat) (k0 k N : Nat) : Prop :=
  (∀ j, 1 ≤ j → j ≤ N → k0 ≤ j / 2 → j / 2 ≠ k → j ≠ k → data (f j) ≤ data (f (j / 2))) ∧
  (k0 < k → ∀ c, 1 ≤ c → c ≤ N → c / 2 = k → data (f c) ≤ data (f (k / 2))) ∧
  (k0 < k → data (f k) < data (f (k / 2))) ∧
  (k0 < k → k0 ≤ k / 2)

/-! ## `global_fft::init_fft_grid` -/

/-- Modelled from the spec: the lattice collaborator `sirius_geometry` (the base
class of `global_fft`, not part of the sources), as far as `init_fft_grid` calls
it: the two coordinate conversions of the reciprocal lattice and the Cartesian
length of a vector.  Doubles are rationals here. -/
structure sirius_geometry where
  /-- `get_reciprocal_fractional_coordinates(cart, frac)`. -/
  get_reciprocal_fractional_coordinates : ℚ × ℚ × ℚ → ℚ × ℚ × ℚ
  /-- `get_reciprocal_cartesian_coordinates(frac, cart)`. -/
  get_reciprocal_cartesian_coordinates : Int × Int × Int → ℚ × ℚ × ℚ
  /-- `vector_length(cart)`. -/
  vector_length : ℚ × ℚ × ℚ → ℚ

/-- Cartesian length of the G-vector with the integer coordinates `pt`, as
`init_fft_grid` computes it. -/
def sirius_geometry.length_of (geom : sirius_geometry) (pt : Int × Int × Int) : ℚ :=
  geom.vector_length (geom.get_reciprocal_cartesian_coordinates pt)

/-- Modelled from the spec: the FFT wrapper `FFT3D` (`fft3d_cpu.hpp` is not part
of the sources), as far as `init_fft_grid` reads it after `init`. -/
structure FFT3D where
  /-- `grid_limits(d, 0)` and `grid_limits(d, 1)`: the lowest and the highest
  index along dimension `d`. -/
  grid_limits : Nat → Nat → Int
  /-- `size()`: the number of points of the grid. -/
  size : Nat
  /-- `index(i0, i1, i2)`: the position of a grid point in the FFT buffer. -/
  index : Int → Int → Int → Int

/-- The values `lo, lo + 1, .., hi` of `for (int i = lo; i <= hi; i++)`. -/
def int_range (lo hi : Int) : List Int :=
  (List.range (hi + 1 - lo).toNat).map (fun (t : Nat) => lo + (t : Int))

/-- The integer triples inside the grid limits, in the order of the three nested
loops of `init_fft_grid`. -/
def FFT3D.grid_points (fft : FFT3D) : List (Int × Int × Int) :=
  (int_range (fft.grid_limits 0 0) (fft.grid_limits 0 1)).flatMap (fun i =>
    (int_range (fft.grid_limits 1 0) (fft.grid_limits 1 1)).flatMap (fun j =>
      (int_range (fft.grid_limits 2 0) (fft.grid_limits 2 1)).map (fun k => (i, j, k))))

/-- The class `global_fft`: its data members.  A column of the `3 × size` array
`gvec_` is a triple. -/
structure global_fft where
  /-- Plane-wave cutoff. -/
  pw_cutoff_ : ℚ
  /-- FFT wrapper. -/
  fft_ : FFT3D
  /-- List of G-vector fractional coordinates, by G-vector index. -/
  gvec_ : Nat → Int × Int × Int
  /-- Number of G-vectors within the plane-wave cutoff. -/
  num_gvec_ : Nat
  /-- Mapping from G-vector coordinates to the G-vector index. -/
  index_by_gvec_ : Int → Int → Int → Int
  /-- Mapping from the G-vector index to the position in the FFT buffer. -/
  fft_index_ : Nat → Int

/-- Content of the memory that `init_fft_grid` allocates without initialising
it. -/
structure fft_fresh where
  /-- Content of the local array `gvec` at allocation. -/
  gvec : Nat → Int × Int × Int
  /-- Content of `gvec_` at allocation. -/
  gvec_ : Nat → Int × Int × Int
  /-- Content of `index_by_gvec_` at allocation. -/
  index_by_gvec_ : Int → Int → Int → Int

/-- One direction of the first loop: `max_frac_coord[i] = max(max_frac_coord[i],
2 * abs(int(frac_coord[i])) + 1)` for `i = 0, 1, 2`. -/
def max_frac_step (m : Int × Int × Int) (frac : ℚ × ℚ × ℚ) : Int × Int × Int :=
  (max m.1 (2 * |int_of_double frac.1| + 1), max m.2.1 (2 * |int_of_double frac.2.1| + 1),
    max m.2.2 (2 * |int_of_double frac.2.2| + 1))

/-- The first loop of `init_fft_grid`: the three directions are tried in turn,
from `max_frac_coord = {0, 0, 0}`. -/
def max_frac_coord (geom : sirius_geometry) (pw_cutoff : ℚ) : Int × Int × Int :=
  let m := max_frac_step (0, 0, 0)
    (geom.get_reciprocal_fractional_coordinates (pw_cutoff, 0, 0))
  let m := max_frac_step m (geom.get_reciprocal_fractional_coordinates (0, pw_cutoff, 0))
  max_frac_step m (geom.get_reciprocal_fractional_coordinates (0, 0, pw_cutoff))

/-- State of the loops that enumerate the grid points. -/
structure grid_fill where
  /-- The local array `gvec`. -/
  gvec : Nat → Int × Int × Int
  /-- The vector `length`. -/
  length : Nat → ℚ
  /-- The counter `ig`. -/
  ig : Nat

/-- Body of the innermost loop: the triple goes to column `ig` of `gvec`, its
Cartesian length to `length[ig]`, and `ig` is incremented. -/
def fill_point (geom : sirius_geometry) (st : grid_fill) (pt : Int × Int × Int) : grid_fill :=
  { gvec := Function.update st.gvec st.ig pt
    length := Function.update st.length st.ig (geom.length_of pt)
    ig := st.ig + 1 }

/-- The three nested loops over the grid limits. -/
def fill_grid (geom : sirius_geometry) (fft : FFT3D) (st : grid_fill) : grid_fill :=
  (int_range (fft.grid_limits 0 0) (fft.grid_limits 0 1)).foldl
    (fun st i =>
      (int_range (fft.grid_limits 1 0) (fft.grid_limits 1 1)).foldl
        (fun st j =>
          (int_range (fft.grid_limits 2 0) (fft.grid_limits 2 1)).foldl
            (fun st k => fill_point geom st (i, j, k)) st) st) st

/-- Body of the loop that fills `gvec_` in sorted order and counts the
G-vectors within the cutoff. -/
def reorder_step (gvec : Nat → Int × Int × Int) (length : Nat → ℚ) (reorder : Nat → Nat)
    (pw_cutoff : ℚ) (st : (Nat → Int × Int × Int) × Nat) (i : Nat) :
    (Nat → Int × Int × Int) × Nat :=
  (Function.update st.1 i (gvec (reorder i)),
    if length (reorder i) ≤ pw_cutoff then st.2 + 1 else st.2)

/-- Body of the last loop: `index_by_gvec_(i0, i1, i2) = ig` and
`fft_index_[ig] = fft_.index(i0, i1, i2)` for the triple of G-vector `ig`. -/
def index_step (fft : FFT3D) (gvec_ : Nat → Int × Int × Int)
    (st : (Int → Int → Int → Int) × (Nat → Int)) (ig : Nat) :
    (Int → Int → Int → Int) × (Nat → Int) :=
  (fun a b c =>
      if a = (gvec_ ig).1 ∧ b = (gvec_ ig).2.1 ∧ c = (gvec_ ig).2.2 then (ig : Int)
      else st.1 a b c,
    Function.update st.2 ig (fft.index (gvec_ ig).1 (gvec_ ig).2.1 (gvec_ ig).2.2))

/-- The part of `init_fft_grid` after the index sort: `gvec_` is filled in the
order of `reorder` while the G-vectors within the cutoff are counted, then the
two index maps are filled. -/
def global_fft.store_sorted (fft : FFT3D) (filled : grid_fill) (self : global_fft)
    (fresh : fft_fresh) (reorder : Nat → Nat) : global_fft :=
  let r := (List.range fft.size).foldl
    (reorder_step filled.gvec filled.length reorder self.pw_cutoff_) (fresh.gvec_, 0)
  let m := (List.range fft.size).foldl (index_step fft r.1)
    (fresh.index_by_gvec_, self.fft_index_)
  { pw_cutoff_ := self.pw_cutoff_
    fft_ := fft
    gvec_ := r.1
    num_gvec_ := r.2
    index_by_gvec_ := m.1
    fft_index_ := m.2 }

/-- `global_fft::init_fft_grid()`.  The routine `FFT3D::init` is the parameter
`fft_init`.  The vectors `length` and `reorder` are created filled with zeros;
nothing is returned only if the model of the index sort runs out of fuel. -/
def global_fft.init_fft_grid (geom : sirius_geometry) (fft_init : Int × Int × Int → FFT3D)
    (self : global_fft) (fresh : fft_fresh) : Option global_fft :=
  let fft := fft_init (max_frac_coord geom self.pw_cutoff_)
  let filled := fill_grid geom fft ⟨fresh.gvec, fun _ => 0, 0⟩
  (gsl_heapsort_index filled.length fft.size (fun _ => 0)).map
    (global_fft.store_sorted fft filled self fresh)

/-- The FFT grid that `init_fft_grid` sets up: `fft_.init(max_frac_coord)`. -/
def global_fft.new_fft (geom : sirius_geometry) (fft_init : Int × Int × Int → FFT3D)
    (self : global_fft) : FFT3D :=
  fft_init (max_frac_coord geom self.pw_cutoff_)

/-- A lattice for the examples: the reciprocal lattice vectors are the unit
vectors, and the length of a vector is taken as the sum of the absolute values
of its coordinates. -/
def ex_geometry : sirius_geometry :=
  { get_reciprocal_fractional_coordinates := fun c => c
    get_reciprocal_cartesian_coordinates := fun f => ((f.1 : ℚ), (f.2.1 : ℚ), (f.2.2 : ℚ))
    vector_length := fun c => |c.1| + |c.2.1| + |c.2.2| }

/-- An FFT grid for the examples: `n.1 + 2` points along the first dimension,
from `-((n.1 + 2) / 2)` on, and one point along the other two. -/
def ex_fft_init (n : Int × Int × Int) : FFT3D :=
  { grid_limits := fun d s =>
      if d = 0 then (if s = 0 then -((n.1 + 2) / 2) else n.1 + 1 - (n.1 + 2) / 2) else 0
    size := (n.1 + 2).toNat
    index := fun i0 _ _ => if i0 < 0 then i0 + (n.1 + 2) else i0 }

/-- A `global_fft` object with cutoff `1` before `init_fft_grid`. -/
def ex_global_fft : global_fft :=
  { pw_cutoff_ := 1
    fft_ := ex_fft_init (0, 0, 0)
    gvec_ := fun _ => (0, 0, 0)
    num_gvec_ := 0
    index_by_gvec_ := fun _ _ _ => 0
    fft_index_ := fun _ => 0 }

/-- Arbitrary content of the memory allocated by `init_fft_grid`. -/
def ex_fft_fresh : fft_fresh :=
  { gvec := fun _ => (7, 7, 7)
    gvec_ := fun _ => (8, 8, 8)
    index_by_gvec_ := fun _ _ _ => -1 }

/-- `global_fft::index_by_gvec(i0, i1, i2)`. -/
def global_fft.index_by_gvec (self : global_fft) (i0 i1 i2 : Int) : Int :=
  self.index_by_gvec_ i0 i1 i2

/-- `global_fft::fft_index(ig)`. -/
def global_fft.fft_index (self : global_fft) (ig : Nat) : Int :=
  self.fft_index_ ig

/-- The integer triple lies inside the grid limits along the three
dimensions. -/
def FFT3D.inside (fft : FFT3D) (pt : Int × Int × Int) : Prop :=
  (fft.grid_limits 0 0 ≤ pt.1 ∧ pt.1 ≤ fft.grid_limits 0 1) ∧
  (fft.grid_limits 1 0 ≤ pt.2.1 ∧ pt.2.1 ≤ fft.grid_limits 1 1) ∧
  (fft.grid_limits 2 0 ≤ pt.2.2 ∧ pt.2.2 ≤ fft.grid_limits 2 1)

/-! ## `unit_cell_input_section::read` -/

/-- What `unit_cell_input_section::read` looks up in the JSON tree `parser`
(the class `JSON_tree` is not part of the sources). -/
structure unit_cell_json where
  /-- `parser.exist("unit_cell")`. -/
  exist_unit_cell : Bool
  /-- `parser["unit_cell"]["lattice_vectors"][i]` read as a vector of
  doubles. -/
  lattice_vectors : Nat → List ℚ
  /-- `parser["unit_cell"]["lattice_vectors_scale"]`, when present. -/
  lattice_vectors_scale : Option ℚ
  /-- `parser["unit_cell"]["atom_types"]`: the list of labels. -/
  atom_types : List String
  /-- `parser["unit_cell"]["atom_files"]`, when present: the file name of a
  label, when the label is present. -/
  atom_files : Option (String → Option String)
  /-- `parser["unit_cell"]["atoms"][label]`: the list of coordinate entries of
  a label, each read as a vector of doubles. -/
  atoms : String → List (List ℚ)

/-- The structure `unit_cell_input_section`: its data members.  The map
`atom_files_` is given by the value of each key that is present. -/
structure unit_cell_input_section where
  /-- Lattice vectors, `lattice_vectors_[i][x]`. -/
  lattice_vectors_ : Nat → Nat → ℚ
  /-- Labels of the atom types. -/
  labels_ : List String
  /-- File name of each label. -/
  atom_files_ : String → Option String
  /-- Coordinates of the atoms of each label. -/
  coordinates_ : List (List (List ℚ))

/-- The inner loop over `labels_`: `error_global` is called when an entry
equals `label`.  Modelled from the spec: `error_global` is not part of the
sources; a fatal condition terminates the run at the call site with its
diagnostic. -/
def check_label (labels_ : List String) (label : String) : Except String Unit :=
  labels_.foldlM
    (fun (_ : Unit) l =>
      if l = label then Except.error "atom type with such label is already in list"
      else Except.ok ())
    ()

/-- The loop over `atom_types`, from the cleared `labels_`: every label is
checked against the labels read so far and appended. -/
def read_labels (atom_types : List String) : Except String (List String) :=
  atom_types.foldlM
    (fun labels_ label => do
      check_label labels_ label
      pure (labels_ ++ [label]))
    []

/-- The loop over `labels_` that fills `atom_files_`, when the section
`atom_files` exists: the file name of the label, or the empty string. -/
def read_atom_files (files : String → Option String) (labels_ : List String)
    (atom_files_ : String → Option String) : String → Option String :=
  labels_.foldl (fun m label => Function.update m label (some ((files label).getD ""))) atom_files_

/-- The call `v.resize(n, x)` of `std::vector`. -/
def vector_resize (v : List ℚ) (n : Nat) (x : ℚ) : List ℚ :=
  v.take n ++ List.replicate (n - v.length) x

/-- Body of the loop over the atoms of a label: the size check of the entry
`v`, and `v.resize(6, 0.0)` for an entry of three components. -/
def read_coordinate (v : List ℚ) : Except String (List ℚ) :=
  if ¬ (v.length = 3 ∨ v.length = 6) then Except.error "wrong coordinates size"
  else Except.ok (if v.length = 3 then vector_resize v 6 0 else v)

/-- The vector that the loop body leaves for an accepted entry `v`, written
out: three zeros appended to an entry of three components. -/
def stored_coordinate (v : List ℚ) : List ℚ :=
  if v.length = 3 then v ++ [0, 0, 0] else v

/-- The loop over the atoms of one label, from an empty list. -/
def read_atoms (entries : List (List ℚ)) : Except String (List (List ℚ)) :=
  entries.foldlM
    (fun acc v => do
      let v ← read_coordinate v
      pure (acc ++ [v]))
    []

/-- The loop over `labels_` that fills the cleared `coordinates_`. -/
def read_coordinates (atoms : String → List (List ℚ)) (labels_ : List String) :
    Except String (List (List (List ℚ))) :=
  labels_.foldlM
    (fun coordinates_ label => do
      let c ← read_atoms (atoms label)
      pure (coordinates_ ++ [c]))
    []

/-- `unit_cell_input_section::read(parser)`: the section after the call, or the
diagnostic of `error_global`.  A lattice vector with fewer than three
components is read as if continued by zeros. -/
def unit_cell_input_section.read (self : unit_cell_input_section) (parser : unit_cell_json) :
    Except String unit_cell_input_section :=
  if parser.exist_unit_cell = true then do
    let scale := parser.lattice_vectors_scale.getD 1
    let lattice_vectors_ : Nat → Nat → ℚ := fun i x =>
      if i < 3 ∧ x < 3 then (parser.lattice_vectors i).getD x 0 * scale
      else self.lattice_vectors_ i x
    let labels_ ← read_labels parser.atom_types
    let atom_files_ :=
      match parser.atom_files with
      | some files => read_atom_files files labels_ self.atom_files_
      | none => self.atom_files_
    let coordinates_ ← read_coordinates parser.atoms labels_
    pure
      { lattice_vectors_ := lattice_vectors_
        labels_ := labels_
        atom_files_ := atom_files_
        coordinates_ := coordinates_ }
  else pure self

/-- A section before `read`. -/
def ex_section : unit_cell_input_section :=
  { lattice_vectors_ := fun _ _ => 0
    labels_ := ["X"]
    atom_files_ := fun _ => none
    coordinates_ := [] }

/-- An input with the labels `A` and `B`: one atom of `A` given by three
components, one atom of `B` given by six. -/
def ex_json : unit_cell_json :=
  { exist_unit_cell := true
    lattice_vectors := fun _ => [1, 0, 0]
    lattice_vectors_scale := none
    atom_types := ["A", "B"]
    atom_files := none
    atoms := fun label =>
      if label = "A" then [[1, 2, 3]] else if label = "B" then [[4, 5, 6, 7, 8, 9]] else [] }

/-- The same input with the label `A` listed twice. -/
def ex_json_twice : unit_cell_json := { ex_json with atom_types := ["A", "B", "A"] }

/-- The same input with an atom of `A` given by four components. -/
def ex_json_four : unit_cell_json :=
  { ex_json with atoms := fun label => if label = "A" then [[1, 2, 3, 4]] else [] }

end

section

open Finset

/-! ## `pstdout`

Characters are given by their codes; the code `0` is the terminating NUL. -/

/-- The class `pstdout`: the character at every position of `buffer_`, and the
write offset `offset_`.  The buffer has the positions below
`pstdout.buffer_size`; a position from there on lies past its end. -/
structure pstdout where
  /-- Characters of the buffer. -/
  buffer_ : Nat → Nat
  /-- Write offset. -/
  offset_ : Nat

/-- The value of `buffer_.size()`, set by `buffer_.set_dimensions(8192)`. -/
def pstdout.buffer_size : Nat := 8192

/-- The constructor `pstdout()`: a zeroed buffer and offset zero. -/
def pstdout_new : pstdout :=
  { buffer_ := fun _ => 0
    offset_ := 0 }

/-- Conversion of an integer to the unsigned 64-bit type `size_t`. -/
def size_t_of_int (x : Int) : Nat := (x % 2 ^ 64).toNat

/-- The C library call `vsnprintf(&s(pos), n, fmt, arg)`, with `text` the
characters that `fmt` and `arg` format to: for `n > 0` at most `n - 1`
characters of the text are written from `pos` on, followed by a NUL; the
value returned is the number of characters of the whole text. -/
def vsnprintf (s : Nat → Nat) (pos : Nat) (n : Nat) (text : List Nat) : (Nat → Nat) × Nat :=
  let written := min text.length (n - 1)
  (fun p =>
    if n = 0 then s p
    else if pos ≤ p ∧ p < pos + written then text.getD (p - pos) 0
    else if p = pos + written then 0
    else s p,
   text.length)

/-- `pstdout::printf(fmt, ...)`, with `text` the characters that the format
and its arguments format to. -/
def pstdout.printf (self : pstdout) (text : List Nat) : pstdout :=
  let r := vsnprintf self.buffer_ self.offset_
    (size_t_of_int ((pstdout.buffer_size : Int) - (self.offset_ : Int))) text
  { buffer_ := r.1
    offset_ := self.offset_ + r.2 }

/-- A sequence of calls of `pstdout::printf`, one per text. -/
def pstdout.printf_all (self : pstdout) (texts : List (List Nat)) : pstdout :=
  texts.foldl pstdout.printf self

/-- The buffered text of a process: the characters below the write offset. -/
def pstdout.text (self : pstdout) : List Nat :=
  (List.range self.offset_).map self.buffer_

end

section

open Finset

/-! ## Column-major addressing -/

theorem idx_mod {ld i : Nat} (j : Nat) (h : i < ld) : (i + j * ld) % ld = i := by
  rw [Nat.add_mul_mod_self_right, Nat.mod_eq_of_lt h]

theorem idx_div {ld i : Nat} (j : Nat) (h : i < ld) : (i + j * ld) / ld = j := by
  have hpos : 0 < ld := Nat.lt_of_le_of_lt (Nat.zero_le _) h
  rw [Nat.add_mul_div_right _ _ hpos, Nat.div_eq_of_lt h, Nat.zero_add]

theorem store_block_inside {T : Type} (C : Nat → T) (ld ro co m n : Nat) (f : Nat → Nat → T)
    {r c : Nat} (hr : r < ld) (h1 : ro ≤ r) (h2 : r < ro + m) (h3 : co ≤ c) (h4 : c < co + n) :
    store_block C ld ro co m n f (r + c * ld) = f (r - ro) (c - co) := by
  unfold store_block
  rw [idx_mod c hr, idx_div c hr, if_pos ⟨h1, h2, h3, h4⟩]

theorem store_block_outside {T : Type} (C : Nat → T) (ld ro co m n : Nat) (f : Nat → Nat → T)
    {r c : Nat} (hr : r < ld) (h : ¬ (ro ≤ r ∧ r < ro + m ∧ co ≤ c ∧ c < co + n)) :
    store_block C ld ro co m n f (r + c * ld) = C (r + c * ld) := by
  unfold store_block
  rw [idx_mod c hr, idx_div c hr, if_neg h]

theorem store_block_zero {T : Type} (C : Nat → T) (ld m n : Nat) (f : Nat → Nat → T)
    {r c : Nat} (hr : r < m) (hc : c < n) (hld : m ≤ ld) :
    store_block C ld 0 0 m n f (r + c * ld) = f r c := by
  have := store_block_inside C ld 0 0 m n f (r := r) (c := c) (by omega) (by omega) (by omega)
    (by omega) (by omega)
  simpa using this

/-- An in-range pair of indices addresses a position inside the storage. -/
theorem idx_lt_size {m n i j : Nat} (hi : i < m) (hj : j < n) : i + j * m < m * n := by
  calc i + j * m < m + j * m := by omega
    _ = (j + 1) * m := by ring
    _ ≤ n * m := Nat.mul_le_mul_right m hj
    _ = m * n := Nat.mul_comm _ _

theorem sddk_copy_get {T : Type} (dst src : mdarray T) (h0 : dst.size0 = src.size0)
    {i j : Nat} (hi : i < src.size0) (hj : j < src.size1) :
    (sddk_copy dst src).get i j = src.get i j := by
  unfold sddk_copy mdarray.get mdarray.idx mdarray.ld copy_n
  simp only [h0]
  rw [if_pos ⟨Nat.zero_le _, by simpa using idx_lt_size hi hj⟩]
  simp

/-! ## The projector generator and the inner product -/

theorem generate_size0 {T : Type} (bp : Beta_projectors_base T)
    (coeffs : beta_projectors_coeffs_t T) (ichunk : Nat) :
    (bp.generate coeffs ichunk).pw_coeffs_a.size0 = bp.num_gkvec_loc := rfl

theorem generate_size1 {T : Type} (bp : Beta_projectors_base T)
    (coeffs : beta_projectors_coeffs_t T) (ichunk : Nat) :
    (bp.generate coeffs ichunk).pw_coeffs_a.size1
      = (bp.beta_chunks.getD ichunk ⟨0, 0⟩).num_beta_ := rfl

theorem generate_chunk {T : Type} (bp : Beta_projectors_base T)
    (coeffs : beta_projectors_coeffs_t T) (ichunk : Nat) :
    (bp.generate coeffs ichunk).beta_chunk = bp.beta_chunks.getD ichunk ⟨0, 0⟩ := rfl

theorem generate_get {T : Type} (bp : Beta_projectors_base T)
    (coeffs : beta_projectors_coeffs_t T) (ichunk : Nat) {g t : Nat}
    (hg : g < bp.num_gkvec_loc) (ht : t < (bp.beta_chunks.getD ichunk ⟨0, 0⟩).num_beta_) :
    (bp.generate coeffs ichunk).pw_coeffs_a.get g t
      = bp.pw_coeffs_all g ((bp.beta_chunks.getD ichunk ⟨0, 0⟩).offset_ + t) := by
  unfold Beta_projectors_base.generate mdarray.get mdarray.idx mdarray.ld
  simp only
  rw [store_block_zero _ _ _ _ _ hg ht (le_refl _)]

theorem inner_size0 {T : Type} [Field T] [StarRing T] (bc : beta_projectors_coeffs_t T)
    (X : mdarray T) (idx0 n : Nat) (fresh : Nat → T) :
    (inner bc X idx0 n fresh).size0 = bc.pw_coeffs_a.size1 := rfl

theorem inner_get {T : Type} [Field T] [StarRing T] (bc : beta_projectors_coeffs_t T)
    (X : mdarray T) (n : Nat) (fresh : Nat → T) {t b : Nat}
    (ht : t < bc.pw_coeffs_a.size1) (hb : b < n) :
    (inner bc X 0 n fresh).get t b
      = ∑ g in range bc.pw_coeffs_a.size0, star (bc.pw_coeffs_a.get g t) * X.get g b := by
  unfold inner mdarray.get mdarray.idx mdarray.ld gemm_CN
  simp only
  rw [store_block_zero _ _ _ _ _ ht hb (le_refl _)]
  simp [mdarray.ptr, mdarray.idx, mdarray.ld]

/-! ## Step (a): the band copy loop and the chunk loop -/

/-- Position `row + col * ld` lies in the copied range of band `n` exactly when
`col = n` and `row` is one of the copied rows. -/
theorem band_range_iff {ld off nb : Nat} (n : Nat) {row : Nat} (col : Nat) (hrow : row < ld)
    (hfit : off + nb ≤ ld) :
    (off + n * ld ≤ row + col * ld ∧ row + col * ld < off + n * ld + nb)
      ↔ (col = n ∧ off ≤ row ∧ row < off + nb) := by
  constructor
  · rintro ⟨h1, h2⟩
    rcases Nat.lt_trichotomy col n with h | h | h
    · have := Nat.mul_le_mul_right ld (Nat.succ_le_of_lt h)
      rw [Nat.succ_mul] at this
      omega
    · subst h
      omega
    · have := Nat.mul_le_mul_right ld (Nat.succ_le_of_lt h)
      rw [Nat.succ_mul] at this
      omega
  · rintro ⟨rfl, h1, h2⟩
    omega

theorem copy_band_size0 {T : Type} (loc : mdarray T) (off : Nat) (b : mdarray T) (lbnd : Nat) :
    (copy_band loc off b lbnd).size0 = b.size0 := rfl

theorem copy_band_size1 {T : Type} (loc : mdarray T) (off : Nat) (b : mdarray T) (lbnd : Nat) :
    (copy_band loc off b lbnd).size1 = b.size1 := rfl

theorem copy_band_get {T : Type} (loc : mdarray T) (off : Nat) (b : mdarray T) (lbnd : Nat)
    (hfit : off + loc.size0 ≤ b.size0) {row : Nat} (col : Nat) (hrow : row < b.size0) :
    (copy_band loc off b lbnd).get row col
      = if col = lbnd ∧ off ≤ row ∧ row < off + loc.size0 then loc.get (row - off) col
        else b.get row col := by
  have key := band_range_iff lbnd col hrow hfit
  unfold copy_band mdarray.get copy_n mdarray.ptr mdarray.idx mdarray.ld
  simp only
  by_cases hc : col = lbnd ∧ off ≤ row ∧ row < off + loc.size0
  · rw [if_pos (key.mpr hc), if_pos hc]
    obtain ⟨rfl, h1, h2⟩ := hc
    congr 1
    omega
  · rw [if_neg (fun h => hc (key.mp h)), if_neg hc]

theorem band_loop_spec {T : Type} (loc : mdarray T) (off : Nat) (bphi : mdarray T)
    (hfit : off + loc.size0 ≤ bphi.size0) (n : Nat) :
    ((List.range n).foldl (copy_band loc off) bphi).size0 = bphi.size0 ∧
    ((List.range n).foldl (copy_band loc off) bphi).size1 = bphi.size1 ∧
    ∀ row col, row < bphi.size0 →
      ((List.range n).foldl (copy_band loc off) bphi).get row col
        = if off ≤ row ∧ row < off + loc.size0 ∧ col < n then loc.get (row - off) col
          else bphi.get row col := by
  induction n with
  | zero => simp
  | succ n ih =>
    obtain ⟨ih0, ih1, ih2⟩ := ih
    rw [List.range_succ, List.foldl_append]
    simp only [List.foldl_cons, List.foldl_nil]
    refine ⟨by rw [copy_band_size0, ih0], by rw [copy_band_size1, ih1], ?_⟩
    intro row col hrow
    rw [copy_band_get _ _ _ _ (by rw [ih0]; exact hfit) _ (by rw [ih0]; exact hrow),
      ih2 row col hrow]
    by_cases hc : col = n
    · subst hc
      by_cases h1 : off ≤ row ∧ row < off + loc.size0
      · rw [if_pos ⟨rfl, h1⟩, if_pos ⟨h1.1, h1.2, Nat.lt_succ_self _⟩]
      · rw [if_neg (fun h => h1 h.2), if_neg (fun h => h1 ⟨h.1, h.2.1⟩),
          if_neg (fun h => h1 ⟨h.1, h.2.1⟩)]
    · rw [if_neg (fun h => hc h.1)]
      have : col < n + 1 ↔ col < n := by omega
      simp only [this]

theorem drop_cons_getD {α : Type} {l : List α} {s : Nat} {c : α} {cs : List α} (d : α)
    (h : l.drop s = c :: cs) : l.getD s d = c ∧ l.drop (s + 1) = cs := by
  have hs : s < l.length := by
    by_contra hcon
    rw [List.drop_eq_nil_of_le (Nat.le_of_not_lt hcon)] at h
    exact List.noConfusion h
  rw [List.drop_eq_getElem_cons hs] at h
  injection h with h1 h2
  exact ⟨by rw [List.getD_eq_getElem _ _ hs, h1], h2⟩

theorem partition_from_le {off N : Nat} {cs : List beta_chunk_t}
    (h : partition_from off cs N) : off ≤ N := by
  induction cs generalizing off with
  | nil => exact le_of_eq h
  | cons c cs ih => exact le_trans (Nat.le_add_right _ _) (ih h.2)

theorem bphi_step_spec {T : Type} [Field T] [StarRing T] (bp : Beta_projectors_base T)
    (X : mdarray T) (nbnd : Nat) (fresh : fresh_memory T)
    (st : beta_projectors_coeffs_t T × mdarray T) (s : Nat) (c : beta_chunk_t)
    (hc : bp.beta_chunks.getD s ⟨0, 0⟩ = c) (hfit : c.offset_ + c.num_beta_ ≤ st.2.size0) :
    (bphi_step bp X nbnd fresh st s).2.size0 = st.2.size0 ∧
    (bphi_step bp X nbnd fresh st s).2.size1 = st.2.size1 ∧
    ∀ row col, row < st.2.size0 →
      (bphi_step bp X nbnd fresh st s).2.get row col
        = if c.offset_ ≤ row ∧ row < c.offset_ + c.num_beta_ ∧ col < nbnd then BHX bp X row col
          else st.2.get row col := by
  unfold bphi_step
  simp only
  rw [generate_chunk, hc]
  have hsz : (inner (bp.generate st.1 s) X 0 nbnd (fresh.bphi_loc s)).size0 = c.num_beta_ := by
    rw [inner_size0, generate_size1, hc]
  obtain ⟨h0, h1, h2⟩ := band_loop_spec (inner (bp.generate st.1 s) X 0 nbnd (fresh.bphi_loc s))
    c.offset_ st.2 (by rw [hsz]; exact hfit) nbnd
  refine ⟨h0, h1, ?_⟩
  intro row col hrow
  rw [h2 row col hrow, hsz]
  by_cases hin : c.offset_ ≤ row ∧ row < c.offset_ + c.num_beta_ ∧ col < nbnd
  · rw [if_pos hin, if_pos hin]
    obtain ⟨hi1, hi2, hi3⟩ := hin
    have ht : row - c.offset_ < (bp.generate st.1 s).pw_coeffs_a.size1 := by
      rw [generate_size1, hc]; omega
    rw [inner_get _ _ _ _ ht hi3, generate_size0]
    unfold BHX
    apply Finset.sum_congr rfl
    intro g hg
    rw [generate_get bp st.1 s (Finset.mem_range.mp hg) (by rw [hc]; omega), hc]
    congr 3
    omega
  · rw [if_neg hin, if_neg hin]

theorem bphi_chunks_spec {T : Type} [Field T] [StarRing T] (bp : Beta_projectors_base T)
    (X : mdarray T) (nbnd : Nat) (fresh : fresh_memory T) (N : Nat) :
    ∀ (cs : List beta_chunk_t) (s off : Nat) (st : beta_projectors_coeffs_t T × mdarray T),
      bp.beta_chunks.drop s = cs → partition_from off cs N → st.2.size0 = N →
      ((List.range' s cs.length).foldl (bphi_step bp X nbnd fresh) st).2.size0 = N ∧
      ((List.range' s cs.length).foldl (bphi_step bp X nbnd fresh) st).2.size1 = st.2.size1 ∧
      ∀ row col, row < N →
        ((List.range' s cs.length).foldl (bphi_step bp X nbnd fresh) st).2.get row col
          = if off ≤ row ∧ col < nbnd then BHX bp X row col else st.2.get row col := by
  intro cs
  induction cs with
  | nil =>
    intro s off st _ hp hN
    simp only [List.length_nil, List.range'_zero, List.foldl_nil]
    refine ⟨hN, trivial, ?_⟩
    intro row col hrow
    have : off = N := hp
    rw [if_neg (by omega)]
  | cons c cs ih =>
    intro s off st hdrop hp hN
    obtain ⟨hget, hdrop'⟩ := drop_cons_getD ⟨0, 0⟩ hdrop
    obtain ⟨hoff, hp'⟩ := hp
    have hle := partition_from_le hp'
    obtain ⟨s0, s1, s2⟩ := bphi_step_spec bp X nbnd fresh st s c hget (by rw [hN, hoff]; exact hle)
    obtain ⟨i0, i1, i2⟩ := ih (s + 1) (off + c.num_beta_) (bphi_step bp X nbnd fresh st s) hdrop' hp'
      (by rw [s0, hN])
    simp only [List.length_cons, List.range'_succ, List.foldl_cons]
    refine ⟨i0, by rw [i1, s1], ?_⟩
    intro row col hrow
    rw [i2 row col hrow, s2 row col (by rw [hN]; exact hrow), hoff]
    by_cases h1 : off + c.num_beta_ ≤ row ∧ col < nbnd
    · rw [if_pos h1, if_pos ⟨by omega, h1.2⟩]
    · rw [if_neg h1]
      by_cases h2 : off ≤ row ∧ row < off + c.num_beta_ ∧ col < nbnd
      · rw [if_pos h2, if_pos ⟨h2.1, h2.2.2⟩]
      · rw [if_neg h2, if_neg]
        rintro ⟨h3, h4⟩
        by_cases h5 : row < off + c.num_beta_
        · exact h2 ⟨h3, h5, h4⟩
        · exact h1 ⟨by omega, h4⟩

theorem bphi_loop_spec {T : Type} [Field T] [StarRing T] (bp : Beta_projectors_base T)
    (X : mdarray T) (nbnd : Nat) (fresh : fresh_memory T)
    (bc : beta_projectors_coeffs_t T) (bphi : mdarray T) (hp : bp.chunks_partition)
    (hN : bphi.size0 = bp.num_total_beta) :
    (bphi_loop bp X nbnd fresh bc bphi).2.size0 = bp.num_total_beta ∧
    (bphi_loop bp X nbnd fresh bc bphi).2.size1 = bphi.size1 ∧
    ∀ row col, row < bp.num_total_beta → col < nbnd →
      (bphi_loop bp X nbnd fresh bc bphi).2.get row col = BHX bp X row col := by
  unfold bphi_loop Beta_projectors_base.num_chunks
  rw [List.range_eq_range']
  obtain ⟨h0, h1, h2⟩ := bphi_chunks_spec bp X nbnd fresh bp.num_total_beta bp.beta_chunks 0 0
    (bc, bphi) rfl hp hN
  refine ⟨h0, h1, ?_⟩
  intro row col hrow hcol
  rw [h2 row col hrow, if_pos ⟨Nat.zero_le _, hcol⟩]

/-! ## Steps (c) and (d) -/

theorem rmatmul_size0 {T : Type} [Field T] (q : Q_operator T) (out B : mdarray T) (ispn : Int)
    (alpha beta : T) : (q.rmatmul out B ispn alpha beta).size0 = out.size0 := rfl

theorem rmatmul_size1 {T : Type} [Field T] (q : Q_operator T) (out B : mdarray T) (ispn : Int)
    (alpha beta : T) : (q.rmatmul out B ispn alpha beta).size1 = out.size1 := rfl

theorem rmatmul_get {T : Type} [Field T] (q : Q_operator T) (out B : mdarray T) (ispn : Int)
    (alpha beta : T) (hld : q.size_ ≤ out.size0) {i j : Nat} (hi : i < q.size_)
    (hj : j < B.size1) :
    (q.rmatmul out B ispn alpha beta).get i j
      = alpha * (∑ l in range q.size_, q.q_mtrx ispn i l * B.get l j) + beta * out.get i j := by
  simp only [Q_operator.rmatmul, mdarray.get, mdarray.idx, mdarray.ld]
  rw [store_block_zero _ _ _ _ _ hi hj hld]

theorem lmatmul_get {T : Type} [Field T] (q : Q_operator T) (out B : mdarray T) (ispn : Int)
    (alpha beta : T) (hld : B.size0 ≤ out.size0) {i j : Nat} (hi : i < B.size0)
    (hj : j < q.size_) :
    (q.lmatmul out B ispn alpha beta).get i j
      = alpha * (∑ l in range q.size_, B.get i l * q.q_mtrx ispn l j) + beta * out.get i j := by
  simp only [Q_operator.lmatmul, mdarray.get, mdarray.idx, mdarray.ld]
  rw [store_block_zero _ _ _ _ _ hi hj hld]

theorem accumulate_step_spec {T : Type} [Field T] (bp : Beta_projectors_base T) (R : mdarray T)
    (st : beta_projectors_coeffs_t T × mdarray T) (s : Nat) (c : beta_chunk_t)
    (hc : bp.beta_chunks.getD s ⟨0, 0⟩ = c) (hm : st.2.size0 = bp.num_gkvec_loc) :
    (accumulate_step bp R st s).2.size0 = st.2.size0 ∧
    (accumulate_step bp R st s).2.size1 = st.2.size1 ∧
    ∀ i j, i < st.2.size0 → j < st.2.size1 →
      (accumulate_step bp R st s).2.get i j
        = st.2.get i j
          + ∑ l in range c.num_beta_, bp.pw_coeffs_all i (c.offset_ + l) * R.get (c.offset_ + l) j := by
  refine ⟨rfl, rfl, ?_⟩
  intro i j hi hj
  have hgen : ∀ l, l < c.num_beta_ →
      (bp.generate st.1 s).pw_coeffs_a.data (i + l * bp.num_gkvec_loc)
        = bp.pw_coeffs_all i (c.offset_ + l) := by
    intro l hl
    have h1 := generate_get bp st.1 s (g := i) (t := l) (by rw [← hm]; exact hi)
      (by rw [hc]; exact hl)
    rw [hc] at h1
    exact h1
  simp only [accumulate_step, gemm_NN, mdarray.get, mdarray.idx, mdarray.ld, mdarray.ptr]
  rw [store_block_zero _ _ _ _ _ hi hj (le_refl _), generate_size1, hc, generate_chunk, hc,
    generate_size0]
  simp only [one_mul, Nat.zero_add]
  rw [add_comm]
  congr 1
  apply Finset.sum_congr rfl
  intro l hl
  rw [hgen l (Finset.mem_range.mp hl)]
  congr 2
  omega

theorem accumulate_chunks_spec {T : Type} [Field T] (bp : Beta_projectors_base T) (R : mdarray T)
    (N : Nat) :
    ∀ (cs : List beta_chunk_t) (s off : Nat) (st : beta_projectors_coeffs_t T × mdarray T),
      bp.beta_chunks.drop s = cs → partition_from off cs N → st.2.size0 = bp.num_gkvec_loc →
      ((List.range' s cs.length).foldl (accumulate_step bp R) st).2.size0 = st.2.size0 ∧
      ((List.range' s cs.length).foldl (accumulate_step bp R) st).2.size1 = st.2.size1 ∧
      ∀ i j, i < st.2.size0 → j < st.2.size1 →
        ((List.range' s cs.length).foldl (accumulate_step bp R) st).2.get i j
          = st.2.get i j + ∑ r in Finset.Ico off N, bp.pw_coeffs_all i r * R.get r j := by
  intro cs
  induction cs with
  | nil =>
    intro s off st _ hp _
    simp only [List.length_nil, List.range'_zero, List.foldl_nil]
    refine ⟨trivial, trivial, ?_⟩
    intro i j _ _
    have : off = N := hp
    rw [this, Finset.Ico_self, Finset.sum_empty, add_zero]
  | cons c cs ih =>
    intro s off st hdrop hp hm
    obtain ⟨hget, hdrop'⟩ := drop_cons_getD ⟨0, 0⟩ hdrop
    obtain ⟨hoff, hp'⟩ := hp
    have hle := partition_from_le hp'
    obtain ⟨s0, s1, s2⟩ := accumulate_step_spec bp R st s c hget hm
    obtain ⟨i0, i1, i2⟩ := ih (s + 1) (off + c.num_beta_) (accumulate_step bp R st s) hdrop' hp'
      (by rw [s0, hm])
    simp only [List.length_cons, List.range'_succ, List.foldl_cons]
    refine ⟨by rw [i0, s0], by rw [i1, s1], ?_⟩
    intro i j hi hj
    rw [i2 i j (by rw [s0]; exact hi) (by rw [s1]; exact hj), s2 i j hi hj, hoff, add_assoc]
    congr 1
    rw [← Finset.sum_Ico_consecutive _ (Nat.le_add_right off c.num_beta_) hle]
    congr 1
    rw [Finset.sum_Ico_eq_sum_range]
    simp

theorem accumulate_loop_spec {T : Type} [Field T] (bp : Beta_projectors_base T) (R : mdarray T)
    (bc : beta_projectors_coeffs_t T) (Y : mdarray T) (hp : bp.chunks_partition)
    (hm : Y.size0 = bp.num_gkvec_loc) :
    (accumulate_loop bp R bc Y).2.size0 = Y.size0 ∧
    (accumulate_loop bp R bc Y).2.size1 = Y.size1 ∧
    ∀ i j, i < Y.size0 → j < Y.size1 →
      (accumulate_loop bp R bc Y).2.get i j
        = Y.get i j + ∑ r in range bp.num_total_beta, bp.pw_coeffs_all i r * R.get r j := by
  unfold accumulate_loop Beta_projectors_base.num_chunks
  rw [List.range_eq_range', Finset.range_eq_Ico]
  exact accumulate_chunks_spec bp R bp.num_total_beta bp.beta_chunks 0 0 (bc, Y) rfl hp hm

end

section

open Finset Matrix

/-! ## Matrix form of the steps, and `S_k::apply` -/

theorem bphi_loop_toMatrix {T : Type} [Field T] [StarRing T] (bp : Beta_projectors_base T)
    (X : mdarray T) (nbnd : Nat) (fresh : fresh_memory T)
    (bc : beta_projectors_coeffs_t T) (bphi : mdarray T) (hp : bp.chunks_partition)
    (hN : bphi.size0 = bp.num_total_beta) :
    (bphi_loop bp X nbnd fresh bc bphi).2.toMatrix bp.num_total_beta nbnd
      = bp.Betaᴴ * X.toMatrix bp.num_gkvec_loc nbnd := by
  obtain ⟨_, _, h⟩ := bphi_loop_spec bp X nbnd fresh bc bphi hp hN
  ext r b
  rw [Matrix.mul_apply]
  unfold mdarray.toMatrix
  rw [h r.val b.val r.isLt b.isLt]
  unfold BHX
  rw [← Fin.sum_univ_eq_sum_range
    (fun g => star (bp.pw_coeffs_all g r.val) * X.get g b.val) bp.num_gkvec_loc]
  rfl

theorem accumulate_loop_toMatrix {T : Type} [Field T] (bp : Beta_projectors_base T)
    (R : mdarray T) (bc : beta_projectors_coeffs_t T) (Y : mdarray T)
    (hp : bp.chunks_partition) (hm : Y.size0 = bp.num_gkvec_loc) :
    (accumulate_loop bp R bc Y).2.toMatrix bp.num_gkvec_loc Y.size1
      = Y.toMatrix bp.num_gkvec_loc Y.size1
        + bp.Beta * R.toMatrix bp.num_total_beta Y.size1 := by
  obtain ⟨_, _, h⟩ := accumulate_loop_spec bp R bc Y hp hm
  ext i j
  rw [Matrix.add_apply, Matrix.mul_apply]
  unfold mdarray.toMatrix
  rw [h i.val j.val (by rw [hm]; exact i.isLt) j.isLt]
  congr 1
  rw [← Fin.sum_univ_eq_sum_range
    (fun r => bp.pw_coeffs_all i.val r * R.get r j.val) bp.num_total_beta]
  rfl

theorem rmatmul_toMatrix {T : Type} [Field T] (q : Q_operator T) (out B : mdarray T)
    (ispn : Int) (alpha beta : T) (N n : Nat) (hq : q.size_ = N) (hout : out.size0 = N)
    (hB : B.size1 = n) :
    (q.rmatmul out B ispn alpha beta).toMatrix N n
      = alpha • (q.Q ispn N * B.toMatrix N n) + beta • out.toMatrix N n := by
  ext i j
  rw [Matrix.add_apply, Matrix.smul_apply, Matrix.smul_apply, Matrix.mul_apply]
  unfold mdarray.toMatrix
  rw [rmatmul_get q out B ispn alpha beta (by omega) (by omega) (by omega), hq]
  rw [← Fin.sum_univ_eq_sum_range (fun l => q.q_mtrx ispn i.val l * B.get l j.val) N]
  rfl

theorem sddk_copy_toMatrix {T : Type} (dst src : mdarray T) (h0 : dst.size0 = src.size0)
    (m n : Nat) (hm : src.size0 = m) (hn : src.size1 = n) :
    (sddk_copy dst src).toMatrix m n = src.toMatrix m n := by
  ext i j
  unfold mdarray.toMatrix
  exact sddk_copy_get dst src h0 (by omega) (by omega)

theorem S_k_apply_matrix {T : Type} [Field T] [StarRing T] (op : S_k T) (Y X : mdarray T)
    (fresh : fresh_memory T) (h : apply_ready op.bp op.q_op Y X) :
    (op.apply Y X fresh).Y.size0 = X.size0 ∧ (op.apply Y X fresh).Y.size1 = X.size1 ∧
    (op.apply Y X fresh).Y.toMatrix op.bp.num_gkvec_loc X.size1
      = X.toMatrix op.bp.num_gkvec_loc X.size1
        + op.bp.Beta * (op.q_op.Q op.ispn op.bp.num_total_beta
            * (op.bp.Betaᴴ * X.toMatrix op.bp.num_gkvec_loc X.size1)) := by
  obtain ⟨hp, hq, hX, hY0, hY1⟩ := h
  have hcopy0 : (sddk_copy Y X).size0 = op.bp.num_gkvec_loc := by
    show Y.size0 = _
    rw [hY0, hX]
  have hcopy1 : (sddk_copy Y X).size1 = X.size1 := hY1
  unfold S_k.apply
  simp only
  obtain ⟨a0, a1, _⟩ := accumulate_loop_spec op.bp
    (op.q_op.rmatmul ⟨op.q_op.size 0,
      (bphi_loop op.bp X X.size1 fresh (op.bp.prepare fresh.beta)
        ⟨op.bp.num_total_beta, X.size1, fresh.bphi⟩).2.size1, fresh.R⟩
      (bphi_loop op.bp X X.size1 fresh (op.bp.prepare fresh.beta)
        ⟨op.bp.num_total_beta, X.size1, fresh.bphi⟩).2 op.ispn 1 0)
    (bphi_loop op.bp X X.size1 fresh (op.bp.prepare fresh.beta)
        ⟨op.bp.num_total_beta, X.size1, fresh.bphi⟩).1 (sddk_copy Y X) hp hcopy0
  refine ⟨by rw [a0, hcopy0, hX], by rw [a1, hcopy1], ?_⟩
  have hacc := accumulate_loop_toMatrix op.bp
    (op.q_op.rmatmul ⟨op.q_op.size 0,
      (bphi_loop op.bp X X.size1 fresh (op.bp.prepare fresh.beta)
        ⟨op.bp.num_total_beta, X.size1, fresh.bphi⟩).2.size1, fresh.R⟩
      (bphi_loop op.bp X X.size1 fresh (op.bp.prepare fresh.beta)
        ⟨op.bp.num_total_beta, X.size1, fresh.bphi⟩).2 op.ispn 1 0)
    (bphi_loop op.bp X X.size1 fresh (op.bp.prepare fresh.beta)
        ⟨op.bp.num_total_beta, X.size1, fresh.bphi⟩).1 (sddk_copy Y X) hp hcopy0
  rw [hcopy1] at hacc
  rw [hacc, sddk_copy_toMatrix Y X hY0 _ _ hX rfl]
  congr 1
  obtain ⟨b0, b1, _⟩ := bphi_loop_spec op.bp X X.size1 fresh (op.bp.prepare fresh.beta)
    ⟨op.bp.num_total_beta, X.size1, fresh.bphi⟩ hp rfl
  rw [rmatmul_toMatrix _ _ _ _ _ _ op.bp.num_total_beta X.size1 hq
    (by show op.q_op.size 0 = _; exact hq) (by rw [b1]),
    bphi_loop_toMatrix op.bp X X.size1 fresh _ _ hp rfl]
  simp

end

section

open Finset

/-! ## The pivot search -/

theorem pivot_fold_spec {T : Type} [Zero T] [PivotAbs T] (A : Nat → Nat → T) (j : Nat) :
    ∀ (k s p : Nat), j ≤ p → p < s → 
      (∀ i, j ≤ i → i < s → PivotAbs.cabs1 (A i j) ≤ PivotAbs.cabs1 (A p j)) →
      (p = j ∨ PivotAbs.cabs1 (A j j) < PivotAbs.cabs1 (A p j)) →
      let q := (List.range' s k).foldl
        (fun p i => if PivotAbs.cabs1 (A p j) < PivotAbs.cabs1 (A i j) then i else p) p
      j ≤ q ∧ q < s + k ∧
        (∀ i, j ≤ i → i < s + k → PivotAbs.cabs1 (A i j) ≤ PivotAbs.cabs1 (A q j)) ∧
        (q = j ∨ PivotAbs.cabs1 (A j j) < PivotAbs.cabs1 (A q j)) := by
  intro k
  induction k with
  | zero =>
    intro s p h1 h2 h3 h4
    simp only [List.range'_zero, List.foldl_nil, Nat.add_zero]
    exact ⟨h1, h2, h3, h4⟩
  | succ k ih =>
    intro s p h1 h2 h3 h4
    simp only [List.range'_succ, List.foldl_cons]
    by_cases hlt : PivotAbs.cabs1 (A p j) < PivotAbs.cabs1 (A s j)
    · rw [if_pos hlt]
      have := ih (s + 1) s (by omega) (by omega)
        (by
          intro i hi1 hi2
          rcases Nat.lt_succ_iff_lt_or_eq.mp hi2 with h | h
          · exact le_trans (h3 i hi1 h) (le_of_lt hlt)
          · rw [h])
        (by
          right
          rcases h4 with h | h
          · rw [h] at hlt; exact hlt
          · exact lt_trans h hlt)
      simp only at this
      obtain ⟨a, b, c, d⟩ := this
      exact ⟨a, by omega, fun i hi1 hi2 => c i hi1 (by omega), d⟩
    · rw [if_neg hlt]
      have := ih (s + 1) p h1 (by omega)
        (by
          intro i hi1 hi2
          rcases Nat.lt_succ_iff_lt_or_eq.mp hi2 with h | h
          · exact h3 i hi1 h
          · rw [h]; exact not_lt.mp hlt)
        h4
      simp only at this
      obtain ⟨a, b, c, d⟩ := this
      exact ⟨a, by omega, fun i hi1 hi2 => c i hi1 (by omega), d⟩

theorem pivot_search_spec {T : Type} [Zero T] [PivotAbs T] (n : Nat) (A : Nat → Nat → T)
    (j : Nat) (hj : j < n) :
    j ≤ pivot_search n A j ∧ pivot_search n A j < n ∧
      (∀ i, j ≤ i → i < n →
        PivotAbs.cabs1 (A i j) ≤ PivotAbs.cabs1 (A (pivot_search n A j) j)) ∧
      (pivot_search n A j = j ∨
        PivotAbs.cabs1 (A j j) < PivotAbs.cabs1 (A (pivot_search n A j) j)) := by
  have := pivot_fold_spec A j (n - (j + 1)) (j + 1) j (le_refl _) (Nat.lt_succ_self _)
    (by
      intro i h1 h2
      have : i = j := by omega
      rw [this])
    (Or.inl rfl)
  simp only at this
  have he : j + 1 + (n - (j + 1)) = n := by omega
  rw [he] at this
  exact this

/-- When the selected pivot is exactly zero, the search stayed on the diagonal
and the whole column from the diagonal down is zero. -/
theorem pivot_zero {T : Type} [Zero T] [PivotAbs T] (n : Nat) (A : Nat → Nat → T)
    (j : Nat) (hj : j < n) (hz : A (pivot_search n A j) j = 0) :
    pivot_search n A j = j ∧ ∀ i, j ≤ i → i < n → A i j = 0 := by
  obtain ⟨_, _, h3, h4⟩ := pivot_search_spec n A j hj
  rw [hz, PivotAbs.cabs1_zero] at h3 h4
  constructor
  · rcases h4 with h | h
    · exact h
    · exact absurd h (not_lt.mpr (PivotAbs.cabs1_nonneg _))
  · intro i hi1 hi2
    exact PivotAbs.cabs1_eq_zero _ (le_antisymm (h3 i hi1 hi2) (PivotAbs.cabs1_nonneg _))

/-! ## The factorization invariant -/

theorem swap_cases {j p i : Nat} (hjp : j ≤ p) :
    Equiv.swap j p i = i ∨ (j ≤ i ∧ j ≤ Equiv.swap j p i) := by
  by_cases h1 : i = j
  · right
    subst h1
    rw [Equiv.swap_apply_left]
    exact ⟨le_refl _, hjp⟩
  · by_cases h2 : i = p
    · right
      subst h2
      rw [Equiv.swap_apply_right]
      exact ⟨hjp, le_refl _⟩
    · left
      exact Equiv.swap_apply_of_ne_of_ne h1 h2

theorem swap_lt {j p i n : Nat} (hj : j < n) (hp : p < n) (hi : i < n) :
    Equiv.swap j p i < n := by
  by_cases h1 : i = j
  · subst h1; rw [Equiv.swap_apply_left]; exact hp
  · by_cases h2 : i = p
    · subst h2; rw [Equiv.swap_apply_right]; exact hj
    · rw [Equiv.swap_apply_of_ne_of_ne h1 h2]; exact hi

theorem lu_inv_swap {T : Type} [Field T] (A0 : Nat → Nat → T) (n : Nat) (σ : Equiv.Perm Nat)
    (j p : Nat) (M : Nat → Nat → T) (h : lu_inv A0 n σ j M) (hjp : j ≤ p) (hp : p < n) :
    lu_inv A0 n (σ * Equiv.swap j p) j (swap_rows n M j p) := by
  intro i k hi hk
  have hj : j < n := lt_of_le_of_lt hjp hp
  have hi' : Equiv.swap j p i < n := swap_lt hj hp hi
  have h0 := h (Equiv.swap j p i) k hi' hk
  rw [Equiv.Perm.mul_apply, h0]
  have hrow : ∀ t, t < j → swap_rows n M j p t k = M t k := by
    intro t ht
    unfold swap_rows
    rw [if_pos hk, Equiv.swap_apply_of_ne_of_ne (by omega) (by omega)]
  have hcol : ∀ t, t < n → swap_rows n M j p i t = M (Equiv.swap j p i) t := by
    intro t ht
    unfold swap_rows
    rw [if_pos ht]
  rcases swap_cases (i := i) hjp with hc | ⟨hc1, hc2⟩
  · rw [hc] at hcol ⊢
    congr 1
    · apply Finset.sum_congr rfl
      intro t ht
      have ht' := Finset.mem_range.mp ht
      rw [hrow t ht', hcol t (by omega)]
    · rw [hcol k hk]
  · congr 1
    · apply Finset.sum_congr rfl
      intro t ht
      have ht' := Finset.mem_range.mp ht
      rw [hrow t ht', hcol t (by omega)]
      have e : (t < Equiv.swap j p i ∧ t ≤ k) ↔ (t < i ∧ t ≤ k) := by
        constructor
        · rintro ⟨_, b⟩; exact ⟨by omega, b⟩
        · rintro ⟨_, b⟩; exact ⟨by omega, b⟩
      simp only [e]
    · rw [hcol k hk]
      have e : ((Equiv.swap j p i < j ∧ Equiv.swap j p i ≤ k) ∨ (j ≤ Equiv.swap j p i ∧ j ≤ k))
          ↔ ((i < j ∧ i ≤ k) ∨ (j ≤ i ∧ j ≤ k)) := by
        constructor
        · rintro (⟨a, _⟩ | ⟨_, b⟩)
          · omega
          · exact Or.inr ⟨hc1, b⟩
        · rintro (⟨a, _⟩ | ⟨_, b⟩)
          · omega
          · exact Or.inr ⟨hc2, b⟩
      simp only [e]

theorem lu_inv_elim {T : Type} [Field T] (A0 : Nat → Nat → T) (n : Nat) (σ : Equiv.Perm Nat)
    (j : Nat) (M1 M2 : Nat → Nat → T) (h : lu_inv A0 n σ j M1)
    (ha : ∀ i k, ¬ (k = j ∧ j < i ∧ i < n) → M2 i k = M1 i k)
    (hb : ∀ i, j < i → i < n → M2 i j * M1 j j = M1 i j) :
    lu_inv A0 n σ (j + 1) (rank1_update n n M2 j) := by
  intro i k hi hk
  rw [h i k hi hk, Finset.sum_range_succ]
  have e3 : ∀ a b, ¬ (j < a ∧ a < n ∧ j < b ∧ b < n) → rank1_update n n M2 j a b = M2 a b := by
    intro a b hab
    unfold rank1_update
    rw [if_neg hab]
  have hsum : ∀ t ∈ range j,
      (if t < i ∧ t ≤ k then M1 i t * M1 t k else 0)
        = (if t < i ∧ t ≤ k then rank1_update n n M2 j i t * rank1_update n n M2 j t k else 0) := by
    intro t ht
    have ht' := Finset.mem_range.mp ht
    rw [e3 i t (by omega), e3 t k (by omega), ha i t (by omega), ha t k (by omega)]
  rw [Finset.sum_congr rfl hsum, add_assoc]
  congr 1
  by_cases hij : i ≤ j
  · have c1 : ¬ (j < i ∧ j ≤ k) := by omega
    have c2 : ((i < j + 1 ∧ i ≤ k) ∨ (j + 1 ≤ i ∧ j + 1 ≤ k))
        ↔ ((i < j ∧ i ≤ k) ∨ (j ≤ i ∧ j ≤ k)) := by omega
    rw [if_neg c1, zero_add, e3 i k (by omega), ha i k (by omega)]
    simp only [c2]
  · have hij' : j < i := Nat.lt_of_not_le hij
    rcases Nat.lt_trichotomy k j with hk1 | hk1 | hk1
    · have c0 : ¬ ((i < j ∧ i ≤ k) ∨ (j ≤ i ∧ j ≤ k)) := by omega
      have c1 : ¬ (j < i ∧ j ≤ k) := by omega
      have c2 : ¬ ((i < j + 1 ∧ i ≤ k) ∨ (j + 1 ≤ i ∧ j + 1 ≤ k)) := by omega
      rw [if_neg c0, if_neg c1, if_neg c2, zero_add]
    · subst hk1
      have c0 : ((i < k ∧ i ≤ k) ∨ (k ≤ i ∧ k ≤ k)) := by omega
      have c1 : (k < i ∧ k ≤ k) := by omega
      have c2 : ¬ ((i < k + 1 ∧ i ≤ k) ∨ (k + 1 ≤ i ∧ k + 1 ≤ k)) := by omega
      rw [if_pos c0, if_pos c1, if_neg c2, add_zero,
        e3 i k (by omega), e3 k k (by omega), ha k k (by omega), hb i hij' hi]
    · have c0 : ((i < j ∧ i ≤ k) ∨ (j ≤ i ∧ j ≤ k)) := by omega
      have c1 : (j < i ∧ j ≤ k) := by omega
      have c2 : ((i < j + 1 ∧ i ≤ k) ∨ (j + 1 ≤ i ∧ j + 1 ≤ k)) := by omega
      rw [if_pos c0, if_pos c1, if_pos c2, e3 i j (by omega),
        e3 j k (by omega), ha j k (by omega)]
      unfold rank1_update
      rw [if_pos ⟨hij', hi, hk1, hk⟩, ha j k (by omega), ha i k (by omega)]
      ring

theorem perm_of_succ (ipiv : Nat → Nat) (j : Nat) :
    perm_of ipiv (j + 1) = perm_of ipiv j * Equiv.swap j (ipiv j - 1) := by
  unfold perm_of
  rw [List.range_succ, List.foldl_append]
  rfl

theorem perm_of_congr (ipiv ipiv' : Nat → Nat) (j : Nat) (h : ∀ t, t < j → ipiv t = ipiv' t) :
    perm_of ipiv j = perm_of ipiv' j := by
  induction j with
  | zero => rfl
  | succ j ih =>
    rw [perm_of_succ, perm_of_succ, ih (fun t ht => h t (Nat.lt_succ_of_lt ht)),
      h j (Nat.lt_succ_self j)]

theorem perm_of_lt (ipiv : Nat → Nat) (n : Nat) :
    ∀ j, j ≤ n → (∀ t, t < j → ipiv t - 1 < n) → ∀ i, i < n → perm_of ipiv j i < n := by
  intro j
  induction j with
  | zero =>
    intro _ _ i hi
    exact hi
  | succ j ih =>
    intro hj hp i hi
    rw [perm_of_succ, Equiv.Perm.mul_apply]
    exact ih (by omega) (fun t ht => hp t (by omega)) _
      (swap_lt (by omega) (hp j (by omega)) hi)

theorem getf2_step_ipiv {T : Type} [Field T] [DecidableEq T] [PivotAbs T] (n : Nat)
    (st : getf2_state T) (j : Nat) :
    (getf2_step n n st j).ipiv = Function.update st.ipiv j (pivot_search n st.A j + 1) := rfl

theorem getf2_step_inv {T : Type} [Field T] [DecidableEq T] [PivotAbs T]
    (A0 : Nat → Nat → T) (n : Nat) (st : getf2_state T) (j : Nat) (hj : j < n)
    (h : lu_inv A0 n (perm_of st.ipiv j) j st.A) :
    lu_inv A0 n (perm_of (getf2_step n n st j).ipiv (j + 1)) (j + 1) (getf2_step n n st j).A := by
  obtain ⟨p1, p2, _, _⟩ := pivot_search_spec n st.A j hj
  have hperm : perm_of (getf2_step n n st j).ipiv (j + 1)
      = perm_of st.ipiv j * Equiv.swap j (pivot_search n st.A j) := by
    rw [perm_of_succ, getf2_step_ipiv, Function.update_same, Nat.add_sub_cancel]
    congr 1
    apply perm_of_congr
    intro t ht
    rw [Function.update_noteq (by omega)]
  rw [hperm]
  by_cases hz : st.A (pivot_search n st.A j) j = 0
  · obtain ⟨z1, z2⟩ := pivot_zero n st.A j hj hz
    have hA : (getf2_step n n st j).A = rank1_update n n st.A j := by
      unfold getf2_step
      simp only
      rw [if_neg (not_not.mpr hz)]
    rw [hA, z1, Equiv.swap_self]
    have : perm_of st.ipiv j * Equiv.refl Nat = perm_of st.ipiv j := mul_one _
    rw [this]
    apply lu_inv_elim A0 n _ j st.A st.A h (fun _ _ _ => rfl)
    intro i hi1 hi2
    rw [z2 i (by omega) hi2, zero_mul]
  · have hA : (getf2_step n n st j).A
        = rank1_update n n
            (scale_column n (swap_rows n st.A j (pivot_search n st.A j)) j) j := by
      unfold getf2_step
      simp only
      rw [if_pos hz]
    rw [hA]
    have hs := lu_inv_swap A0 n _ j (pivot_search n st.A j) st.A h p1 p2
    have hpiv : swap_rows n st.A j (pivot_search n st.A j) j j ≠ 0 := by
      unfold swap_rows
      rw [if_pos hj, Equiv.swap_apply_left]
      exact hz
    apply lu_inv_elim A0 n _ j _ _ hs
    · intro i k hik
      unfold scale_column
      rw [if_neg hik]
    · intro i hi1 hi2
      unfold scale_column
      rw [if_pos ⟨rfl, hi1, hi2⟩]
      exact div_mul_cancel₀ _ hpiv

theorem getf2_steps_inv {T : Type} [Field T] [DecidableEq T] [PivotAbs T]
    (A0 : Nat → Nat → T) (n : Nat) :
    ∀ j, j ≤ n →
      lu_inv A0 n (perm_of ((List.range j).foldl (getf2_step n n) ⟨A0, fun _ => 0, 0⟩).ipiv j) j
          ((List.range j).foldl (getf2_step n n) ⟨A0, fun _ => 0, 0⟩).A ∧
        ∀ t, t < j →
          ((List.range j).foldl (getf2_step n n) ⟨A0, fun _ => 0, 0⟩).ipiv t - 1 < n := by
  intro j
  induction j with
  | zero =>
    intro _
    refine ⟨?_, fun t ht => absurd ht (Nat.not_lt_zero t)⟩
    intro i k _ _
    simp [perm_of]
  | succ j ih =>
    intro hj
    obtain ⟨ih1, ih2⟩ := ih (by omega)
    rw [List.range_succ, List.foldl_append]
    simp only [List.foldl_cons, List.foldl_nil]
    refine ⟨getf2_step_inv A0 n _ j (by omega) ih1, ?_⟩
    intro t ht
    rw [getf2_step_ipiv]
    by_cases htj : t = j
    · subst htj
      rw [Function.update_same, Nat.add_sub_cancel]
      exact (pivot_search_spec n _ t (by omega)).2.1
    · rw [Function.update_noteq htj]
      exact ih2 t (by omega)

/-- The factorization: with `σ` the recorded row permutation, row `σ i` of the
input is row `i` of `L * U`, where `L` and `U` are read off the overwritten
matrix. -/
theorem getf2_factor {T : Type} [Field T] [DecidableEq T] [PivotAbs T]
    (A0 : Nat → Nat → T) (n : Nat) :
    (∀ i k, i < n → k < n →
      A0 (perm_of (getf2 n n A0).ipiv n i) k
        = ∑ t in range n,
            (if t < i then (getf2 n n A0).A i t else if t = i then 1 else 0)
              * (if t ≤ k then (getf2 n n A0).A t k else 0)) ∧
      ∀ t, t < n → (getf2 n n A0).ipiv t - 1 < n := by
  obtain ⟨h1, h2⟩ := getf2_steps_inv A0 n n (le_refl _)
  have hg : getf2 n n A0 = (List.range n).foldl (getf2_step n n) ⟨A0, fun _ => 0, 0⟩ := by
    unfold getf2
    rw [Nat.min_self]
  rw [← hg] at h1 h2
  refine ⟨?_, h2⟩
  intro i k hi hk
  rw [h1 i k hi hk]
  have hsplit : ∀ t ∈ range n,
      (if t < i then (getf2 n n A0).A i t else if t = i then 1 else 0)
          * (if t ≤ k then (getf2 n n A0).A t k else 0)
        = (if t < i ∧ t ≤ k then (getf2 n n A0).A i t * (getf2 n n A0).A t k else 0)
          + (if t = i then (if i ≤ k then (getf2 n n A0).A i k else 0) else 0) := by
    intro t _
    by_cases c1 : t < i
    · have c2 : ¬ t = i := by omega
      rw [if_pos c1, if_neg c2, add_zero]
      by_cases c3 : t ≤ k
      · have c4 : t < i ∧ t ≤ k := ⟨c1, c3⟩
        rw [if_pos c3, if_pos c4]
      · have c4 : ¬ (t < i ∧ t ≤ k) := fun h => c3 h.2
        rw [if_neg c3, if_neg c4, mul_zero]
    · have c4 : ¬ (t < i ∧ t ≤ k) := fun h => c1 h.1
      rw [if_neg c1, if_neg c4, zero_add]
      by_cases c2 : t = i
      · subst c2
        rw [if_pos rfl, if_pos rfl, one_mul]
      · rw [if_neg c2, if_neg c2, zero_mul]
  rw [Finset.sum_congr rfl hsplit, Finset.sum_add_distrib,
    Finset.sum_ite_eq' (range n) i, if_pos (Finset.mem_range.mpr hi)]
  congr 1
  have c : ((i < n ∧ i ≤ k) ∨ (n ≤ i ∧ n ≤ k)) ↔ i ≤ k := by omega
  simp only [c]

/-! ## Row interchanges and the triangular solves -/

theorem laswp_spec {T : Type} (nrhs : Nat) (B : Nat → Nat → T) (ipiv : Nat → Nat) :
    ∀ n i c, c < nrhs → laswp n nrhs B ipiv i c = B (perm_of ipiv n i) c := by
  intro n
  induction n with
  | zero =>
    intro i c _
    rfl
  | succ n ih =>
    intro i c hc
    have : laswp (n + 1) nrhs B ipiv = swap_rows nrhs (laswp n nrhs B ipiv) n (ipiv n - 1) := by
      unfold laswp
      rw [List.range_succ, List.foldl_append]
      rfl
    rw [this, perm_of_succ, Equiv.Perm.mul_apply]
    unfold swap_rows
    rw [if_pos hc, ih _ c hc]

theorem trsm_lower_steps {T : Type} [Field T] (A B : Nat → Nat → T) (c : Nat) :
    ∀ j,
      (∀ r, r < j →
        ((List.range j).foldl
            (fun B i => fun r c =>
              if r = i then B i c - ∑ t in range i, A i t * B t c else B r c) B) r c
          + ∑ t in range r, A r t *
              ((List.range j).foldl
                (fun B i => fun r c =>
                  if r = i then B i c - ∑ t in range i, A i t * B t c else B r c) B) t c
          = B r c) ∧
      (∀ r, j ≤ r →
        ((List.range j).foldl
            (fun B i => fun r c =>
              if r = i then B i c - ∑ t in range i, A i t * B t c else B r c) B) r c
          = B r c) := by
  intro j
  induction j with
  | zero =>
    exact ⟨fun r hr => absurd hr (Nat.not_lt_zero r), fun r _ => rfl⟩
  | succ j ih =>
    obtain ⟨ih1, ih2⟩ := ih
    rw [List.range_succ, List.foldl_append]
    simp only [List.foldl_cons, List.foldl_nil]
    generalize (List.range j).foldl
      (fun B i => fun r c =>
        if r = i then B i c - ∑ t in range i, A i t * B t c else B r c) B = Y at ih1 ih2
    constructor
    · intro r hr
      have hsum : ∑ t in range r, A r t *
            (if t = j then Y j c - ∑ t in range j, A j t * Y t c else Y t c)
          = ∑ t in range r, A r t * Y t c := by
        apply Finset.sum_congr rfl
        intro t ht
        have : ¬ t = j := by
          have := Finset.mem_range.mp ht
          omega
        rw [if_neg this]
      rw [hsum]
      by_cases hrj : r = j
      · subst hrj
        rw [if_pos rfl, sub_add_cancel]
        exact ih2 r (le_refl _)
      · rw [if_neg hrj]
        exact ih1 r (by omega)
    · intro r hr
      have : ¬ r = j := by omega
      rw [if_neg this]
      exact ih2 r (by omega)

theorem trsm_lower_unit_spec {T : Type} [Field T] (n : Nat) (A B : Nat → Nat → T)
    (r c : Nat) (hr : r < n) :
    trsm_lower_unit n A B r c + ∑ t in range r, A r t * trsm_lower_unit n A B t c = B r c :=
  (trsm_lower_steps A B c n).1 r hr

theorem trsm_upper_suffix {T : Type} [Field T] (n : Nat) (A B : Nat → Nat → T) (c : Nat)
    (hd : ∀ i, i < n → A i i ≠ 0) :
    ∀ k i, i + k = n →
      (∀ r, i ≤ r → r < n →
        ∑ t in Finset.Ico r n, A r t *
            ((List.range' i k).foldr
              (fun i B => fun r c =>
                if r = i then (B i c - ∑ t in Finset.Ico (i + 1) n, A i t * B t c) / A i i
                else B r c) B) t c
          = B r c) ∧
      (∀ r, r < i →
        ((List.range' i k).foldr
            (fun i B => fun r c =>
              if r = i then (B i c - ∑ t in Finset.Ico (i + 1) n, A i t * B t c) / A i i
              else B r c) B) r c
          = B r c) := by
  intro k
  induction k with
  | zero =>
    intro i hi
    simp only [List.range'_zero, List.foldr_nil]
    exact ⟨fun r h1 h2 => by omega, fun r _ => trivial⟩
  | succ k ih =>
    intro i hi
    obtain ⟨ih1, ih2⟩ := ih (i + 1) (by omega)
    simp only [List.range'_succ, List.foldr_cons]
    generalize (List.range' (i + 1) k).foldr
      (fun i B => fun r c =>
        if r = i then (B i c - ∑ t in Finset.Ico (i + 1) n, A i t * B t c) / A i i
        else B r c) B = Z at ih1 ih2
    have htail : ∀ r, i ≤ r →
        ∑ t in Finset.Ico (r + 1) n, A r t *
            (if t = i then (Z i c - ∑ t in Finset.Ico (i + 1) n, A i t * Z t c) / A i i
              else Z t c)
          = ∑ t in Finset.Ico (r + 1) n, A r t * Z t c := by
      intro r hr
      apply Finset.sum_congr rfl
      intro t ht
      have : ¬ t = i := by
        have := (Finset.mem_Ico.mp ht).1
        omega
      rw [if_neg this]
    constructor
    · intro r hr1 hr2
      rw [Finset.sum_eq_sum_Ico_succ_bot hr2, htail r hr1]
      by_cases hri : r = i
      · subst hri
        rw [if_pos rfl, mul_div_cancel₀ _ (hd r hr2), sub_add_cancel]
        exact ih2 r (Nat.lt_succ_self r)
      · rw [if_neg hri]
        have := ih1 r (by omega) hr2
        rw [Finset.sum_eq_sum_Ico_succ_bot hr2] at this
        exact this
    · intro r hr
      have : ¬ r = i := by omega
      rw [if_neg this]
      exact ih2 r (by omega)

theorem trsm_upper_spec {T : Type} [Field T] (n : Nat) (A B : Nat → Nat → T)
    (hd : ∀ i, i < n → A i i ≠ 0) (r c : Nat) (hr : r < n) :
    ∑ t in Finset.Ico r n, A r t * trsm_upper n A B t c = B r c := by
  have := (trsm_upper_suffix n A B c hd n 0 (Nat.zero_add n)).1 r (Nat.zero_le r) hr
  unfold trsm_upper
  rw [List.range_eq_range']
  exact this

/-! ## Solving with the factors -/

theorem sum_upper_row {T : Type} [Field T] (n t : Nat) (g : Nat → T) :
    ∑ k in range n, (if t ≤ k then g k else 0) = ∑ k in Finset.Ico t n, g k := by
  rw [← Finset.sum_filter]
  apply Finset.sum_congr _ (fun _ _ => rfl)
  ext k
  simp only [Finset.mem_filter, Finset.mem_range, Finset.mem_Ico]
  omega

theorem sum_lower_row {T : Type} [Field T] (n i : Nat) (hi : i < n) (g : Nat → T) (h : T) :
    ∑ t in range n, (if t < i then g t else if t = i then h else 0)
      = ∑ t in range i, g t + h := by
  have hsplit : ∀ t ∈ range n,
      (if t < i then g t else if t = i then h else 0)
        = (if t < i then g t else 0) + (if t = i then h else 0) := by
    intro t _
    by_cases c1 : t < i
    · have c2 : ¬ t = i := by omega
      rw [if_pos c1, if_pos c1, if_neg c2, add_zero]
    · rw [if_neg c1, if_neg c1, zero_add]
  rw [Finset.sum_congr rfl hsplit, Finset.sum_add_distrib,
    Finset.sum_ite_eq' (range n) i, if_pos (Finset.mem_range.mpr hi), ← Finset.sum_filter]
  congr 1
  apply Finset.sum_congr _ (fun _ _ => rfl)
  ext k
  simp only [Finset.mem_filter, Finset.mem_range]
  omega

/-- The recorded row permutation as a permutation of the row indices
`0 .. n - 1`. -/
theorem perm_fin_exists (σ : Equiv.Perm Nat) (n : Nat) (h : ∀ i, i < n → σ i < n) :
    ∃ e : Equiv.Perm (Fin n), ∀ i : Fin n, (e i).val = σ i.val := by
  have hinj : Function.Injective (fun i : Fin n => (⟨σ i.val, h i.val i.isLt⟩ : Fin n)) := by
    intro a b hab
    have : σ a.val = σ b.val := congrArg Fin.val hab
    exact Fin.ext (σ.injective this)
  exact ⟨Equiv.ofBijective _ ⟨hinj, Finite.surjective_of_injective hinj⟩, fun i => rfl⟩

/-- Determinant of the input from the diagonal of the factor `U`: up to the
sign of the row permutation it is the product of the diagonal. -/
theorem lu_det {T : Type} [Field T] [DecidableEq T] [PivotAbs T]
    (A0 : Nat → Nat → T) (n : Nat) :
    ∃ s : T, s ≠ 0 ∧
      s * Matrix.det (fun (i k : Fin n) => A0 i.val k.val)
        = ∏ i : Fin n, (getf2 n n A0).A i.val i.val := by
  obtain ⟨hfac, hpiv⟩ := getf2_factor A0 n
  obtain ⟨e, he⟩ := perm_fin_exists (perm_of (getf2 n n A0).ipiv n) n
    (perm_of_lt _ n n (le_refl _) hpiv)
  have hmat : (Matrix.submatrix (fun (i k : Fin n) => A0 i.val k.val) e id)
      = lower_factor n (getf2 n n A0).A * upper_factor n (getf2 n n A0).A := by
    ext i k
    rw [Matrix.mul_apply, Matrix.submatrix_apply, he i, id]
    rw [hfac i.val k.val i.isLt k.isLt]
    rw [← Fin.sum_univ_eq_sum_range
      (fun t => (if t < i.val then (getf2 n n A0).A i.val t else if t = i.val then 1 else 0)
        * (if t ≤ k.val then (getf2 n n A0).A t k.val else 0)) n]
    rfl
  have hL : (lower_factor n (getf2 n n A0).A).det = 1 := by
    rw [Matrix.det_of_lowerTriangular]
    · apply Finset.prod_eq_one
      intro i _
      unfold lower_factor
      rw [if_neg (lt_irrefl _), if_pos rfl]
    · intro i j hij
      have hij' : i < j := hij
      unfold lower_factor
      have c1 : ¬ j.val < i.val := by
        have : i.val < j.val := hij'
        omega
      have c2 : ¬ j.val = i.val := by
        have : i.val < j.val := hij'
        omega
      rw [if_neg c1, if_neg c2]
  have hU : (upper_factor n (getf2 n n A0).A).det
      = ∏ i : Fin n, (getf2 n n A0).A i.val i.val := by
    rw [Matrix.det_of_upperTriangular]
    · apply Finset.prod_congr rfl
      intro i _
      unfold upper_factor
      rw [if_pos (le_refl _)]
    · intro i j hij
      have hij' : j < i := hij
      unfold upper_factor
      have c1 : ¬ i.val ≤ j.val := by
        have : j.val < i.val := hij'
        omega
      rw [if_neg c1]
  have hdet := congrArg Matrix.det hmat
  rw [Matrix.det_permute, Matrix.det_mul, hL, hU, one_mul] at hdet
  refine ⟨_, ?_, hdet⟩
  rcases Int.units_eq_one_or (Equiv.Perm.sign e) with hs | hs <;> rw [hs] <;> simp

theorem lu_diag_ne_zero {T : Type} [Field T] [DecidableEq T] [PivotAbs T]
    (A0 : Nat → Nat → T) (n : Nat)
    (hA : IsUnit (Matrix.det (fun (i k : Fin n) => A0 i.val k.val))) :
    ∀ i, i < n → (getf2 n n A0).A i i ≠ 0 := by
  obtain ⟨s, hs, hdet⟩ := lu_det A0 n
  have hne : (∏ i : Fin n, (getf2 n n A0).A i.val i.val) ≠ 0 := by
    rw [← hdet]
    exact mul_ne_zero hs hA.ne_zero
  intro i hi
  exact (Finset.prod_ne_zero_iff.mp hne) ⟨i, hi⟩ (Finset.mem_univ _)

/-- Solving with the factors and pivots left by the factorization solves the
original system, provided the matrix is invertible. -/
theorem lu_solve {T : Type} [Field T] [DecidableEq T] [PivotAbs T]
    (A0 B : Nat → Nat → T) (n nrhs : Nat)
    (hA : IsUnit (Matrix.det (fun (i k : Fin n) => A0 i.val k.val))) :
    ∀ r c, r < n → c < nrhs →
      ∑ k in range n, A0 r k *
          trsm_upper n (getf2 n n A0).A
            (trsm_lower_unit n (getf2 n n A0).A
              (laswp n nrhs B (getf2 n n A0).ipiv)) k c
        = B r c := by
  obtain ⟨hfac, hpiv⟩ := getf2_factor A0 n
  have hd := lu_diag_ne_zero A0 n hA
  have hlt := perm_of_lt (getf2 n n A0).ipiv n n (le_refl _) hpiv
  obtain ⟨e, he⟩ := perm_fin_exists (perm_of (getf2 n n A0).ipiv n) n hlt
  have hrow : ∀ i c, i < n → c < nrhs →
      ∑ k in range n, A0 (perm_of (getf2 n n A0).ipiv n i) k *
          trsm_upper n (getf2 n n A0).A
            (trsm_lower_unit n (getf2 n n A0).A
              (laswp n nrhs B (getf2 n n A0).ipiv)) k c
        = B (perm_of (getf2 n n A0).ipiv n i) c := by
    intro i c hi hc
    generalize hY : trsm_lower_unit n (getf2 n n A0).A (laswp n nrhs B (getf2 n n A0).ipiv) = Y
    have hYs := trsm_lower_unit_spec n (getf2 n n A0).A (laswp n nrhs B (getf2 n n A0).ipiv)
      i c hi
    rw [hY, laswp_spec nrhs B _ n i c hc] at hYs
    have hXs := fun t ht => trsm_upper_spec n (getf2 n n A0).A Y hd t c ht
    generalize trsm_upper n (getf2 n n A0).A Y = X at hXs
    have h1 : ∀ k ∈ range n,
        A0 (perm_of (getf2 n n A0).ipiv n i) k * X k c
          = ∑ t in range n,
              (if t < i then (getf2 n n A0).A i t else if t = i then 1 else 0)
                * ((if t ≤ k then (getf2 n n A0).A t k else 0) * X k c) := by
      intro k hk
      rw [hfac i k hi (Finset.mem_range.mp hk), Finset.sum_mul]
      apply Finset.sum_congr rfl
      intro t _
      rw [mul_assoc]
    rw [Finset.sum_congr rfl h1, Finset.sum_comm]
    have h2 : ∀ t ∈ range n,
        ∑ k in range n,
            (if t < i then (getf2 n n A0).A i t else if t = i then 1 else 0)
              * ((if t ≤ k then (getf2 n n A0).A t k else 0) * X k c)
          = (if t < i then (getf2 n n A0).A i t * Y t c else if t = i then Y i c else 0) := by
      intro t ht
      rw [← Finset.mul_sum]
      have h3 : ∑ k in range n, (if t ≤ k then (getf2 n n A0).A t k else 0) * X k c
          = Y t c := by
        rw [← hXs t (Finset.mem_range.mp ht), ← sum_upper_row n t]
        apply Finset.sum_congr rfl
        intro k _
        by_cases c1 : t ≤ k
        · rw [if_pos c1, if_pos c1]
        · rw [if_neg c1, if_neg c1, zero_mul]
      rw [h3]
      by_cases c1 : t < i
      · rw [if_pos c1, if_pos c1]
      · rw [if_neg c1, if_neg c1]
        by_cases c2 : t = i
        · rw [if_pos c2, if_pos c2, one_mul, c2]
        · rw [if_neg c2, if_neg c2, zero_mul]
    rw [Finset.sum_congr rfl h2, sum_lower_row n i hi, add_comm]
    exact hYs
  intro r c hr hc
  obtain ⟨i, hi⟩ := e.surjective ⟨r, hr⟩
  have hir : perm_of (getf2 n n A0).ipiv n i.val = r := by
    rw [← he i, hi]
  have := hrow i.val c i.isLt hc
  rw [hir] at this
  exact this

/-! ## The status returned by the factorization -/

theorem getf2_step_rows_before {T : Type} [Field T] [DecidableEq T] [PivotAbs T] (n : Nat)
    (st : getf2_state T) (j : Nat) (hj : j < n) (t k : Nat) (ht : t < j) :
    (getf2_step n n st j).A t k = st.A t k := by
  obtain ⟨p1, _, _, _⟩ := pivot_search_spec n st.A j hj
  unfold getf2_step
  simp only
  have c1 : ¬ (j < t ∧ t < n ∧ j < k ∧ k < n) := by omega
  unfold rank1_update
  rw [if_neg c1]
  by_cases hz : st.A (pivot_search n st.A j) j = 0
  · rw [if_neg (not_not.mpr hz)]
  · rw [if_pos hz]
    have c2 : ¬ (k = j ∧ j < t ∧ t < n) := by omega
    unfold scale_column swap_rows
    rw [if_neg c2, Equiv.swap_apply_of_ne_of_ne (by omega) (by omega)]
    simp

theorem getf2_step_diag {T : Type} [Field T] [DecidableEq T] [PivotAbs T] (n : Nat)
    (st : getf2_state T) (j : Nat) (hj : j < n) :
    (getf2_step n n st j).A j j ≠ 0 ↔ st.A (pivot_search n st.A j) j ≠ 0 := by
  unfold getf2_step
  simp only
  have c1 : ¬ (j < j ∧ j < n ∧ j < j ∧ j < n) := by omega
  unfold rank1_update
  rw [if_neg c1]
  by_cases hz : st.A (pivot_search n st.A j) j = 0
  · rw [if_neg (not_not.mpr hz)]
    have := (pivot_zero n st.A j hj hz).2 j (le_refl _) hj
    simp [this, hz]
  · rw [if_pos hz]
    have c2 : ¬ (j = j ∧ j < j ∧ j < n) := by omega
    unfold scale_column swap_rows
    rw [if_neg c2, if_pos hj, Equiv.swap_apply_left]

theorem getf2_step_info {T : Type} [Field T] [DecidableEq T] [PivotAbs T] (n : Nat)
    (st : getf2_state T) (j : Nat) :
    (getf2_step n n st j).info = 0
      ↔ st.info = 0 ∧ st.A (pivot_search n st.A j) j ≠ 0 := by
  unfold getf2_step
  simp only
  by_cases hz : st.A (pivot_search n st.A j) j = 0
  · rw [if_neg (not_not.mpr hz)]
    by_cases hi : st.info = 0
    · rw [if_pos hi]
      simp [hz]
    · rw [if_neg hi]
      simp [hi]
  · rw [if_pos hz]
    simp [hz]

theorem getf2_steps_info {T : Type} [Field T] [DecidableEq T] [PivotAbs T]
    (A0 : Nat → Nat → T) (n : Nat) :
    ∀ j, j ≤ n →
      (((List.range j).foldl (getf2_step n n) ⟨A0, fun _ => 0, 0⟩).info = 0
        ↔ ∀ t, t < j → ((List.range j).foldl (getf2_step n n) ⟨A0, fun _ => 0, 0⟩).A t t ≠ 0) := by
  intro j
  induction j with
  | zero =>
    intro _
    simp
  | succ j ih =>
    intro hj
    have ih' := ih (by omega)
    rw [List.range_succ, List.foldl_append]
    simp only [List.foldl_cons, List.foldl_nil]
    generalize (List.range j).foldl (getf2_step n n) ⟨A0, fun _ => 0, 0⟩ = st at ih'
    rw [getf2_step_info, ih', ← getf2_step_diag n st j (by omega)]
    constructor
    · rintro ⟨h1, h2⟩ t ht
      rcases Nat.lt_succ_iff_lt_or_eq.mp ht with h | h
      · rw [getf2_step_rows_before n st j (by omega) t t h]
        exact h1 t h
      · rw [h]
        exact h2
    · intro h
      refine ⟨?_, h j (Nat.lt_succ_self j)⟩
      intro t ht
      rw [← getf2_step_rows_before n st j (by omega) t t ht]
      exact h t (by omega)

/-- The status is zero exactly when the matrix is invertible: a positive
status reports a singular matrix. -/
theorem getf2_info_zero_iff {T : Type} [Field T] [DecidableEq T] [PivotAbs T]
    (A0 : Nat → Nat → T) (n : Nat) :
    (getf2 n n A0).info = 0 ↔ IsUnit (Matrix.det (fun (i k : Fin n) => A0 i.val k.val)) := by
  have h1 := getf2_steps_info A0 n n (le_refl _)
  have hg : getf2 n n A0 = (List.range n).foldl (getf2_step n n) ⟨A0, fun _ => 0, 0⟩ := by
    unfold getf2
    rw [Nat.min_self]
  rw [← hg] at h1
  obtain ⟨s, hs, hdet⟩ := lu_det A0 n
  rw [h1, isUnit_iff_ne_zero]
  constructor
  · intro h hz
    have hp : (∏ i : Fin n, (getf2 n n A0).A i.val i.val) ≠ 0 :=
      Finset.prod_ne_zero_iff.mpr (fun i _ => h i.val i.isLt)
    rw [← hdet, hz, mul_zero] at hp
    exact hp rfl
  · intro h t ht
    have hp : (∏ i : Fin n, (getf2 n n A0).A i.val i.val) ≠ 0 := by
      rw [← hdet]
      exact mul_ne_zero hs h
    exact (Finset.prod_ne_zero_iff.mp hp) ⟨t, ht⟩ (Finset.mem_univ _)

/-! ## `inner_beta` and the matrix `I + B·Q` -/

theorem inner_beta_col_step_spec {T : Type} [Field T] [StarRing T]
    (bp : Beta_projectors_base T) (bc0 : beta_projectors_coeffs_t T) (ichunk : Nat)
    (ci : beta_chunk_t) (hci : bp.beta_chunks.getD ichunk ⟨0, 0⟩ = ci)
    (st : beta_projectors_coeffs_t T × mdarray T) (s : Nat) (c : beta_chunk_t)
    (hc : bp.beta_chunks.getD s ⟨0, 0⟩ = c) :
    (inner_beta_col_step bp (bp.generate bc0 ichunk) st s).2.size0 = st.2.size0 ∧
    (inner_beta_col_step bp (bp.generate bc0 ichunk) st s).2.size1 = st.2.size1 ∧
    ∀ row col, row < st.2.size0 →
      (inner_beta_col_step bp (bp.generate bc0 ichunk) st s).2.get row col
        = if ci.offset_ ≤ row ∧ row < ci.offset_ + ci.num_beta_ ∧
              c.offset_ ≤ col ∧ col < c.offset_ + c.num_beta_ then
            ∑ g in range bp.num_gkvec_loc,
              star (bp.pw_coeffs_all g row) * bp.pw_coeffs_all g col
          else st.2.get row col := by
  refine ⟨rfl, rfl, ?_⟩
  intro row col hrow
  have hgen : ∀ (bc : beta_projectors_coeffs_t T) (k : Nat) (ck : beta_chunk_t),
      bp.beta_chunks.getD k ⟨0, 0⟩ = ck → ∀ g l, g < bp.num_gkvec_loc → l < ck.num_beta_ →
      (bp.generate bc k).pw_coeffs_a.data (g + l * bp.num_gkvec_loc)
        = bp.pw_coeffs_all g (ck.offset_ + l) := by
    intro bc k ck hk g l hg hl
    have h1 := generate_get bp bc k (g := g) (t := l) hg (by rw [hk]; exact hl)
    rw [hk] at h1
    exact h1
  simp only [inner_beta_col_step, gemm_CN, mdarray.get, mdarray.idx, mdarray.ld]
  rw [generate_size1, generate_size1, generate_size0, generate_size0, generate_chunk,
    generate_chunk, hc, hci]
  by_cases hin : ci.offset_ ≤ row ∧ row < ci.offset_ + ci.num_beta_ ∧
      c.offset_ ≤ col ∧ col < c.offset_ + c.num_beta_
  · rw [if_pos hin]
    obtain ⟨h1, h2, h3, h4⟩ := hin
    rw [store_block_inside _ _ _ _ _ _ _ hrow h1 h2 h3 h4]
    simp only [one_mul, zero_mul, add_zero]
    apply Finset.sum_congr rfl
    intro g hg
    have hg' := Finset.mem_range.mp hg
    rw [hgen bc0 ichunk ci hci g _ hg' (by omega), hgen st.1 s c hc g _ hg' (by omega)]
    congr 3 <;> omega
  · rw [if_neg hin, store_block_outside _ _ _ _ _ _ _ hrow hin]

theorem inner_beta_cols_spec {T : Type} [Field T] [StarRing T]
    (bp : Beta_projectors_base T) (bc0 : beta_projectors_coeffs_t T) (ichunk : Nat)
    (ci : beta_chunk_t) (hci : bp.beta_chunks.getD ichunk ⟨0, 0⟩ = ci) (N : Nat) :
    ∀ (cs : List beta_chunk_t) (s off : Nat) (st : beta_projectors_coeffs_t T × mdarray T),
      bp.beta_chunks.drop s = cs → partition_from off cs N →
      ((List.range' s cs.length).foldl (inner_beta_col_step bp (bp.generate bc0 ichunk)) st).2.size0
        = st.2.size0 ∧
      ((List.range' s cs.length).foldl (inner_beta_col_step bp (bp.generate bc0 ichunk)) st).2.size1
        = st.2.size1 ∧
      ∀ row col, row < st.2.size0 → col < N →
        ((List.range' s cs.length).foldl
            (inner_beta_col_step bp (bp.generate bc0 ichunk)) st).2.get row col
          = if ci.offset_ ≤ row ∧ row < ci.offset_ + ci.num_beta_ ∧ off ≤ col then
              ∑ g in range bp.num_gkvec_loc,
                star (bp.pw_coeffs_all g row) * bp.pw_coeffs_all g col
            else st.2.get row col := by
  intro cs
  induction cs with
  | nil =>
    intro s off st _ hp
    simp only [List.length_nil, List.range'_zero, List.foldl_nil]
    refine ⟨trivial, trivial, ?_⟩
    intro row col _ hcol
    have : off = N := hp
    have c1 : ¬ (ci.offset_ ≤ row ∧ row < ci.offset_ + ci.num_beta_ ∧ off ≤ col) := by omega
    rw [if_neg c1]
  | cons c cs ih =>
    intro s off st hdrop hp
    obtain ⟨hget, hdrop'⟩ := drop_cons_getD ⟨0, 0⟩ hdrop
    obtain ⟨hoff, hp'⟩ := hp
    obtain ⟨s0, s1, s2⟩ := inner_beta_col_step_spec bp bc0 ichunk ci hci st s c hget
    obtain ⟨i0, i1, i2⟩ := ih (s + 1) (off + c.num_beta_)
      (inner_beta_col_step bp (bp.generate bc0 ichunk) st s) hdrop' hp'
    simp only [List.length_cons, List.range'_succ, List.foldl_cons]
    refine ⟨by rw [i0, s0], by rw [i1, s1], ?_⟩
    intro row col hrow hcol
    rw [i2 row col (by rw [s0]; exact hrow) hcol, s2 row col hrow, hoff]
    by_cases h1 : ci.offset_ ≤ row ∧ row < ci.offset_ + ci.num_beta_ ∧ off + c.num_beta_ ≤ col
    · have h2 : ci.offset_ ≤ row ∧ row < ci.offset_ + ci.num_beta_ ∧ off ≤ col := by omega
      rw [if_pos h1, if_pos h2]
    · rw [if_neg h1]
      by_cases h2 : ci.offset_ ≤ row ∧ row < ci.offset_ + ci.num_beta_ ∧
          off ≤ col ∧ col < off + c.num_beta_
      · have h3 : ci.offset_ ≤ row ∧ row < ci.offset_ + ci.num_beta_ ∧ off ≤ col := by omega
        rw [if_pos h2, if_pos h3]
      · have h3 : ¬ (ci.offset_ ≤ row ∧ row < ci.offset_ + ci.num_beta_ ∧ off ≤ col) := by
          omega
        rw [if_neg h2, if_neg h3]

theorem inner_beta_row_step_spec {T : Type} [Field T] [StarRing T]
    (bp : Beta_projectors_base T) (hp : bp.chunks_partition)
    (st : beta_projectors_coeffs_t T × beta_projectors_coeffs_t T × mdarray T) (s : Nat)
    (ci : beta_chunk_t) (hci : bp.beta_chunks.getD s ⟨0, 0⟩ = ci) :
    (inner_beta_row_step bp st s).2.2.size0 = st.2.2.size0 ∧
    (inner_beta_row_step bp st s).2.2.size1 = st.2.2.size1 ∧
    ∀ row col, row < st.2.2.size0 → col < bp.num_total_beta →
      (inner_beta_row_step bp st s).2.2.get row col
        = if ci.offset_ ≤ row ∧ row < ci.offset_ + ci.num_beta_ then
            ∑ g in range bp.num_gkvec_loc,
              star (bp.pw_coeffs_all g row) * bp.pw_coeffs_all g col
          else st.2.2.get row col := by
  unfold inner_beta_row_step Beta_projectors_base.num_chunks
  simp only
  rw [List.range_eq_range']
  obtain ⟨h0, h1, h2⟩ := inner_beta_cols_spec bp st.1 s ci hci bp.num_total_beta
    bp.beta_chunks 0 0 st.2 rfl hp
  refine ⟨h0, h1, ?_⟩
  intro row col hrow hcol
  rw [h2 row col hrow hcol]
  by_cases h3 : ci.offset_ ≤ row ∧ row < ci.offset_ + ci.num_beta_
  · have h4 : ci.offset_ ≤ row ∧ row < ci.offset_ + ci.num_beta_ ∧ 0 ≤ col := by omega
    rw [if_pos h3, if_pos h4]
  · have h4 : ¬ (ci.offset_ ≤ row ∧ row < ci.offset_ + ci.num_beta_ ∧ 0 ≤ col) := by omega
    rw [if_neg h3, if_neg h4]

theorem inner_beta_rows_spec {T : Type} [Field T] [StarRing T]
    (bp : Beta_projectors_base T) (hp : bp.chunks_partition) :
    ∀ (cs : List beta_chunk_t) (s off : Nat)
      (st : beta_projectors_coeffs_t T × beta_projectors_coeffs_t T × mdarray T),
      bp.beta_chunks.drop s = cs → partition_from off cs bp.num_total_beta →
      ((List.range' s cs.length).foldl (inner_beta_row_step bp) st).2.2.size0 = st.2.2.size0 ∧
      ((List.range' s cs.length).foldl (inner_beta_row_step bp) st).2.2.size1 = st.2.2.size1 ∧
      ∀ row col, row < st.2.2.size0 → col < bp.num_total_beta →
        ((List.range' s cs.length).foldl (inner_beta_row_step bp) st).2.2.get row col
          = if off ≤ row ∧ row < bp.num_total_beta then
              ∑ g in range bp.num_gkvec_loc,
                star (bp.pw_coeffs_all g row) * bp.pw_coeffs_all g col
            else st.2.2.get row col := by
  intro cs
  induction cs with
  | nil =>
    intro s off st _ hpf
    simp only [List.length_nil, List.range'_zero, List.foldl_nil]
    refine ⟨trivial, trivial, ?_⟩
    intro row col _ _
    have : off = bp.num_total_beta := hpf
    have c1 : ¬ (off ≤ row ∧ row < bp.num_total_beta) := by omega
    rw [if_neg c1]
  | cons c cs ih =>
    intro s off st hdrop hpf
    obtain ⟨hget, hdrop'⟩ := drop_cons_getD ⟨0, 0⟩ hdrop
    obtain ⟨hoff, hp'⟩ := hpf
    have hle := partition_from_le hp'
    obtain ⟨s0, s1, s2⟩ := inner_beta_row_step_spec bp hp st s c hget
    obtain ⟨i0, i1, i2⟩ := ih (s + 1) (off + c.num_beta_) (inner_beta_row_step bp st s) hdrop' hp'
    simp only [List.length_cons, List.range'_succ, List.foldl_cons]
    refine ⟨by rw [i0, s0], by rw [i1, s1], ?_⟩
    intro row col hrow hcol
    rw [i2 row col (by rw [s0]; exact hrow) hcol, s2 row col hrow hcol, hoff]
    by_cases h1 : off + c.num_beta_ ≤ row ∧ row < bp.num_total_beta
    · have h2 : off ≤ row ∧ row < bp.num_total_beta := by omega
      rw [if_pos h1, if_pos h2]
    · rw [if_neg h1]
      by_cases h2 : off ≤ row ∧ row < off + c.num_beta_
      · have h3 : off ≤ row ∧ row < bp.num_total_beta := by omega
        rw [if_pos h2, if_pos h3]
      · have h3 : ¬ (off ≤ row ∧ row < bp.num_total_beta) := by omega
        rw [if_neg h2, if_neg h3]

theorem inner_beta_spec {T : Type} [Field T] [StarRing T] (bp : Beta_projectors_base T)
    (fresh : fresh_init T) (hp : bp.chunks_partition) :
    (inner_beta bp fresh).size0 = bp.num_total_beta ∧
    (inner_beta bp fresh).size1 = bp.num_total_beta ∧
    ∀ row col, row < bp.num_total_beta → col < bp.num_total_beta →
      (inner_beta bp fresh).get row col
        = ∑ g in range bp.num_gkvec_loc,
            star (bp.pw_coeffs_all g row) * bp.pw_coeffs_all g col := by
  unfold inner_beta Beta_projectors_base.num_chunks
  simp only
  rw [List.range_eq_range']
  obtain ⟨h0, h1, h2⟩ := inner_beta_rows_spec bp hp bp.beta_chunks 0 0
    (bp.prepare fresh.beta_row, bp.prepare fresh.beta_col,
      ⟨bp.num_total_beta, bp.num_total_beta, fresh.B⟩) rfl hp
  refine ⟨h0, h1, ?_⟩
  intro row col hrow hcol
  rw [h2 row col hrow hcol, if_pos ⟨Nat.zero_le _, hrow⟩]

/-! ## `axpy` and the identity added by `initialize` -/

theorem axpy_succ {T : Type} [Field T] (n : Nat) (alpha : T) (x : Nat → T) (incx : Nat)
    (y : Nat → T) (incy : Nat) :
    axpy (n + 1) alpha x incx y incy
      = Function.update (axpy n alpha x incx y incy) (n * incy)
          (axpy n alpha x incx y incy (n * incy) + alpha * x (n * incx)) := by
  unfold axpy
  rw [List.range_succ, List.foldl_append]
  rfl

theorem axpy_spec {T : Type} [Field T] (alpha : T) (x : Nat → T) (incx : Nat)
    (y : Nat → T) (incy : Nat) (hinc : 0 < incy) :
    ∀ n a, axpy n alpha x incx y incy a
      = if a % incy = 0 ∧ a / incy < n then y a + alpha * x (a / incy * incx) else y a := by
  intro n
  induction n with
  | zero =>
    intro a
    have c : ¬ (a % incy = 0 ∧ a / incy < 0) := fun h => Nat.not_lt_zero _ h.2
    rw [if_neg c]
    rfl
  | succ n ih =>
    intro a
    rw [axpy_succ]
    by_cases ha : a = n * incy
    · subst ha
      rw [Function.update_same, ih]
      have c1 : ¬ ((n * incy) % incy = 0 ∧ (n * incy) / incy < n) := by
        rw [Nat.mul_div_cancel _ hinc]
        exact fun h => lt_irrefl _ h.2
      have c2 : (n * incy) % incy = 0 ∧ (n * incy) / incy < n + 1 := by
        rw [Nat.mul_div_cancel _ hinc, Nat.mul_mod_left]
        exact ⟨rfl, Nat.lt_succ_self n⟩
      rw [if_neg c1, if_pos c2, Nat.mul_div_cancel _ hinc]
    · rw [Function.update_noteq ha, ih]
      have c : (a % incy = 0 ∧ a / incy < n + 1) ↔ (a % incy = 0 ∧ a / incy < n) := by
        constructor
        · rintro ⟨h1, h2⟩
          refine ⟨h1, ?_⟩
          rcases Nat.lt_succ_iff_lt_or_eq.mp h2 with h3 | h3
          · exact h3
          · exfalso
            apply ha
            have := Nat.div_add_mod a incy
            rw [h1, h3, Nat.add_zero, Nat.mul_comm] at this
            exact this.symm
        · rintro ⟨h1, h2⟩
          exact ⟨h1, Nat.lt_succ_of_lt h2⟩
      simp only [c]

/-- Position `i + j * n` of an `n × n` array is hit by the stride `n + 1`
exactly on the diagonal. -/
theorem diag_stride {n i j : Nat} (hi : i < n) (hj : j < n) :
    ((i + j * n) % (n + 1) = 0 ∧ (i + j * n) / (n + 1) < n) ↔ i = j := by
  constructor
  · rintro ⟨h1, h2⟩
    have h3 := Nat.div_add_mod (i + j * n) (n + 1)
    rw [h1, Nat.add_zero] at h3
    generalize (i + j * n) / (n + 1) = k at h2 h3
    have h4 : k + k * n = i + j * n := by
      rw [← h3]; ring
    have h5 : k = i := by
      have := congrArg (fun a => a % n) h4
      simp only [Nat.add_mul_mod_self_right, Nat.mod_eq_of_lt h2, Nat.mod_eq_of_lt hi] at this
      exact this
    subst h5
    have h6 : k * n = j * n := by omega
    exact Nat.eq_of_mul_eq_mul_right (by omega) h6
  · rintro rfl
    have : i + i * n = i * (n + 1) := by ring
    rw [this, Nat.mul_mod_left, Nat.mul_div_cancel _ (Nat.succ_pos n)]
    exact ⟨rfl, hi⟩

theorem form_matrix_spec {T : Type} [Field T] [StarRing T] (q_op : Q_operator T)
    (bp : Beta_projectors_base T) (ispn : Int) (fresh : fresh_init T)
    (hp : bp.chunks_partition) (hq : q_op.size_ = bp.num_total_beta) :
    (InverseS_k.form_matrix q_op bp ispn fresh).size0 = bp.num_total_beta ∧
    (InverseS_k.form_matrix q_op bp ispn fresh).size1 = bp.num_total_beta ∧
    ∀ i j, i < bp.num_total_beta → j < bp.num_total_beta →
      (InverseS_k.form_matrix q_op bp ispn fresh).get i j
        = (∑ l in range bp.num_total_beta,
            (∑ g in range bp.num_gkvec_loc,
              star (bp.pw_coeffs_all g i) * bp.pw_coeffs_all g l) * q_op.q_mtrx ispn l j)
          + (if i = j then 1 else 0) := by
  obtain ⟨b0, b1, b2⟩ := inner_beta_spec bp fresh hp
  refine ⟨b0, hq, ?_⟩
  intro i j hi hj
  have hl := lmatmul_get q_op ⟨(inner_beta bp fresh).size0, q_op.size 1, fresh.BQ⟩
    (inner_beta bp fresh) ispn 1 0 (le_refl _) (i := i) (j := j) (by rw [b0]; exact hi)
    (by rw [hq]; exact hj)
  unfold InverseS_k.form_matrix
  simp only [mdarray.get, mdarray.idx, mdarray.ld] at hl ⊢
  rw [axpy_spec _ _ _ _ _ (Nat.succ_pos _)]
  have hsz : (q_op.lmatmul ⟨(inner_beta bp fresh).size0, q_op.size 1, fresh.BQ⟩
      (inner_beta bp fresh) ispn 1 0).size0 = bp.num_total_beta := b0
  rw [hsz] at hl ⊢
  rw [hl, hq]
  have hsum : ∑ l in range bp.num_total_beta,
        (inner_beta bp fresh).data (i + l * (inner_beta bp fresh).size0) * q_op.q_mtrx ispn l j
      = ∑ l in range bp.num_total_beta,
        (∑ g in range bp.num_gkvec_loc,
          star (bp.pw_coeffs_all g i) * bp.pw_coeffs_all g l) * q_op.q_mtrx ispn l j := by
    apply Finset.sum_congr rfl
    intro l hl'
    have := b2 i l hi (Finset.mem_range.mp hl')
    simp only [mdarray.get, mdarray.idx, mdarray.ld] at this
    rw [this]
  rw [hsum]
  by_cases hij : i = j
  · rw [if_pos ((diag_stride hi hj).mpr hij), if_pos hij]
    simp
  · rw [if_neg (fun h => hij ((diag_stride hi hj).mp h)), if_neg hij]
    simp

end

section

open Finset Matrix

/-! ## `getrf` and `getrs` on storage -/

theorem foldl_congr_mem {α β : Type} (f g : β → α → β) (l : List α)
    (h : ∀ b a, a ∈ l → f b a = g b a) (b : β) : l.foldl f b = l.foldl g b := by
  induction l generalizing b with
  | nil => rfl
  | cons a l ih =>
    simp only [List.foldl_cons]
    rw [h b a (List.mem_cons_self a l)]
    exact ih (fun b a' ha' => h b a' (List.mem_cons_of_mem a ha')) _

theorem foldr_congr_mem {α β : Type} (f g : α → β → β) (l : List α)
    (h : ∀ a b, a ∈ l → f a b = g a b) (b : β) : l.foldr f b = l.foldr g b := by
  induction l with
  | nil => rfl
  | cons a l ih =>
    simp only [List.foldr_cons]
    rw [ih (fun a' b ha' => h a' b (List.mem_cons_of_mem a ha')),
      h a _ (List.mem_cons_self a l)]

theorem laswp_congr {T : Type} (n nrhs : Nat) (B : Nat → Nat → T) (p p' : Nat → Nat)
    (h : ∀ i, i < n → p i = p' i) : laswp n nrhs B p = laswp n nrhs B p' := by
  unfold laswp
  apply foldl_congr_mem
  intro b a ha
  rw [h a (List.mem_range.mp ha)]

theorem trsm_lower_unit_congr {T : Type} [Field T] (n : Nat) (A A' B : Nat → Nat → T)
    (h : ∀ i t, i < n → t < n → A i t = A' i t) :
    trsm_lower_unit n A B = trsm_lower_unit n A' B := by
  unfold trsm_lower_unit
  apply foldl_congr_mem
  intro b a ha
  have ha' := List.mem_range.mp ha
  funext r c
  congr 2
  apply Finset.sum_congr rfl
  intro t ht
  have := Finset.mem_range.mp ht
  rw [h a t ha' (by omega)]

theorem trsm_upper_congr {T : Type} [Field T] (n : Nat) (A A' B : Nat → Nat → T)
    (h : ∀ i t, i < n → t < n → A i t = A' i t) :
    trsm_upper n A B = trsm_upper n A' B := by
  unfold trsm_upper
  apply foldr_congr_mem
  intro a b ha
  have ha' := List.mem_range.mp ha
  funext r c
  rw [h a a ha' ha']
  congr 3
  apply Finset.sum_congr rfl
  intro t ht
  have := (Finset.mem_Ico.mp ht).2
  rw [h a t ha' this]

theorem window_store {T : Type} [Zero T] (A : Nat → T) (lda m n : Nat) (f : Nat → Nat → T)
    (hld : m ≤ lda) {i j : Nat} (hi : i < m) (hj : j < n) :
    window (store_block A lda 0 0 m n f) lda m n i j = f i j := by
  unfold window
  rw [if_pos ⟨hi, hj⟩, store_block_zero _ _ _ _ _ hi hj hld]

theorem window_eq_of_matrix {T : Type} [Zero T] (A : Nat → T) (lda m n : Nat) :
    window A lda m n = of_matrix (window_matrix A lda m n) := by
  funext i j
  unfold window of_matrix window_matrix
  by_cases h : i < m ∧ j < n
  · rw [if_pos h, dif_pos h]
  · rw [if_neg h, dif_neg h]

/-- The window of `B` after `getrs` is a function of the window of `B`
before. -/
theorem getrs_window {T : Type} [Field T] (n nrhs : Nat) (A : Nat → T) (lda : Nat)
    (ipiv : Nat → Nat) (B : Nat → T) (ldb : Nat) (hldb : n ≤ ldb) :
    window_matrix (getrs n nrhs A lda ipiv B ldb) ldb n nrhs
      = getrs_fn n nrhs A lda ipiv (window_matrix B ldb n nrhs) := by
  ext r c
  unfold getrs getrs_fn
  simp only
  rw [← window_eq_of_matrix]
  unfold window_matrix
  rw [store_block_zero _ _ _ _ _ r.isLt c.isLt hldb]

/-- Solving with what `getrf` stored is solving with the factors of the window
of `A`. -/
theorem getrs_fn_getrf {T : Type} [Field T] [DecidableEq T] [PivotAbs T]
    (n nrhs : Nat) (A : Nat → T) (lda : Nat) (ipiv0 : Nat → Nat) (hlda : n ≤ lda)
    (Bm : Matrix (Fin n) (Fin nrhs) T) :
    getrs_fn n nrhs (getrf n n A lda ipiv0).A lda (getrf n n A lda ipiv0).ipiv Bm
      = lu_solve_fn n nrhs (window_matrix A lda n n) Bm := by
  ext r c
  unfold getrs_fn lu_solve_fn getrf
  simp only
  rw [← window_eq_of_matrix]
  have hw : ∀ i t, i < n → t < n →
      window (store_block A lda 0 0 n n (getf2 n n (window A lda n n)).A) lda n n i t
        = (getf2 n n (window A lda n n)).A i t :=
    fun i t hi ht => window_store A lda n n _ hlda hi ht
  rw [trsm_upper_congr n _ _ _ hw, trsm_lower_unit_congr n _ _ _ hw]
  rw [laswp_congr n nrhs _ _ (getf2 n n (window A lda n n)).ipiv]
  intro i hi
  rw [if_pos hi, Nat.min_self, if_pos hi]

/-- Factorizing and solving multiplies the right-hand side by the inverse,
when the matrix is invertible. -/
theorem lu_solve_fn_inverse {T : Type} [Field T] [DecidableEq T] [PivotAbs T]
    (n nrhs : Nat) (W : Matrix (Fin n) (Fin n) T) (Bm : Matrix (Fin n) (Fin nrhs) T)
    (hW : IsUnit W.det) : lu_solve_fn n nrhs W Bm = W⁻¹ * Bm := by
  have hW' : IsUnit (Matrix.det (fun (i k : Fin n) => of_matrix W i.val k.val)) := by
    have : (fun (i k : Fin n) => of_matrix W i.val k.val) = W := by
      funext i k
      unfold of_matrix
      rw [dif_pos ⟨i.isLt, k.isLt⟩]
    rw [this]
    exact hW
  have hsolve := lu_solve (of_matrix W) (of_matrix Bm) n nrhs hW'
  have hmul : W * lu_solve_fn n nrhs W Bm = Bm := by
    ext r c
    rw [Matrix.mul_apply]
    have h1 := hsolve r.val c.val r.isLt c.isLt
    have h2 : of_matrix Bm r.val c.val = Bm r c := by
      unfold of_matrix
      rw [dif_pos ⟨r.isLt, c.isLt⟩]
    rw [← h2, ← h1]
    rw [← Fin.sum_univ_eq_sum_range
      (fun k => of_matrix W r.val k *
        trsm_upper n (getf2 n n (of_matrix W)).A
          (trsm_lower_unit n (getf2 n n (of_matrix W)).A
            (laswp n nrhs (of_matrix Bm) (getf2 n n (of_matrix W)).ipiv)) k c.val) n]
    apply Finset.sum_congr rfl
    intro k _
    have h3 : of_matrix W r.val k.val = W r k := by
      unfold of_matrix
      rw [dif_pos ⟨r.isLt, k.isLt⟩]
    rw [h3]
    rfl
  nth_rewrite 2 [← hmul]
  rw [← Matrix.mul_assoc, Matrix.nonsing_inv_mul _ hW, Matrix.one_mul]

/-- The status returned by `getrf` is zero exactly when the matrix in the
window is invertible. -/
theorem getrf_info {T : Type} [Field T] [DecidableEq T] [PivotAbs T]
    (n : Nat) (A : Nat → T) (lda : Nat) (ipiv0 : Nat → Nat) :
    (getrf n n A lda ipiv0).info = 0 ↔ IsUnit (window_matrix A lda n n).det := by
  have h := getf2_info_zero_iff (window A lda n n) n
  have : (fun (i k : Fin n) => window A lda n n i.val k.val) = window_matrix A lda n n := by
    funext i k
    unfold window window_matrix
    rw [if_pos ⟨i.isLt, k.isLt⟩]
  rw [this] at h
  exact h

/-! ## `InverseS_k::initialize` and `InverseS_k::apply` -/

theorem toMatrix_eq_window {T : Type} (A : mdarray T) (m n : Nat) :
    A.toMatrix m n = window_matrix A.data A.ld m n := rfl

theorem form_matrix_toMatrix {T : Type} [Field T] [StarRing T] (q_op : Q_operator T)
    (bp : Beta_projectors_base T) (ispn : Int) (fresh : fresh_init T)
    (hp : bp.chunks_partition) (hq : q_op.size_ = bp.num_total_beta) :
    (InverseS_k.form_matrix q_op bp ispn fresh).toMatrix bp.num_total_beta bp.num_total_beta
      = small_matrix q_op bp ispn := by
  obtain ⟨_, _, h⟩ := form_matrix_spec q_op bp ispn fresh hp hq
  ext i j
  unfold mdarray.toMatrix small_matrix Beta_projectors_base.B
  rw [h i.val j.val i.isLt j.isLt, Matrix.add_apply, Matrix.one_apply, Matrix.mul_apply, add_comm]
  congr 1
  · by_cases hij : i = j
    · rw [if_pos hij, if_pos (congrArg Fin.val hij)]
    · rw [if_neg hij, if_neg (fun h => hij (Fin.ext h))]
  · rw [← Fin.sum_univ_eq_sum_range
      (fun l => (∑ g in range bp.num_gkvec_loc,
        star (bp.pw_coeffs_all g i.val) * bp.pw_coeffs_all g l) * q_op.q_mtrx ispn l j.val)
      bp.num_total_beta]
    apply Finset.sum_congr rfl
    intro l _
    rw [Matrix.mul_apply]
    rw [← Fin.sum_univ_eq_sum_range
      (fun g => star (bp.pw_coeffs_all g i.val) * bp.pw_coeffs_all g l.val) bp.num_gkvec_loc]
    rfl

theorem initialize_fields {T : Type} [Field T] [StarRing T] [DecidableEq T] [PivotAbs T]
    (q_op : Q_operator T) (bp : Beta_projectors_base T) (ispn : Int) (fresh : fresh_init T) :
    ( InverseS_k.initialize q_op bp ispn fresh).q_op = q_op ∧
    ( InverseS_k.initialize q_op bp ispn fresh).bp = bp ∧
    ( InverseS_k.initialize q_op bp ispn fresh).ispn = ispn := ⟨rfl, rfl, rfl⟩

/-- Solving with the factorization stored by `initialize` is solving with the
factors of `I + B·Q`. -/
theorem initialize_solves {T : Type} [Field T] [StarRing T] [DecidableEq T] [PivotAbs T]
    (q_op : Q_operator T) (bp : Beta_projectors_base T) (ispn : Int) (fresh : fresh_init T)
    (hp : bp.chunks_partition) (hq : q_op.size_ = bp.num_total_beta) (nrhs : Nat)
    (Bm : Matrix (Fin bp.num_total_beta) (Fin nrhs) T) :
    getrs_fn bp.num_total_beta nrhs ( InverseS_k.initialize q_op bp ispn fresh).LU.data
        ( InverseS_k.initialize q_op bp ispn fresh).LU.ld
        ( InverseS_k.initialize q_op bp ispn fresh).ipiv Bm
      = lu_solve_fn bp.num_total_beta nrhs (small_matrix q_op bp ispn) Bm := by
  obtain ⟨f0, f1, _⟩ := form_matrix_spec q_op bp ispn fresh hp hq
  have hm := form_matrix_toMatrix q_op bp ispn fresh hp hq
  unfold InverseS_k.initialize InverseS_k.factorize
  simp only [mdarray.ld]
  generalize InverseS_k.form_matrix q_op bp ispn fresh = fm at f0 f1 hm
  rw [f0]
  have hcopy : window_matrix (sddk_copy ⟨bp.num_total_beta, fm.size1, fresh.LU⟩ fm).data
      bp.num_total_beta bp.num_total_beta bp.num_total_beta = small_matrix q_op bp ispn := by
    rw [← hm]
    have := sddk_copy_toMatrix ⟨bp.num_total_beta, fm.size1, fresh.LU⟩ fm f0.symm
      bp.num_total_beta bp.num_total_beta f0 f1
    exact this
  have hsol := getrs_fn_getrf bp.num_total_beta nrhs
    (sddk_copy ⟨bp.num_total_beta, fm.size1, fresh.LU⟩ fm).data bp.num_total_beta fresh.ipiv
    (le_refl _) Bm
  rw [hcopy] at hsol
  exact hsol

/-- The status that `initialize` receives from `getrf` is zero exactly when
`I + B·Q` is invertible. -/
theorem factorize_info {T : Type} [Field T] [StarRing T] [DecidableEq T] [PivotAbs T]
    (q_op : Q_operator T) (bp : Beta_projectors_base T) (ispn : Int) (fresh : fresh_init T)
    (hp : bp.chunks_partition) (hq : q_op.size_ = bp.num_total_beta) :
    (InverseS_k.factorize q_op bp ispn fresh).info = 0
      ↔ IsUnit (small_matrix q_op bp ispn).det := by
  obtain ⟨f0, f1, _⟩ := form_matrix_spec q_op bp ispn fresh hp hq
  have hm := form_matrix_toMatrix q_op bp ispn fresh hp hq
  unfold InverseS_k.factorize
  simp only [mdarray.ld]
  generalize InverseS_k.form_matrix q_op bp ispn fresh = fm at f0 f1 hm
  rw [f0]
  have hcopy : window_matrix (sddk_copy ⟨bp.num_total_beta, fm.size1, fresh.LU⟩ fm).data
      bp.num_total_beta bp.num_total_beta bp.num_total_beta = small_matrix q_op bp ispn := by
    rw [← hm]
    have := sddk_copy_toMatrix ⟨bp.num_total_beta, fm.size1, fresh.LU⟩ fm f0.symm
      bp.num_total_beta bp.num_total_beta f0 f1
    exact this
  have h := getrf_info bp.num_total_beta
    (sddk_copy ⟨bp.num_total_beta, fm.size1, fresh.LU⟩ fm).data bp.num_total_beta fresh.ipiv
  rw [hcopy] at h
  exact h

/-- `InverseS_k::apply` for any stored factorization: the correction is built
from what `getrs` makes of `Beta^H · X`. -/
theorem InverseS_k_apply_general {T : Type} [Field T] [StarRing T] (op : InverseS_k T)
    (Y X : mdarray T) (fresh : fresh_memory T) (h : apply_ready op.bp op.q_op Y X) :
    (op.apply Y X fresh).Y.size0 = X.size0 ∧ (op.apply Y X fresh).Y.size1 = X.size1 ∧
    (op.apply Y X fresh).Y.toMatrix op.bp.num_gkvec_loc X.size1
      = X.toMatrix op.bp.num_gkvec_loc X.size1
        - op.bp.Beta * (op.q_op.Q op.ispn op.bp.num_total_beta
            * getrs_fn op.bp.num_total_beta X.size1 op.LU.data op.LU.ld op.ipiv
                (op.bp.Betaᴴ * X.toMatrix op.bp.num_gkvec_loc X.size1)) := by
  obtain ⟨hp, hq, hX, hY0, hY1⟩ := h
  have hcopy0 : (sddk_copy Y X).size0 = op.bp.num_gkvec_loc := by
    show Y.size0 = _
    rw [hY0, hX]
  have hcopy1 : (sddk_copy Y X).size1 = X.size1 := hY1
  obtain ⟨b0, b1, _⟩ := bphi_loop_spec op.bp X X.size1 fresh (op.bp.prepare fresh.beta)
    ⟨op.bp.num_total_beta, X.size1, fresh.bphi⟩ hp rfl
  have bm := bphi_loop_toMatrix op.bp X X.size1 fresh (op.bp.prepare fresh.beta)
    ⟨op.bp.num_total_beta, X.size1, fresh.bphi⟩ hp rfl
  unfold InverseS_k.apply Beta_projectors_base.num_total_beta
  simp only
  unfold Beta_projectors_base.num_total_beta at b0 b1 bm hq
  generalize bphi_loop op.bp X X.size1 fresh (op.bp.prepare fresh.beta)
    ⟨op.bp.num_total_beta_, X.size1, fresh.bphi⟩ = st at b0 b1 bm
  have b1' : st.2.size1 = X.size1 := b1
  have hsol : (⟨st.2.size0, st.2.size1,
      getrs op.bp.num_total_beta_ X.size1 op.LU.data op.LU.ld op.ipiv st.2.data st.2.ld⟩ :
        mdarray T).toMatrix op.bp.num_total_beta_ X.size1
      = getrs_fn op.bp.num_total_beta_ X.size1 op.LU.data op.LU.ld op.ipiv
          (op.bp.Betaᴴ * X.toMatrix op.bp.num_gkvec_loc X.size1) := by
    rw [toMatrix_eq_window]
    show window_matrix _ st.2.size0 _ _ = _
    have hld : st.2.ld = op.bp.num_total_beta_ := b0
    rw [b0, hld, getrs_window _ _ _ _ _ _ _ (le_refl _), ← bm, toMatrix_eq_window, hld]
  generalize hb2 : (⟨st.2.size0, st.2.size1,
      getrs op.bp.num_total_beta_ X.size1 op.LU.data op.LU.ld op.ipiv st.2.data st.2.ld⟩ :
        mdarray T) = bphi2 at hsol
  have hb2s : bphi2.size1 = X.size1 := by rw [← hb2]; exact b1'
  have hR := rmatmul_toMatrix op.q_op ⟨op.q_op.size 0, st.2.size1, fresh.R⟩ bphi2 op.ispn
    (-1) 0 op.bp.num_total_beta_ X.size1 hq hq hb2s
  generalize op.q_op.rmatmul ⟨op.q_op.size 0, st.2.size1, fresh.R⟩ bphi2 op.ispn (-1) 0 = R
    at hR
  obtain ⟨a0, a1, _⟩ := accumulate_loop_spec op.bp R st.1 (sddk_copy Y X) hp hcopy0
  have hacc := accumulate_loop_toMatrix op.bp R st.1 (sddk_copy Y X) hp hcopy0
  rw [hcopy1] at hacc
  refine ⟨by rw [a0, hcopy0, hX], by rw [a1, hcopy1], ?_⟩
  unfold Beta_projectors_base.num_total_beta at hacc
  rw [hacc, sddk_copy_toMatrix Y X hY0 _ _ hX rfl, hR, hsol]
  simp [sub_eq_add_neg]

/-- For an operator built by the constructor, the correction solves with the
factors of `I + B·Q`. -/
theorem InverseS_k_apply_lu {T : Type} [Field T] [StarRing T] [DecidableEq T] [PivotAbs T]
    (q_op : Q_operator T) (bp : Beta_projectors_base T) (ispn : Int) (finit : fresh_init T)
    (Y X : mdarray T) (fresh : fresh_memory T) (h : apply_ready bp q_op Y X) :
    (( InverseS_k.initialize q_op bp ispn finit).apply Y X fresh).Y.size0 = X.size0 ∧
    (( InverseS_k.initialize q_op bp ispn finit).apply Y X fresh).Y.size1 = X.size1 ∧
    (( InverseS_k.initialize q_op bp ispn finit).apply Y X fresh).Y.toMatrix bp.num_gkvec_loc
        X.size1
      = X.toMatrix bp.num_gkvec_loc X.size1
        - bp.Beta * (q_op.Q ispn bp.num_total_beta
            * lu_solve_fn bp.num_total_beta X.size1 (small_matrix q_op bp ispn)
                (bp.Betaᴴ * X.toMatrix bp.num_gkvec_loc X.size1)) := by
  obtain ⟨h0, h1, h2⟩ :=
    InverseS_k_apply_general ( InverseS_k.initialize q_op bp ispn finit) Y X fresh h
  refine ⟨h0, h1, ?_⟩
  rw [← initialize_solves q_op bp ispn finit h.1 h.2.1]
  exact h2

/-- For an operator built by the constructor from an invertible `I + B·Q`,
`apply` subtracts the Woodbury correction. -/
theorem InverseS_k_apply_matrix {T : Type} [Field T] [StarRing T] [DecidableEq T] [PivotAbs T]
    (q_op : Q_operator T) (bp : Beta_projectors_base T) (ispn : Int) (finit : fresh_init T)
    (Y X : mdarray T) (fresh : fresh_memory T) (h : apply_ready bp q_op Y X)
    (hinv : IsUnit (small_matrix q_op bp ispn).det) :
    (( InverseS_k.initialize q_op bp ispn finit).apply Y X fresh).Y.size0 = X.size0 ∧
    (( InverseS_k.initialize q_op bp ispn finit).apply Y X fresh).Y.size1 = X.size1 ∧
    (( InverseS_k.initialize q_op bp ispn finit).apply Y X fresh).Y.toMatrix bp.num_gkvec_loc
        X.size1
      = X.toMatrix bp.num_gkvec_loc X.size1
        - bp.Beta * (q_op.Q ispn bp.num_total_beta
            * ((small_matrix q_op bp ispn)⁻¹
              * (bp.Betaᴴ * X.toMatrix bp.num_gkvec_loc X.size1))) := by
  have := InverseS_k_apply_lu q_op bp ispn finit Y X fresh h
  rw [lu_solve_fn_inverse _ _ _ _ hinv] at this
  exact this

/-! ## The two operators on a band block with `n` bands -/

theorem ready_of_input {T : Type} (bp : Beta_projectors_base T) (q_op : Q_operator T)
    (X : mdarray T) (fresh : Nat → T) (h : input_ready bp q_op X) :
    apply_ready bp q_op ⟨X.size0, X.size1, fresh⟩ X :=
  ⟨h.1, h.2.1, h.2.2, rfl, rfl⟩

theorem S_k_apply₁_matrix {T : Type} [Field T] [StarRing T] (q_op : Q_operator T)
    (bp : Beta_projectors_base T) (ispn : Int) (X : mdarray T) (fresh : fresh_memory T)
    (h : input_ready bp q_op X) (n : Nat) (hn : X.size1 = n) :
    ((S_k.mk q_op bp ispn).apply₁ X fresh).size0 = X.size0 ∧
    ((S_k.mk q_op bp ispn).apply₁ X fresh).size1 = n ∧
    ((S_k.mk q_op bp ispn).apply₁ X fresh).toMatrix bp.num_gkvec_loc n
      = X.toMatrix bp.num_gkvec_loc n
        + bp.Beta * (q_op.Q ispn bp.num_total_beta * (bp.Betaᴴ * X.toMatrix bp.num_gkvec_loc n)) := by
  subst hn
  exact S_k_apply_matrix (S_k.mk q_op bp ispn) ⟨X.size0, X.size1, fresh.Y⟩ X fresh
    (ready_of_input bp q_op X fresh.Y h)

theorem InverseS_k_apply₁_matrix {T : Type} [Field T] [StarRing T] [DecidableEq T] [PivotAbs T]
    (q_op : Q_operator T) (bp : Beta_projectors_base T) (ispn : Int) (finit : fresh_init T)
    (X : mdarray T) (fresh : fresh_memory T) (h : input_ready bp q_op X)
    (hinv : IsUnit (small_matrix q_op bp ispn).det) (n : Nat) (hn : X.size1 = n) :
    (( InverseS_k.initialize q_op bp ispn finit).apply₁ X fresh).size0 = X.size0 ∧
    (( InverseS_k.initialize q_op bp ispn finit).apply₁ X fresh).size1 = n ∧
    (( InverseS_k.initialize q_op bp ispn finit).apply₁ X fresh).toMatrix bp.num_gkvec_loc n
      = X.toMatrix bp.num_gkvec_loc n
        - bp.Beta * (q_op.Q ispn bp.num_total_beta
            * ((small_matrix q_op bp ispn)⁻¹ * (bp.Betaᴴ * X.toMatrix bp.num_gkvec_loc n))) := by
  subst hn
  exact InverseS_k_apply_matrix q_op bp ispn finit ⟨X.size0, X.size1, fresh.Y⟩ X fresh
    (ready_of_input bp q_op X fresh.Y h) hinv

/-- Woodbury: the correction of the inverse cancels the low-rank update. -/
theorem woodbury_left {T : Type} [Field T] [StarRing T] {m N n : Nat}
    (β : Matrix (Fin m) (Fin N) T) (Q : Matrix (Fin N) (Fin N) T) (X : Matrix (Fin m) (Fin n) T)
    (hinv : IsUnit (1 + βᴴ * β * Q).det) :
    (X + β * (Q * (βᴴ * X)))
        - β * (Q * ((1 + βᴴ * β * Q)⁻¹ * (βᴴ * (X + β * (Q * (βᴴ * X)))))) = X := by
  have h1 : βᴴ * (X + β * (Q * (βᴴ * X))) = (1 + βᴴ * β * Q) * (βᴴ * X) := by
    rw [Matrix.mul_add, Matrix.add_mul, Matrix.one_mul]
    simp only [Matrix.mul_assoc]
  rw [h1, ← Matrix.mul_assoc (1 + βᴴ * β * Q)⁻¹, Matrix.nonsing_inv_mul _ hinv, Matrix.one_mul]
  exact add_sub_cancel_right _ _

theorem woodbury_right {T : Type} [Field T] [StarRing T] {m N n : Nat}
    (β : Matrix (Fin m) (Fin N) T) (Q : Matrix (Fin N) (Fin N) T) (X : Matrix (Fin m) (Fin n) T)
    (hinv : IsUnit (1 + βᴴ * β * Q).det) :
    (X - β * (Q * ((1 + βᴴ * β * Q)⁻¹ * (βᴴ * X))))
        + β * (Q * (βᴴ * (X - β * (Q * ((1 + βᴴ * β * Q)⁻¹ * (βᴴ * X)))))) = X := by
  have h1 : βᴴ * (X - β * (Q * ((1 + βᴴ * β * Q)⁻¹ * (βᴴ * X))))
      = (1 + βᴴ * β * Q)⁻¹ * (βᴴ * X) := by
    have h2 : βᴴ * X = (1 + βᴴ * β * Q) * ((1 + βᴴ * β * Q)⁻¹ * (βᴴ * X)) := by
      rw [← Matrix.mul_assoc, Matrix.mul_nonsing_inv _ hinv, Matrix.one_mul]
    rw [Matrix.mul_sub]
    nth_rewrite 1 [h2]
    rw [Matrix.add_mul, Matrix.one_mul]
    simp only [Matrix.mul_assoc]
    exact add_sub_cancel_right _ _
  rw [h1]
  exact sub_add_cancel _ _

theorem same_of_toMatrix {T : Type} (A B : mdarray T) (m n : Nat) (h0 : A.size0 = B.size0)
    (h1 : A.size1 = B.size1) (hm : A.size0 = m) (hn : A.size1 = n)
    (h : A.toMatrix m n = B.toMatrix m n) : A.same B := by
  refine ⟨h0, h1, ?_⟩
  intro i j hi hj
  have := congrFun (congrFun h ⟨i, by omega⟩) ⟨j, by omega⟩
  exact this

/-! ## The concrete configuration -/

theorem ex_partition : ex_bp.chunks_partition := ⟨rfl, rfl, rfl⟩

theorem ex_input_ready : input_ready ex_bp ex_q ex_X := ⟨ex_partition, rfl, rfl⟩

theorem ex_apply_ready : apply_ready ex_bp ex_q ex_Y ex_X := ⟨ex_partition, rfl, rfl, rfl, rfl⟩

theorem ex_small_det : (small_matrix ex_q ex_bp 0).det = 8 := by
  have h : small_matrix ex_q ex_bp 0 = (!![2, 2; 2, 6] : Matrix (Fin 2) (Fin 2) ℚ) := by
    ext i j
    fin_cases i <;> fin_cases j <;>
      simp [small_matrix, Beta_projectors_base.B, Beta_projectors_base.Beta, Q_operator.Q,
        Matrix.mul_apply, ex_bp, ex_q, Matrix.one_apply,
        Beta_projectors_base.num_total_beta, Fin.sum_univ_two] <;> norm_num
  rw [h]
  show (!![2, 2; 2, 6] : Matrix (Fin 2) (Fin 2) ℚ).det = 8
  rw [Matrix.det_fin_two]
  norm_num

theorem ex_invertible : IsUnit (small_matrix ex_q ex_bp 0).det := by
  rw [ex_small_det]
  exact isUnit_iff_ne_zero.mpr (by norm_num)

theorem InverseS_k_apply₁_lu {T : Type} [Field T] [StarRing T] [DecidableEq T] [PivotAbs T]
    (q_op : Q_operator T) (bp : Beta_projectors_base T) (ispn : Int) (finit : fresh_init T)
    (X : mdarray T) (fresh : fresh_memory T) (h : input_ready bp q_op X) :
    (( InverseS_k.initialize q_op bp ispn finit).apply₁ X fresh).size0 = X.size0 ∧
    (( InverseS_k.initialize q_op bp ispn finit).apply₁ X fresh).size1 = X.size1 ∧
    (( InverseS_k.initialize q_op bp ispn finit).apply₁ X fresh).toMatrix bp.num_gkvec_loc
        X.size1
      = X.toMatrix bp.num_gkvec_loc X.size1
        - bp.Beta * (q_op.Q ispn bp.num_total_beta
            * lu_solve_fn bp.num_total_beta X.size1 (small_matrix q_op bp ispn)
                (bp.Betaᴴ * X.toMatrix bp.num_gkvec_loc X.size1)) :=
  InverseS_k_apply_lu q_op bp ispn finit ⟨X.size0, X.size1, fresh.Y⟩ X fresh
    (ready_of_input bp q_op X fresh.Y h)

/-! ## The claims on the overlap operators -/

/-- C1: for every projector matrix `Beta`, coupling matrix `Q` and band block
`X`, if `I + B·Q` with `B = Beta^H·Beta` is invertible and `S_k` and
`InverseS_k` are built from the same projectors, `Q` and spin index, then
`InverseS_k::apply(S_k::apply(X))` holds the same matrix as `X`. -/
theorem InverseS_apply_S_apply {T : Type} [Field T] [StarRing T] [DecidableEq T] [PivotAbs T]
    (q_op : Q_operator T) (bp : Beta_projectors_base T) (ispn : Int) (finit : fresh_init T)
    (X : mdarray T) (f1 f2 : fresh_memory T) (h : input_ready bp q_op X)
    (hinv : IsUnit (1 + bp.B * q_op.Q ispn bp.num_total_beta).det) :
    (( InverseS_k.initialize q_op bp ispn finit).apply₁
        ((S_k.mk q_op bp ispn).apply₁ X f1) f2).same X := by
  obtain ⟨s0, s1, s2⟩ := S_k_apply₁_matrix q_op bp ispn X f1 h X.size1 rfl
  have h' : input_ready bp q_op ((S_k.mk q_op bp ispn).apply₁ X f1) :=
    ⟨h.1, h.2.1, by rw [s0]; exact h.2.2⟩
  obtain ⟨i0, i1, i2⟩ := InverseS_k_apply₁_matrix q_op bp ispn finit
    ((S_k.mk q_op bp ispn).apply₁ X f1) f2 h' hinv X.size1 s1
  apply same_of_toMatrix _ _ bp.num_gkvec_loc X.size1 (by rw [i0, s0]) i1
    (by rw [i0, s0]; exact h.2.2) i1
  rw [i2, s2]
  exact woodbury_left bp.Beta (q_op.Q ispn bp.num_total_beta) _ hinv

/-- Witness of C1 on the concrete configuration. -/
theorem InverseS_apply_S_apply_witness :
    input_ready ex_bp ex_q ex_X ∧
    IsUnit (1 + ex_bp.B * ex_q.Q 0 ex_bp.num_total_beta).det ∧
    (( InverseS_k.initialize ex_q ex_bp 0 ex_finit).apply₁
        ((S_k.mk ex_q ex_bp 0).apply₁ ex_X ex_fresh) ex_fresh).same ex_X :=
  ⟨ex_input_ready, ex_invertible,
    InverseS_apply_S_apply ex_q ex_bp 0 ex_finit ex_X ex_fresh ex_fresh ex_input_ready
      ex_invertible⟩

/-- C2: under the same conditions `S_k::apply(InverseS_k::apply(X))` holds the
same matrix as `X`: the inverse operator is also a right inverse. -/
theorem S_apply_InverseS_apply {T : Type} [Field T] [StarRing T] [DecidableEq T] [PivotAbs T]
    (q_op : Q_operator T) (bp : Beta_projectors_base T) (ispn : Int) (finit : fresh_init T)
    (X : mdarray T) (f1 f2 : fresh_memory T) (h : input_ready bp q_op X)
    (hinv : IsUnit (1 + bp.B * q_op.Q ispn bp.num_total_beta).det) :
    ((S_k.mk q_op bp ispn).apply₁
        (( InverseS_k.initialize q_op bp ispn finit).apply₁ X f1) f2).same X := by
  obtain ⟨i0, i1, i2⟩ := InverseS_k_apply₁_matrix q_op bp ispn finit X f1 h hinv X.size1 rfl
  have h' : input_ready bp q_op (( InverseS_k.initialize q_op bp ispn finit).apply₁ X f1) :=
    ⟨h.1, h.2.1, by rw [i0]; exact h.2.2⟩
  obtain ⟨s0, s1, s2⟩ := S_k_apply₁_matrix q_op bp ispn
    (( InverseS_k.initialize q_op bp ispn finit).apply₁ X f1) f2 h' X.size1 i1
  apply same_of_toMatrix _ _ bp.num_gkvec_loc X.size1 (by rw [s0, i0]) s1
    (by rw [s0, i0]; exact h.2.2) s1
  rw [s2, i2]
  exact woodbury_right bp.Beta (q_op.Q ispn bp.num_total_beta) _ hinv

/-- Witness of C2 on the concrete configuration. -/
theorem S_apply_InverseS_apply_witness :
    input_ready ex_bp ex_q ex_X ∧
    IsUnit (1 + ex_bp.B * ex_q.Q 0 ex_bp.num_total_beta).det ∧
    ((S_k.mk ex_q ex_bp 0).apply₁
        (( InverseS_k.initialize ex_q ex_bp 0 ex_finit).apply₁ ex_X ex_fresh) ex_fresh).same
      ex_X :=
  ⟨ex_input_ready, ex_invertible,
    S_apply_InverseS_apply ex_q ex_bp 0 ex_finit ex_X ex_fresh ex_fresh ex_input_ready
      ex_invertible⟩

/-- C3: for every band block `X`, `S_k::apply(Y, X)` leaves in `Y` the matrix
`X + Beta·Q·Beta^H·X`, with `Beta` the full projector matrix and `Q` the
coupling matrix of the spin block (applied with factor `+1`); `X` is
unchanged. -/
theorem forward_apply_writes {T : Type} [Field T] [StarRing T] (op : S_k T) (Y X : mdarray T)
    (fresh : fresh_memory T) (h : apply_ready op.bp op.q_op Y X) :
    (op.apply Y X fresh).X = X ∧
    (op.apply Y X fresh).Y.size0 = X.size0 ∧ (op.apply Y X fresh).Y.size1 = X.size1 ∧
    (op.apply Y X fresh).Y.toMatrix op.bp.num_gkvec_loc X.size1
      = X.toMatrix op.bp.num_gkvec_loc X.size1
        + op.bp.Beta * op.q_op.Q op.ispn op.bp.num_total_beta * op.bp.Betaᴴ
            * X.toMatrix op.bp.num_gkvec_loc X.size1 := by
  obtain ⟨h0, h1, h2⟩ := S_k_apply_matrix op Y X fresh h
  refine ⟨rfl, h0, h1, ?_⟩
  rw [h2]
  simp only [Matrix.mul_assoc]

/-- Witness of C3 on the concrete configuration. -/
theorem forward_apply_writes_witness :
    apply_ready ex_bp ex_q ex_Y ex_X ∧
    ((S_k.mk ex_q ex_bp 0).apply ex_Y ex_X ex_fresh).X = ex_X ∧
    ((S_k.mk ex_q ex_bp 0).apply ex_Y ex_X ex_fresh).Y.size0 = ex_X.size0 ∧
    ((S_k.mk ex_q ex_bp 0).apply ex_Y ex_X ex_fresh).Y.size1 = ex_X.size1 ∧
    ((S_k.mk ex_q ex_bp 0).apply ex_Y ex_X ex_fresh).Y.toMatrix ex_bp.num_gkvec_loc ex_X.size1
      = ex_X.toMatrix ex_bp.num_gkvec_loc ex_X.size1
        + ex_bp.Beta * ex_q.Q 0 ex_bp.num_total_beta * ex_bp.Betaᴴ
            * ex_X.toMatrix ex_bp.num_gkvec_loc ex_X.size1 :=
  ⟨ex_apply_ready, forward_apply_writes (S_k.mk ex_q ex_bp 0) ex_Y ex_X ex_fresh ex_apply_ready⟩

/-- C4: for every band block `X`, `InverseS_k::apply(Y, X)` of an operator
built by the constructor leaves in `Y` the matrix
`X − Beta·Q·(I + B·Q)⁻¹·Beta^H·X` with `B = Beta^H·Beta`; the inverse (which
exists by hypothesis) is realised by `getrs` on the stored factors and pivots,
`Q` is applied with factor `−1`, and `X` is unchanged. -/
theorem inverse_apply_writes {T : Type} [Field T] [StarRing T] [DecidableEq T] [PivotAbs T]
    (q_op : Q_operator T) (bp : Beta_projectors_base T) (ispn : Int) (finit : fresh_init T)
    (Y X : mdarray T) (fresh : fresh_memory T) (h : apply_ready bp q_op Y X)
    (hinv : IsUnit (1 + bp.B * q_op.Q ispn bp.num_total_beta).det) :
    (( InverseS_k.initialize q_op bp ispn finit).apply Y X fresh).X = X ∧
    (( InverseS_k.initialize q_op bp ispn finit).apply Y X fresh).Y.size0 = X.size0 ∧
    (( InverseS_k.initialize q_op bp ispn finit).apply Y X fresh).Y.size1 = X.size1 ∧
    (( InverseS_k.initialize q_op bp ispn finit).apply Y X fresh).Y.toMatrix bp.num_gkvec_loc
        X.size1
      = X.toMatrix bp.num_gkvec_loc X.size1
        - bp.Beta * q_op.Q ispn bp.num_total_beta
            * (1 + bp.B * q_op.Q ispn bp.num_total_beta)⁻¹ * bp.Betaᴴ
            * X.toMatrix bp.num_gkvec_loc X.size1 ∧
    getrs_fn bp.num_total_beta X.size1 ( InverseS_k.initialize q_op bp ispn finit).LU.data
        ( InverseS_k.initialize q_op bp ispn finit).LU.ld
        ( InverseS_k.initialize q_op bp ispn finit).ipiv
        (bp.Betaᴴ * X.toMatrix bp.num_gkvec_loc X.size1)
      = (1 + bp.B * q_op.Q ispn bp.num_total_beta)⁻¹
          * (bp.Betaᴴ * X.toMatrix bp.num_gkvec_loc X.size1) := by
  obtain ⟨h0, h1, h2⟩ := InverseS_k_apply_matrix q_op bp ispn finit Y X fresh h hinv
  refine ⟨rfl, h0, h1, ?_, ?_⟩
  · rw [h2]
    unfold small_matrix
    simp only [Matrix.mul_assoc]
  · rw [initialize_solves q_op bp ispn finit h.1 h.2.1]
    exact lu_solve_fn_inverse _ _ (small_matrix q_op bp ispn) _ hinv

/-- Witness of C4 on the concrete configuration. -/
theorem inverse_apply_writes_witness :
    apply_ready ex_bp ex_q ex_Y ex_X ∧
    IsUnit (1 + ex_bp.B * ex_q.Q 0 ex_bp.num_total_beta).det ∧
    (( InverseS_k.initialize ex_q ex_bp 0 ex_finit).apply ex_Y ex_X ex_fresh).Y.toMatrix
        ex_bp.num_gkvec_loc ex_X.size1
      = ex_X.toMatrix ex_bp.num_gkvec_loc ex_X.size1
        - ex_bp.Beta * ex_q.Q 0 ex_bp.num_total_beta
            * (1 + ex_bp.B * ex_q.Q 0 ex_bp.num_total_beta)⁻¹ * ex_bp.Betaᴴ
            * ex_X.toMatrix ex_bp.num_gkvec_loc ex_X.size1 :=
  ⟨ex_apply_ready, ex_invertible,
    (inverse_apply_writes ex_q ex_bp 0 ex_finit ex_Y ex_X ex_fresh ex_apply_ready
      ex_invertible).2.2.2.1⟩

/-- C5: for every `X` and every two ways of splitting the same projectors into
contiguous chunks, `S_k::apply(X)` gives the same `Y` under both splittings,
and so does `InverseS_k::apply(X)` (each operator being built from its own
splitting). -/
theorem apply_chunk_invariant {T : Type} [Field T] [StarRing T] [DecidableEq T] [PivotAbs T]
    (q_op : Q_operator T) (bp : Beta_projectors_base T) (chunks' : List beta_chunk_t)
    (ispn : Int) (X : mdarray T) (f1 f2 : fresh_memory T) (fi1 fi2 : fresh_init T)
    (h : input_ready bp q_op X) (h' : partition_from 0 chunks' bp.num_total_beta) :
    ((S_k.mk q_op bp ispn).apply₁ X f1).same
        ((S_k.mk q_op { bp with beta_chunks := chunks' } ispn).apply₁ X f2) ∧
    (( InverseS_k.initialize q_op bp ispn fi1).apply₁ X f1).same
        (( InverseS_k.initialize q_op { bp with beta_chunks := chunks' } ispn fi2).apply₁ X f2) := by
  have hr : input_ready { bp with beta_chunks := chunks' } q_op X := ⟨h', h.2.1, h.2.2⟩
  constructor
  · obtain ⟨a0, a1, a2⟩ := S_k_apply₁_matrix q_op bp ispn X f1 h X.size1 rfl
    obtain ⟨b0, b1, b2⟩ :=
      S_k_apply₁_matrix q_op { bp with beta_chunks := chunks' } ispn X f2 hr X.size1 rfl
    exact same_of_toMatrix _ _ bp.num_gkvec_loc X.size1 (by rw [a0, b0]) (by rw [a1, b1])
      (by rw [a0]; exact h.2.2) a1 (a2.trans b2.symm)
  · obtain ⟨a0, a1, a2⟩ := InverseS_k_apply₁_lu q_op bp ispn fi1 X f1 h
    obtain ⟨b0, b1, b2⟩ :=
      InverseS_k_apply₁_lu q_op { bp with beta_chunks := chunks' } ispn fi2 X f2 hr
    exact same_of_toMatrix _ _ bp.num_gkvec_loc X.size1 (by rw [a0, b0]) (by rw [a1, b1])
      (by rw [a0]; exact h.2.2) a1 (a2.trans b2.symm)

/-- Witness of C5: the two projectors of the concrete configuration as two
chunks of one and as one chunk of two. -/
theorem apply_chunk_invariant_witness :
    input_ready ex_bp ex_q ex_X ∧ partition_from 0 ex_one_chunk ex_bp.num_total_beta ∧
    ((S_k.mk ex_q ex_bp 0).apply₁ ex_X ex_fresh).same
        ((S_k.mk ex_q { ex_bp with beta_chunks := ex_one_chunk } 0).apply₁ ex_X ex_fresh) ∧
    (( InverseS_k.initialize ex_q ex_bp 0 ex_finit).apply₁ ex_X ex_fresh).same
        (( InverseS_k.initialize ex_q { ex_bp with beta_chunks := ex_one_chunk } 0
          ex_finit).apply₁ ex_X ex_fresh) :=
  ⟨ex_input_ready, ⟨rfl, rfl⟩,
    apply_chunk_invariant ex_q ex_bp ex_one_chunk 0 ex_X ex_fresh ex_fresh ex_finit ex_finit
      ex_input_ready ⟨rfl, rfl⟩⟩

/-! ### Singular `I + B·Q` -/

theorem sing_partition : sing_bp.chunks_partition := ⟨rfl, rfl⟩

theorem sing_small : small_matrix sing_q sing_bp 0 = 0 := by
  ext i j
  fin_cases i
  fin_cases j
  simp [small_matrix, Beta_projectors_base.B, Beta_projectors_base.Beta, Q_operator.Q,
    Matrix.mul_apply, sing_bp, sing_q, Beta_projectors_base.num_total_beta]

theorem sing_singular : ¬ IsUnit (small_matrix sing_q sing_bp 0).det := by
  rw [sing_small, Matrix.det_zero ⟨⟨0, Nat.one_pos⟩⟩]
  exact not_isUnit_zero

theorem sing_info : (InverseS_k.factorize sing_q sing_bp 0 ex_finit).info ≠ 0 :=
  fun h => sing_singular ((factorize_info sing_q sing_bp 0 ex_finit sing_partition rfl).mp h)

/-- C6, counterexample: with one projector of coefficient `1` and `Q = [-1]`
the matrix `I + B·Q` is singular and `getrf` reports it (non-zero status), yet
the constructor returns an operator. -/
theorem construct_singular_returns :
    (small_matrix sing_q sing_bp 0).det = 0 ∧
    (InverseS_k.factorize sing_q sing_bp 0 ex_finit).info ≠ 0 ∧
    InverseS_k.construct sing_q sing_bp 0 ex_finit
      = Except.ok ( InverseS_k.initialize sing_q sing_bp 0 ex_finit) := by
  refine ⟨?_, sing_info, rfl⟩
  rw [sing_small]
  exact Matrix.det_zero ⟨⟨0, Nat.one_pos⟩⟩

/-- C6, as the code has it: when `I + B·Q` is singular, `getrf` reports it by
a non-zero status, but the constructor does not look at the status: it
completes and stores the factors and the pivots that `getrf` left. -/
theorem construct_ignores_status {T : Type} [Field T] [StarRing T] [DecidableEq T] [PivotAbs T]
    (q_op : Q_operator T) (bp : Beta_projectors_base T) (ispn : Int) (fresh : fresh_init T)
    (hp : bp.chunks_partition) (hq : q_op.size_ = bp.num_total_beta)
    (hsing : ¬ IsUnit (1 + bp.B * q_op.Q ispn bp.num_total_beta).det) :
    (InverseS_k.factorize q_op bp ispn fresh).info ≠ 0 ∧
    ∃ op, InverseS_k.construct q_op bp ispn fresh = Except.ok op ∧
      op.LU.data = (InverseS_k.factorize q_op bp ispn fresh).A ∧
      op.ipiv = (InverseS_k.factorize q_op bp ispn fresh).ipiv :=
  ⟨fun h => hsing ((factorize_info q_op bp ispn fresh hp hq).mp h),
    InverseS_k.initialize q_op bp ispn fresh, rfl, rfl, rfl⟩

/-- Witness of the amended C6 on the singular configuration. -/
theorem construct_ignores_status_witness :
    sing_bp.chunks_partition ∧ sing_q.size_ = sing_bp.num_total_beta ∧
    ¬ IsUnit (1 + sing_bp.B * sing_q.Q 0 sing_bp.num_total_beta).det ∧
    (InverseS_k.factorize sing_q sing_bp 0 ex_finit).info ≠ 0 ∧
    ∃ op, InverseS_k.construct sing_q sing_bp 0 ex_finit = Except.ok op ∧
      op.LU.data = (InverseS_k.factorize sing_q sing_bp 0 ex_finit).A ∧
      op.ipiv = (InverseS_k.factorize sing_q sing_bp 0 ex_finit).ipiv :=
  ⟨sing_partition, rfl, sing_singular,
    construct_ignores_status sing_q sing_bp 0 ex_finit sing_partition rfl sing_singular⟩

/-- C7: `InverseS_k::apply` leaves the operator as it was, in particular the
stored `LU` and `ipiv` (no factorization takes place in `apply`); applying the
operator again to the same `X` gives the same `Y`, whatever the uninitialised
memory of the two calls held. -/
theorem InverseS_k_apply_keeps_factorization {T : Type} [Field T] [StarRing T]
    (op : InverseS_k T) (Y Y' X : mdarray T) (fresh fresh' : fresh_memory T)
    (h : apply_ready op.bp op.q_op Y X) (h' : apply_ready op.bp op.q_op Y' X) :
    (op.apply Y X fresh).self = op ∧
    (op.apply Y X fresh).self.LU = op.LU ∧ (op.apply Y X fresh).self.ipiv = op.ipiv ∧
    ((op.apply Y X fresh).self.apply Y' X fresh').Y.same (op.apply Y X fresh).Y := by
  refine ⟨rfl, rfl, rfl, ?_⟩
  obtain ⟨a0, a1, a2⟩ := InverseS_k_apply_general op Y X fresh h
  obtain ⟨b0, b1, b2⟩ := InverseS_k_apply_general op Y' X fresh' h'
  exact same_of_toMatrix _ _ op.bp.num_gkvec_loc X.size1 (b0.trans a0.symm) (b1.trans a1.symm)
    (b0.trans h.2.2.1) b1 (b2.trans a2.symm)

/-- Witness of C7 on the concrete configuration. -/
theorem InverseS_k_apply_keeps_factorization_witness :
    apply_ready ex_bp ex_q ex_Y ex_X ∧
    (( InverseS_k.initialize ex_q ex_bp 0 ex_finit).apply ex_Y ex_X ex_fresh).self
      = InverseS_k.initialize ex_q ex_bp 0 ex_finit ∧
    (( InverseS_k.initialize ex_q ex_bp 0 ex_finit).apply ex_Y ex_X ex_fresh).self.LU
      = ( InverseS_k.initialize ex_q ex_bp 0 ex_finit).LU ∧
    (( InverseS_k.initialize ex_q ex_bp 0 ex_finit).apply ex_Y ex_X ex_fresh).self.ipiv
      = ( InverseS_k.initialize ex_q ex_bp 0 ex_finit).ipiv ∧
    ((( InverseS_k.initialize ex_q ex_bp 0 ex_finit).apply ex_Y ex_X ex_fresh).self.apply
        ex_Y ex_X ex_fresh).Y.same
      (( InverseS_k.initialize ex_q ex_bp 0 ex_finit).apply ex_Y ex_X ex_fresh).Y :=
  ⟨ex_apply_ready,
    InverseS_k_apply_keeps_factorization ( InverseS_k.initialize ex_q ex_bp 0 ex_finit)
      ex_Y ex_Y ex_X ex_fresh ex_fresh ex_apply_ready ex_apply_ready⟩

end

section

/-! ## `std::map` -/

theorem key_lt_irrefl (a : key_t) : ¬ key_lt a a := by
  unfold key_lt
  omega

theorem key_lt_trans {a b c : key_t} (h1 : key_lt a b) (h2 : key_lt b c) : key_lt a c := by
  unfold key_lt at *
  omega

theorem key_eq_of_not_lt {a b : key_t} (h1 : ¬ key_lt a b) (h2 : ¬ key_lt b a) : a = b := by
  unfold key_lt at *
  apply Prod.ext <;> omega

theorem at_assign {V : Type} (k : key_t) (v : V) (q : key_t) :
    ∀ m : std_map V,
      std_map.at q (std_map.assign k v m) = if q = k then some v else std_map.at q m := by
  intro m
  induction m with
  | nil =>
    unfold std_map.assign
    simp only [std_map.at]
    by_cases h : q = k
    · rw [if_pos h.symm, if_pos h]
    · rw [if_neg (fun h' => h h'.symm), if_neg h]
  | cons e rest ih =>
    obtain ⟨k', v'⟩ := e
    unfold std_map.assign
    by_cases h1 : key_lt k k'
    · rw [if_pos h1]
      simp only [std_map.at]
      by_cases h : q = k
      · rw [if_pos h.symm, if_pos h]
      · rw [if_neg (fun h' => h h'.symm), if_neg h]
    · rw [if_neg h1]
      by_cases h2 : key_lt k' k
      · rw [if_pos h2]
        simp only [std_map.at]
        rw [ih]
        by_cases h : q = k
        · have : ¬ k' = q := by
            intro h'
            subst h
            subst h'
            exact key_lt_irrefl _ h2
          rw [if_neg this, if_pos h, if_pos h]
        · rw [if_neg h, if_neg h]
      · rw [if_neg h2]
        have hk : k = k' := key_eq_of_not_lt h1 h2
        simp only [std_map.at]
        by_cases h : q = k
        · rw [if_pos h.symm, if_pos h]
        · have : ¬ k' = q := fun h' => h (by rw [hk, h'])
          rw [if_neg (fun h' => h h'.symm), if_neg h, if_neg this]

theorem mem_keys_iff_at {V : Type} (q : key_t) :
    ∀ m : std_map V, q ∈ std_map.keys m ↔ std_map.at q m ≠ none := by
  intro m
  induction m with
  | nil => simp [std_map.keys, std_map.at]
  | cons e rest ih =>
    obtain ⟨k', v'⟩ := e
    unfold std_map.keys at ih ⊢
    simp only [List.map_cons, List.mem_cons, std_map.at]
    by_cases h : k' = q
    · rw [if_pos h]
      simp [h]
    · rw [if_neg h, ← ih]
      constructor
      · rintro (h' | h')
        · exact absurd h'.symm h
        · exact h'
      · exact fun h' => Or.inr h'

theorem keys_assign_sorted {V : Type} (k : key_t) (v : V) :
    ∀ m : std_map V, (std_map.keys m).Pairwise key_lt →
      (std_map.keys (std_map.assign k v m)).Pairwise key_lt ∧
      ∀ a, (∀ b ∈ std_map.keys m, key_lt a b) → key_lt a k →
        ∀ b ∈ std_map.keys (std_map.assign k v m), key_lt a b := by
  intro m
  induction m with
  | nil =>
    intro _
    unfold std_map.assign std_map.keys
    simp
  | cons e rest ih =>
    obtain ⟨k', v'⟩ := e
    intro hs
    unfold std_map.keys at hs ih ⊢
    simp only [List.map_cons, List.pairwise_cons] at hs
    obtain ⟨hs1, hs2⟩ := hs
    unfold std_map.assign
    by_cases h1 : key_lt k k'
    · rw [if_pos h1]
      simp only [List.map_cons, List.pairwise_cons, List.mem_cons]
      refine ⟨⟨?_, hs1, hs2⟩, ?_⟩
      · rintro b (hb | hb)
        · rw [hb]; exact h1
        · exact key_lt_trans h1 (hs1 b hb)
      · rintro a ha hak b (hb | hb | hb)
        · rw [hb]; exact hak
        · rw [hb]; exact ha k' (Or.inl rfl)
        · exact ha b (Or.inr hb)
    · rw [if_neg h1]
      by_cases h2 : key_lt k' k
      · rw [if_pos h2]
        obtain ⟨i1, i2⟩ := ih hs2
        simp only [List.map_cons, List.pairwise_cons, List.mem_cons]
        refine ⟨⟨i2 k' hs1 h2, i1⟩, ?_⟩
        rintro a ha hak b (hb | hb)
        · rw [hb]; exact ha k' (Or.inl rfl)
        · exact i2 a (fun c hc => ha c (Or.inr hc)) hak b hb
      · rw [if_neg h2]
        have hk : k = k' := key_eq_of_not_lt h1 h2
        simp only [List.map_cons, List.pairwise_cons, List.mem_cons]
        refine ⟨⟨by rw [hk]; exact hs1, hs2⟩, ?_⟩
        rintro a ha hak b (hb | hb)
        · rw [hb]; exact hak
        · exact ha b (Or.inr hb)

/-! ## The constructor loop -/

theorem fill_inner {V : Type} (ik : Int) (make : Int → Int → V) :
    ∀ (n : Nat) (data : std_map V),
      (List.range n).foldl
          (fun data (ispn : Nat) => std_map.assign (ik, (ispn : Int)) (make ik ispn) data) data
        = ((List.range n).map (fun (ispn : Nat) => (ik, (ispn : Int)))).foldl
            (fun data k => std_map.assign k (make k.1 k.2) data) data := by
  intro n data
  rw [List.foldl_map]

theorem fill_data_eq {V : Type} (num_spins : Int) (make : Int → Int → V) :
    ∀ (spl : List Int) (data : std_map V),
      spl.foldl
          (fun data ik =>
            (List.range num_spins.toNat).foldl
              (fun data (ispn : Nat) =>
                std_map.assign (ik, (ispn : Int)) (make ik ispn) data) data)
          data
        = (assigned_keys spl num_spins).foldl
            (fun data k => std_map.assign k (make k.1 k.2) data) data := by
  intro spl
  induction spl with
  | nil =>
    intro data
    rfl
  | cons ik rest ih =>
    intro data
    unfold assigned_keys at ih ⊢
    simp only [List.foldl_cons, List.flatMap_cons, List.foldl_append]
    rw [ih, fill_inner]

theorem assign_all_spec {V : Type} (make : Int → Int → V) :
    ∀ (L : List key_t) (data : std_map V) , (std_map.keys data).Pairwise key_lt →
      (std_map.keys (L.foldl (fun data k => std_map.assign k (make k.1 k.2) data) data)).Pairwise
          key_lt ∧
      ∀ q, std_map.at q (L.foldl (fun data k => std_map.assign k (make k.1 k.2) data) data)
        = if q ∈ L then some (make q.1 q.2) else std_map.at q data := by
  intro L
  induction L with
  | nil =>
    intro data hs
    simp only [List.foldl_nil, List.not_mem_nil, if_false]
    exact ⟨hs, fun _ => trivial⟩
  | cons k rest ih =>
    intro data hs
    simp only [List.foldl_cons]
    obtain ⟨i1, i2⟩ := ih (std_map.assign k (make k.1 k.2) data)
      (keys_assign_sorted k _ data hs).1
    refine ⟨i1, ?_⟩
    intro q
    rw [i2 q, at_assign]
    by_cases h1 : q ∈ rest
    · rw [if_pos h1, if_pos (List.mem_cons_of_mem _ h1)]
    · rw [if_neg h1]
      by_cases h2 : q = k
      · rw [if_pos h2, if_pos (by rw [h2]; exact List.mem_cons_self _ _), h2]
      · rw [if_neg h2, if_neg]
        intro h3
        rcases List.mem_cons.mp h3 with h4 | h4
        · exact h2 h4
        · exact h1 h4

theorem fill_data_spec {V : Type} (spl : List Int) (num_spins : Int) (make : Int → Int → V) :
    (std_map.keys (fill_data spl num_spins make)).Pairwise key_lt ∧
    ∀ q, std_map.at q (fill_data spl num_spins make)
      = if q ∈ assigned_keys spl num_spins then some (make q.1 q.2) else none := by
  unfold fill_data
  rw [fill_data_eq]
  exact assign_all_spec make (assigned_keys spl num_spins) [] List.Pairwise.nil

theorem mem_assigned_keys (spl : List Int) (num_spins : Int) (q : key_t) :
    q ∈ assigned_keys spl num_spins ↔ q.1 ∈ spl ∧ 0 ≤ q.2 ∧ q.2 < num_spins := by
  unfold assigned_keys
  simp only [List.mem_flatMap, List.mem_map, List.mem_range]
  constructor
  · rintro ⟨ik, hik, s, hs, rfl⟩
    exact ⟨hik, Int.natCast_nonneg s, Int.lt_toNat.mp hs⟩
  · rintro ⟨h1, h2, h3⟩
    refine ⟨q.1, h1, q.2.toNat, ?_, ?_⟩
    · exact (Int.toNat_lt_toNat (lt_of_le_of_lt h2 h3)).mpr h3
    · apply Prod.ext
      · rfl
      · exact Int.toNat_of_nonneg h2

theorem fill_data_keys {V : Type} (spl : List Int) (num_spins : Int) (make : Int → Int → V) :
    (std_map.keys (fill_data spl num_spins make)).Nodup ∧
    ∀ q, q ∈ std_map.keys (fill_data spl num_spins make)
      ↔ q.1 ∈ spl ∧ 0 ≤ q.2 ∧ q.2 < num_spins := by
  obtain ⟨h1, h2⟩ := fill_data_spec spl num_spins make
  constructor
  · apply h1.imp
    intro a b hab heq
    rw [heq] at hab
    exact key_lt_irrefl b hab
  · intro q
    rw [mem_keys_iff_at, h2 q, ← mem_assigned_keys]
    by_cases h : q ∈ assigned_keys spl num_spins
    · rw [if_pos h]
      simp [h]
    · rw [if_neg h]
      simp [h]

theorem assigned_keys_nodup (num_spins : Int) :
    ∀ spl : List Int, spl.Nodup → (assigned_keys spl num_spins).Nodup ∧
      (assigned_keys spl num_spins).length = spl.length * num_spins.toNat := by
  intro spl
  induction spl with
  | nil =>
    intro _
    simp [assigned_keys]
  | cons ik rest ih =>
    intro hnd
    obtain ⟨hik, hrest⟩ := List.nodup_cons.mp hnd
    obtain ⟨i1, i2⟩ := ih hrest
    unfold assigned_keys at i1 i2 ⊢
    simp only [List.flatMap_cons, List.length_append, List.length_map, List.length_range]
    constructor
    · rw [List.nodup_append]
      refine ⟨?_, i1, ?_⟩
      · apply List.Nodup.map _ (List.nodup_range _)
        intro a b hab
        have := congrArg Prod.snd hab
        simp only at this
        exact Int.ofNat_inj.mp this
      · intro q hq1 hq2
        have h1 : q.1 = ik := by
          obtain ⟨s, _, rfl⟩ := List.mem_map.mp hq1
          rfl
        have h2 : q.1 ∈ rest := ((mem_assigned_keys rest num_spins q).mp hq2).1
        rw [h1] at h2
        exact hik h2
    · rw [i2, List.length_cons]
      ring

theorem fill_data_length {V : Type} (spl : List Int) (num_spins : Int) (make : Int → Int → V)
    (hnd : spl.Nodup) :
    (std_map.keys (fill_data spl num_spins make)).length = spl.length * num_spins.toNat := by
  obtain ⟨h1, h2⟩ := fill_data_keys spl num_spins make
  obtain ⟨a1, a2⟩ := assigned_keys_nodup num_spins spl hnd
  rw [← a2]
  apply List.Perm.length_eq
  rw [List.perm_ext_iff_of_nodup h1 a1]
  intro q
  rw [h2 q, mem_assigned_keys]

/-! ## The claims on the keyed dispatch -/

theorem apply_spec {V Buf : Type} (op_apply : V → Buf → Buf → Buf) (spl : List Int)
    (num_spins : Int) (make : Int → Int → V) (key : key_t) (out inp : Buf) :
    (match std_map.at key (fill_data spl num_spins make) with
      | none => ((Except.error "std::out_of_range" : Except String Unit), out)
      | some op => (Except.ok (), op_apply op out inp))
      = if key ∈ std_map.keys (fill_data spl num_spins make) then
          (Except.ok (), op_apply (make key.1 key.2) out inp)
        else (Except.error "std::out_of_range", out) := by
  have h1 := (fill_data_spec spl num_spins make).2 key
  have h2 := (fill_data_keys spl num_spins make).2 key
  rw [← mem_assigned_keys] at h2
  by_cases h : key ∈ assigned_keys spl num_spins
  · rw [if_pos h] at h1
    rw [h1, if_pos (h2.mpr h)]
  · rw [if_neg h] at h1
    rw [h1, if_neg (fun h' => h (h2.mp h'))]

/-- C8: `get_keys()` of `Overlap_operators` and of `UltrasoftPrecond` returns
exactly the pairs `(ik, ispn)` with `ik` a k-point local to this process and
`0 ≤ ispn < num_spins`, each pair once; its length is the number of local
k-points times `num_spins` (distinct local k-points having distinct global
indices). -/
theorem get_keys_exact {Q BP GK op_t pc_t : Type}
    (make : Simulation_context → Q → BP → Int → op_t)
    (make_pc : Simulation_context → Q → Int → BP → GK → pc_t) (kset : K_point_set BP GK)
    (ctx : Simulation_context) (q_op : Q) (hnd : kset.spl_num_kpoints.Nodup) :
    ((Overlap_operators.construct make kset ctx q_op).get_keys.Nodup ∧
      (∀ q, q ∈ (Overlap_operators.construct make kset ctx q_op).get_keys
        ↔ q.1 ∈ kset.spl_num_kpoints ∧ 0 ≤ q.2 ∧ q.2 < ctx.num_spins) ∧
      (Overlap_operators.construct make kset ctx q_op).get_keys.length
        = kset.local_size * ctx.num_spins.toNat) ∧
    ((UltrasoftPrecond.construct make_pc kset ctx q_op).get_keys.Nodup ∧
      (∀ q, q ∈ (UltrasoftPrecond.construct make_pc kset ctx q_op).get_keys
        ↔ q.1 ∈ kset.spl_num_kpoints ∧ 0 ≤ q.2 ∧ q.2 < ctx.num_spins) ∧
      (UltrasoftPrecond.construct make_pc kset ctx q_op).get_keys.length
        = kset.local_size * ctx.num_spins.toNat) :=
  ⟨⟨(fill_data_keys kset.spl_num_kpoints ctx.num_spins
        (fun ik ispn => make ctx q_op (kset.beta_projectors ik) ispn)).1,
      (fill_data_keys kset.spl_num_kpoints ctx.num_spins
        (fun ik ispn => make ctx q_op (kset.beta_projectors ik) ispn)).2,
      fill_data_length kset.spl_num_kpoints ctx.num_spins
        (fun ik ispn => make ctx q_op (kset.beta_projectors ik) ispn) hnd⟩,
    ⟨(fill_data_keys kset.spl_num_kpoints ctx.num_spins
        (fun ik ispn => make_pc ctx q_op ispn (kset.beta_projectors ik) (kset.gkvec ik))).1,
      (fill_data_keys kset.spl_num_kpoints ctx.num_spins
        (fun ik ispn => make_pc ctx q_op ispn (kset.beta_projectors ik) (kset.gkvec ik))).2,
      fill_data_length kset.spl_num_kpoints ctx.num_spins
        (fun ik ispn => make_pc ctx q_op ispn (kset.beta_projectors ik) (kset.gkvec ik)) hnd⟩⟩

/-- Witness of C8: two local k-points and two spins give four keys. -/
theorem get_keys_exact_witness :
    ex_kset.spl_num_kpoints.Nodup ∧
    ((Overlap_operators.construct (fun _ q bp ispn => S_k.mk q bp ispn) ex_kset ⟨2⟩
        ex_q).get_keys.length = ex_kset.local_size * (2 : Int).toNat) :=
  ⟨by decide,
    (get_keys_exact (fun _ q bp ispn => S_k.mk q bp ispn)
      (fun _ (_ : Q_operator ℚ) (_ : Int) (_ : Beta_projectors_base ℚ) (_ : Unit) => ())
      ex_kset ⟨2⟩ ex_q (by decide)).1.2.2⟩

/-- C9: `apply(key, out, in)` succeeds exactly for the keys of `get_keys()`;
then `out` holds the result of applying to `in` the operator constructed from
the beta projectors of k-point `key.first` with spin index `key.second`;
for any other key the call fails and `out` is as before.  The same holds for
`UltrasoftPrecond`. -/
theorem apply_by_key {Q BP GK op_t pc_t Buf : Type}
    (make : Simulation_context → Q → BP → Int → op_t)
    (make_pc : Simulation_context → Q → Int → BP → GK → pc_t)
    (op_apply : op_t → Buf → Buf → Buf) (pc_apply : pc_t → Buf → Buf → Buf)
    (kset : K_point_set BP GK) (ctx : Simulation_context) (q_op : Q) (key : key_t)
    (out inp : Buf) :
    (Overlap_operators.apply op_apply (Overlap_operators.construct make kset ctx q_op)
        key out inp
      = if key ∈ (Overlap_operators.construct make kset ctx q_op).get_keys then
          (Except.ok (), op_apply (make ctx q_op (kset.beta_projectors key.1) key.2) out inp)
        else (Except.error "std::out_of_range", out)) ∧
    (UltrasoftPrecond.apply pc_apply (UltrasoftPrecond.construct make_pc kset ctx q_op)
        key out inp
      = if key ∈ (UltrasoftPrecond.construct make_pc kset ctx q_op).get_keys then
          (Except.ok (),
            pc_apply (make_pc ctx q_op key.2 (kset.beta_projectors key.1) (kset.gkvec key.1))
              out inp)
        else (Except.error "std::out_of_range", out)) :=
  ⟨apply_spec op_apply kset.spl_num_kpoints ctx.num_spins
      (fun ik ispn => make ctx q_op (kset.beta_projectors ik) ispn) key out inp,
    apply_spec pc_apply kset.spl_num_kpoints ctx.num_spins
      (fun ik ispn => make_pc ctx q_op ispn (kset.beta_projectors ik) (kset.gkvec ik))
      key out inp⟩

/-! ## The block-cyclic index map -/

theorem div_block {bs : Nat} (hbs : 0 < bs) (q r : Nat) (hr : r < bs) :
    (q * bs + r) / bs = q ∧ (q * bs + r) % bs = r := by
  constructor
  · rw [Nat.mul_comm, Nat.mul_add_div hbs, Nat.div_eq_of_lt hr, Nat.add_zero]
  · rw [Nat.mul_comm, Nat.mul_add_mod, Nat.mod_eq_of_lt hr]

theorem bc_global_locate (bs P i : Nat) (hbs : 0 < bs) :
    bc_global bs P (bc_owner bs P i) (bc_local bs P i) = i := by
  unfold bc_global bc_owner bc_local
  obtain ⟨h1, h2⟩ := div_block hbs (i / bs / P) (i % bs) (Nat.mod_lt _ hbs)
  rw [h1, h2]
  have h3 : i / bs / P * P + i / bs % P = i / bs := by
    rw [Nat.mul_comm]
    exact Nat.div_add_mod _ _
  rw [h3, Nat.mul_comm]
  exact Nat.div_add_mod _ _

theorem bc_locate_global (bs P o l : Nat) (hbs : 0 < bs) (ho : o < P) :
    bc_owner bs P (bc_global bs P o l) = o ∧ bc_local bs P (bc_global bs P o l) = l := by
  unfold bc_global bc_owner bc_local
  obtain ⟨h1, h2⟩ := div_block hbs (l / bs * P + o) (l % bs) (Nat.mod_lt _ hbs)
  have hP : 0 < P := Nat.lt_of_le_of_lt (Nat.zero_le _) ho
  obtain ⟨h3, h4⟩ := div_block hP (l / bs) o ho
  rw [h1, h2, h3, h4]
  refine ⟨rfl, ?_⟩
  rw [Nat.mul_comm]
  exact Nat.div_add_mod _ _

theorem bc_locate_injective (bs P : Nat) (hbs : 0 < bs) :
    Function.Injective (fun i => (bc_owner bs P i, bc_local bs P i)) := by
  intro i j hij
  have h1 : bc_owner bs P i = bc_owner bs P j := congrArg Prod.fst hij
  have h2 : bc_local bs P i = bc_local bs P j := congrArg Prod.snd hij
  rw [← bc_global_locate bs P i hbs, ← bc_global_locate bs P j hbs, h1, h2]

theorem locate_global_2d (d : block_cyclic) (hr : 0 < d.bs_row) (hc : 0 < d.bs_col)
    (p : (Nat × Nat) × (Nat × Nat)) (h1 : p.1.1 < d.P_row) (h2 : p.1.2 < d.P_col) :
    d.locate (d.global p) = p := by
  obtain ⟨⟨pr, pc⟩, ⟨lr, lc⟩⟩ := p
  unfold block_cyclic.locate block_cyclic.global
  simp only at h1 h2 ⊢
  rw [(bc_locate_global d.bs_row d.P_row pr lr hr h1).1,
    (bc_locate_global d.bs_row d.P_row pr lr hr h1).2,
    (bc_locate_global d.bs_col d.P_col pc lc hc h2).1,
    (bc_locate_global d.bs_col d.P_col pc lc hc h2).2]

theorem global_locate_2d (d : block_cyclic) (hr : 0 < d.bs_row) (hc : 0 < d.bs_col)
    (ij : Nat × Nat) : d.global (d.locate ij) = ij := by
  unfold block_cyclic.locate block_cyclic.global
  simp only
  rw [bc_global_locate _ _ _ hr, bc_global_locate _ _ _ hc]

/-- C10: for block sizes and process counts `≥ 1`, the block-cyclic map
`i ↦ (owner, local)` is injective and `bc_global` recovers the global index;
on every process of the grid, mapping a local index to its global index and
back gives the same (owner, local) pair; hence, for an `M × N` matrix, the
(process, local index) pairs whose element lies in the matrix correspond one to
one to the global elements `(i, j)` with `i < M`, `j < N`: each global element
has exactly one owner and is met exactly once when all local indices are mapped
back. -/
theorem block_cyclic_bijective (d : block_cyclic) (M N : Nat) (hr : 1 ≤ d.bs_row)
    (hc : 1 ≤ d.bs_col) (hR : 1 ≤ d.P_row) (hC : 1 ≤ d.P_col) :
    Function.Injective (fun i => (bc_owner d.bs_row d.P_row i, bc_local d.bs_row d.P_row i)) ∧
    (∀ i, bc_global d.bs_row d.P_row (bc_owner d.bs_row d.P_row i) (bc_local d.bs_row d.P_row i)
      = i) ∧
    (∀ o l, o < d.P_row →
      bc_owner d.bs_row d.P_row (bc_global d.bs_row d.P_row o l) = o ∧
      bc_local d.bs_row d.P_row (bc_global d.bs_row d.P_row o l) = l) ∧
    Function.Injective d.locate ∧
    (∀ ij, d.global (d.locate ij) = ij) ∧
    Set.BijOn d.global (d.local_entries M N) { ij | ij.1 < M ∧ ij.2 < N } ∧
    (∀ ij : Nat × Nat, ij.1 < M → ij.2 < N →
      ∃! p, p ∈ d.local_entries M N ∧ d.global p = ij) := by
  have hgl := global_locate_2d d hr hc
  have hown : ∀ ij : Nat × Nat, (d.locate ij).1.1 < d.P_row ∧ (d.locate ij).1.2 < d.P_col :=
    fun ij => ⟨Nat.mod_lt _ hR, Nat.mod_lt _ hC⟩
  have hinj : Set.InjOn d.global (d.local_entries M N) := by
    intro p hp q hq hpq
    rw [← locate_global_2d d hr hc p hp.1 hp.2.1, ← locate_global_2d d hr hc q hq.1 hq.2.1, hpq]
  refine ⟨bc_locate_injective _ _ hr, fun i => bc_global_locate _ _ i hr,
    fun o l ho => bc_locate_global _ _ o l hr ho, ?_, hgl, ⟨?_, hinj, ?_⟩, ?_⟩
  · intro a b hab
    rw [← hgl a, ← hgl b, hab]
  · intro p hp
    exact ⟨hp.2.2.1, hp.2.2.2⟩
  · intro ij hij
    refine ⟨d.locate ij, ⟨(hown ij).1, (hown ij).2, ?_, ?_⟩, hgl ij⟩
    · rw [hgl ij]; exact hij.1
    · rw [hgl ij]; exact hij.2
  · intro ij h1 h2
    refine ⟨d.locate ij, ⟨⟨(hown ij).1, (hown ij).2, ?_, ?_⟩, hgl ij⟩, ?_⟩
    · rw [hgl ij]; exact h1
    · rw [hgl ij]; exact h2
    · rintro q ⟨hq, hqg⟩
      rw [← hqg, locate_global_2d d hr hc q hq.1 hq.2.1]

/-- Witness of C10: blocks of `2 × 3` on a `2 × 2` grid, a `5 × 7` matrix. -/
theorem block_cyclic_bijective_witness :
    (1 ≤ (block_cyclic.mk 2 3 2 2).bs_row ∧ 1 ≤ (block_cyclic.mk 2 3 2 2).bs_col ∧
      1 ≤ (block_cyclic.mk 2 3 2 2).P_row ∧ 1 ≤ (block_cyclic.mk 2 3 2 2).P_col) ∧
    Set.BijOn (block_cyclic.mk 2 3 2 2).global ((block_cyclic.mk 2 3 2 2).local_entries 5 7)
      { ij | ij.1 < 5 ∧ ij.2 < 7 } :=
  ⟨⟨by decide, by decide, by decide, by decide⟩,
    (block_cyclic_bijective (block_cyclic.mk 2 3 2 2) 5 7 (by decide) (by decide) (by decide)
      (by decide)).2.2.2.2.2.1⟩

/-! ## `K_point::generate_gkvec`: warnings and termination -/

theorem generate_gkvec_warnings (ctx : gkvec_context) (kp : K_point) (gk : ℚ) :
    (K_point.generate_gkvec ctx kp gk).warnings
      = if ctx.full_potential = true ∧ gk * ctx.max_mt_radius > (ctx.lmax_apw : ℚ) then
          [gkvec_message.lmax_too_small gk ctx.lmax_apw ctx.max_mt_radius
            (int_add (int_of_double (gk * ctx.max_mt_radius)) 1)]
        else [] := by
  unfold K_point.generate_gkvec
  dsimp only
  split_ifs <;> rfl

theorem generate_gkvec_fatal (ctx : gkvec_context) (kp : K_point) (gk : ℚ)
    (h : gk * 2 > ctx.pw_cutoff) :
    (K_point.generate_gkvec ctx kp gk).result
      = Except.error (gkvec_message.gk_cutoff_too_large ctx.pw_cutoff (gk * 2)) := by
  unfold K_point.generate_gkvec
  dsimp only
  rw [if_pos h]

theorem generate_gkvec_created (ctx : gkvec_context) (kp : K_point) (gk : ℚ)
    (h : ¬ gk * 2 > ctx.pw_cutoff) :
    (K_point.generate_gkvec ctx kp gk).created := by
  unfold K_point.generate_gkvec gkvec_outcome.created
  dsimp only
  rw [if_neg h]
  split_ifs <;> exact ⟨_, rfl, rfl⟩

theorem not_created_of_terminated (o : gkvec_outcome) (h : o.terminated) : ¬ o.created := by
  rintro ⟨kp, hk, -⟩
  obtain ⟨msg, hm⟩ := h
  rw [hm] at hk
  cases hk

theorem suggested_lmax_eq (ctx : gkvec_context) (kp : K_point) (gk : ℚ) :
    (K_point.generate_gkvec ctx kp gk).suggested_lmax
      = if ctx.full_potential = true ∧ gk * ctx.max_mt_radius > (ctx.lmax_apw : ℚ) then
          some (int_add (int_of_double (gk * ctx.max_mt_radius)) 1)
        else none := by
  unfold gkvec_outcome.suggested_lmax
  rw [generate_gkvec_warnings]
  split_ifs <;> rfl

theorem int_of_double_nonneg {x : ℚ} (h : 0 ≤ x) (hb : x < 2 ^ 31) :
    int_of_double x = ⌊x⌋ := by
  unfold int_of_double
  dsimp only
  rw [if_pos h]
  have h1 : (0 : Int) ≤ ⌊x⌋ := Int.floor_nonneg.mpr h
  have h2 : ⌊x⌋ < 2 ^ 31 := by
    rw [Int.floor_lt]
    exact_mod_cast hb
  rw [if_pos ⟨by omega, h2⟩]

theorem int_add_in_range (a b : Int) (h1 : -2 ^ 31 ≤ a + b) (h2 : a + b < 2 ^ 31) :
    int_add a b = a + b := by
  unfold int_add
  omega

theorem ex_doubled_exceeds : (11 : ℚ) * 2 > ex_ctx.pw_cutoff := by
  simp only [ex_ctx]; norm_num

theorem ex_fatal :
    (K_point.generate_gkvec ex_ctx ex_kp 11).result
      = Except.error (gkvec_message.gk_cutoff_too_large 20 22) := by
  rw [generate_gkvec_fatal ex_ctx ex_kp 11 ex_doubled_exceeds]
  simp only [ex_ctx]
  norm_num

/-- C13, counterexample: with plane-wave cutoff `20` and `gk_cutoff = 11` the
doubled cutoff `22` exceeds the plane-wave cutoff; the call is terminated with
the diagnostic of the second check and no G+k vector set is created. -/
theorem generate_gkvec_check_blocks :
    (K_point.generate_gkvec ex_ctx ex_kp 11).result
        = Except.error (gkvec_message.gk_cutoff_too_large 20 22) ∧
      ¬ (K_point.generate_gkvec ex_ctx ex_kp 11).created :=
  ⟨ex_fatal, not_created_of_terminated _ ⟨_, ex_fatal⟩⟩

/-- C13, as the code has it: only the lmax check is advisory.  The result of
the call does not depend on `lmax_apw` or on the muffin-tin radius, whatever
warning they cause; the plane-wave cutoff check is blocking: the G+k vector set
is created exactly when `gk_cutoff * 2 ≤ pw_cutoff`, and otherwise the call is
terminated with a diagnostic. -/
theorem lmax_check_advisory_cutoff_check_fatal (ctx : gkvec_context) (kp : K_point) (gk : ℚ) :
    (∀ (lmax : Int) (radius : ℚ),
      (K_point.generate_gkvec { ctx with lmax_apw := lmax, max_mt_radius := radius } kp gk).result
        = (K_point.generate_gkvec ctx kp gk).result) ∧
    ((K_point.generate_gkvec ctx kp gk).created ↔ gk * 2 ≤ ctx.pw_cutoff) ∧
    (¬ (K_point.generate_gkvec ctx kp gk).created
      → (K_point.generate_gkvec ctx kp gk).terminated) := by
  refine ⟨?_, ?_, ?_⟩
  · intro lmax radius
    unfold K_point.generate_gkvec
    dsimp only
    split_ifs <;> rfl
  · constructor
    · intro hc
      by_contra hlt
      exact not_created_of_terminated _ ⟨_, generate_gkvec_fatal ctx kp gk (not_le.mp hlt)⟩ hc
    · intro hle
      exact generate_gkvec_created ctx kp gk (not_lt.mpr hle)
  · intro hn
    by_cases h : gk * 2 > ctx.pw_cutoff
    · exact ⟨_, generate_gkvec_fatal ctx kp gk h⟩
    · exact absurd (generate_gkvec_created ctx kp gk h) hn

/-- Witness of C13 as amended: the call with `gk_cutoff = 11` creates nothing
and is terminated. -/
theorem lmax_check_advisory_cutoff_check_fatal_witness :
    ¬ (K_point.generate_gkvec ex_ctx ex_kp 11).created ∧
      (K_point.generate_gkvec ex_ctx ex_kp 11).terminated :=
  ⟨not_created_of_terminated _ ⟨_, ex_fatal⟩,
    (lmax_check_advisory_cutoff_check_fatal ex_ctx ex_kp 11).2.2
      (not_created_of_terminated _ ⟨_, ex_fatal⟩)⟩

/-- C19: `generate_gkvec` is terminated with a diagnostic if and only if
`2 * gk_cutoff > pw_cutoff`; whenever `2 * gk_cutoff ≤ pw_cutoff` the G+k
vector set is created, with or without the lmax warning; the lmax warning is
issued if and only if the calculation is full-potential and
`gk_cutoff * max_mt_radius > lmax_apw`. -/
theorem generate_gkvec_terminates_iff (ctx : gkvec_context) (kp : K_point) (gk : ℚ) :
    ((K_point.generate_gkvec ctx kp gk).terminated ↔ 2 * gk > ctx.pw_cutoff) ∧
    (2 * gk ≤ ctx.pw_cutoff → (K_point.generate_gkvec ctx kp gk).created) ∧
    ((K_point.generate_gkvec ctx kp gk).lmax_warned
      ↔ (ctx.full_potential = true ∧ gk * ctx.max_mt_radius > (ctx.lmax_apw : ℚ))) := by
  refine ⟨?_, ?_, ?_⟩
  · constructor
    · intro ht
      by_contra hle
      have hc := generate_gkvec_created ctx kp gk (by rw [mul_comm]; exact hle)
      exact not_created_of_terminated _ ht hc
    · intro h
      exact ⟨_, generate_gkvec_fatal ctx kp gk (by rw [mul_comm]; exact h)⟩
  · intro hle
    exact generate_gkvec_created ctx kp gk (by rw [mul_comm]; exact not_lt.mpr hle)
  · unfold gkvec_outcome.lmax_warned
    rw [generate_gkvec_warnings]
    constructor
    · rintro ⟨g, l, r, s, hmem⟩
      by_contra hcond
      rw [if_neg hcond] at hmem
      cases hmem
    · intro hcond
      rw [if_pos hcond]
      exact ⟨_, _, _, _, List.mem_singleton.mpr rfl⟩

/-- Witness of C19: `gk_cutoff = 7` under the plane-wave cutoff `20`; the set
is created although the lmax warning is issued. -/
theorem generate_gkvec_terminates_iff_witness :
    2 * (7 : ℚ) ≤ ex_ctx.pw_cutoff ∧ (K_point.generate_gkvec ex_ctx ex_kp 7).created ∧
      (K_point.generate_gkvec ex_ctx ex_kp 7).lmax_warned :=
  ⟨by simp only [ex_ctx]; norm_num,
    (generate_gkvec_terminates_iff ex_ctx ex_kp 7).2.1 (by simp only [ex_ctx]; norm_num),
    (generate_gkvec_terminates_iff ex_ctx ex_kp 7).2.2.mpr
      ⟨rfl, by simp only [ex_ctx]; norm_num⟩⟩

/-! ## The value suggested by the lmax warning -/

theorem suggested_lmax_some (ctx : gkvec_context) (kp : K_point) (gk : ℚ) (s : Int)
    (hs : (K_point.generate_gkvec ctx kp gk).suggested_lmax = some s) :
    (ctx.full_potential = true ∧ gk * ctx.max_mt_radius > (ctx.lmax_apw : ℚ)) ∧
      s = int_add (int_of_double (gk * ctx.max_mt_radius)) 1 := by
  rw [suggested_lmax_eq] at hs
  by_cases hc : ctx.full_potential = true ∧ gk * ctx.max_mt_radius > (ctx.lmax_apw : ℚ)
  · rw [if_pos hc] at hs
    exact ⟨hc, (Option.some.inj hs).symm⟩
  · rw [if_neg hc] at hs
    cases hs

theorem suggested_value_in_range {x : ℚ} (h0 : 0 ≤ x) (hb : x < 2 ^ 31 - 1) :
    int_add (int_of_double x) 1 = ⌊x⌋ + 1 := by
  rw [int_of_double_nonneg h0 (by linarith)]
  have h1 : (0 : Int) ≤ ⌊x⌋ := Int.floor_nonneg.mpr h0
  have h2 : ⌊x⌋ < 2 ^ 31 - 1 := by
    rw [Int.floor_lt]
    push_cast
    linarith
  exact int_add_in_range _ _ (by omega) (by omega)

theorem ex_suggested (gk : ℚ) (z : Int) (hw : gk * 2 > 8) (h1 : (z : ℚ) ≤ gk * 2)
    (h2 : gk * 2 < (z : ℚ) + 1) (h3 : gk * 2 < 2 ^ 31 - 1) :
    (K_point.generate_gkvec ex_ctx ex_kp gk).suggested_lmax = some (z + 1) := by
  rw [suggested_lmax_eq]
  have hc : ex_ctx.full_potential = true
      ∧ gk * ex_ctx.max_mt_radius > (ex_ctx.lmax_apw : ℚ) := by
    refine ⟨rfl, ?_⟩
    simp only [ex_ctx]
    exact_mod_cast hw
  rw [if_pos hc]
  have h0 : (0 : ℚ) ≤ gk * ex_ctx.max_mt_radius := by
    simp only [ex_ctx]; linarith
  have hb : gk * ex_ctx.max_mt_radius < 2 ^ 31 - 1 := by
    simp only [ex_ctx]; exact h3
  rw [suggested_value_in_range h0 hb]
  have hf : ⌊gk * ex_ctx.max_mt_radius⌋ = z := by
    rw [Int.floor_eq_iff]
    simp only [ex_ctx]
    exact ⟨h1, h2⟩
  rw [hf]

/-- C20, counterexample: with `lmax_apw = 8`, radius `2` and `gk_cutoff = 7` the
product is exactly `14`; the warning is issued and reports `15`, although
`lmax = 14` already makes the warning condition `14 > lmax` false. -/
theorem suggested_lmax_not_least :
    (K_point.generate_gkvec ex_ctx ex_kp 7).suggested_lmax = some 15 ∧
      ¬ ((7 : ℚ) * ex_ctx.max_mt_radius > ((14 : Int) : ℚ)) ∧ (14 : Int) < 15 := by
  refine ⟨?_, ?_, by decide⟩
  · exact ex_suggested 7 14 (by norm_num) (by norm_num) (by norm_num) (by norm_num)
  · simp only [ex_ctx]
    norm_num

/-- C20, as the code has it: whenever the lmax warning is issued for a
non-negative `lmax_apw` and a product `gk_cutoff * max_mt_radius` below
`2^31 - 1`, the reported value `int(gk_cutoff * max_mt_radius) + 1` is the
smallest integer strictly greater than the product: it is greater than the
product and at most every integer that is.  So it makes the warning condition
false; it is the smallest integer doing so when the product is not an integer,
and when the product is an integer `z`, that `z` already makes the condition
false and `z + 1` is reported. -/
theorem suggested_lmax_least_above (ctx : gkvec_context) (kp : K_point) (gk : ℚ) (s : Int)
    (hs : (K_point.generate_gkvec ctx kp gk).suggested_lmax = some s)
    (h0 : 0 ≤ ctx.lmax_apw) (hb : gk * ctx.max_mt_radius < 2 ^ 31 - 1) :
    gk * ctx.max_mt_radius < (s : ℚ) ∧
    (∀ l : Int, gk * ctx.max_mt_radius < (l : ℚ) → s ≤ l) ∧
    ¬ (gk * ctx.max_mt_radius > (s : ℚ)) ∧
    ((∀ z : Int, (z : ℚ) ≠ gk * ctx.max_mt_radius) →
      ∀ l : Int, ¬ (gk * ctx.max_mt_radius > (l : ℚ)) → s ≤ l) ∧
    (∀ z : Int, (z : ℚ) = gk * ctx.max_mt_radius →
      ¬ (gk * ctx.max_mt_radius > (z : ℚ)) ∧ s = z + 1) := by
  obtain ⟨⟨-, hw⟩, rfl⟩ := suggested_lmax_some ctx kp gk s hs
  have hl : (0 : ℚ) ≤ (ctx.lmax_apw : ℚ) := by exact_mod_cast h0
  have hx : (0 : ℚ) ≤ gk * ctx.max_mt_radius := le_of_lt (lt_of_le_of_lt hl hw)
  rw [suggested_value_in_range hx hb]
  have habove : ∀ l : Int, gk * ctx.max_mt_radius < (l : ℚ)
      → ⌊gk * ctx.max_mt_radius⌋ + 1 ≤ l := by
    intro l hlt
    have := Int.floor_lt.mpr hlt
    omega
  have hlt : gk * ctx.max_mt_radius < ((⌊gk * ctx.max_mt_radius⌋ + 1 : Int) : ℚ) := by
    have := Int.lt_floor_add_one (gk * ctx.max_mt_radius)
    push_cast
    exact this
  refine ⟨hlt, habove, not_lt.mpr (le_of_lt hlt), ?_, ?_⟩
  · intro hni l hnot
    apply habove
    exact lt_of_le_of_ne (not_lt.mp hnot) (fun h => hni l h.symm)
  · intro z hz
    refine ⟨?_, ?_⟩
    · rw [hz]
      exact lt_irrefl _
    · rw [← hz, Int.floor_intCast]

/-- Witness of C20 as amended: `gk_cutoff = 17/4`, product `17/2`, reported
value `9`, which is above the product and at most every integer above it. -/
theorem suggested_lmax_least_above_witness :
    (K_point.generate_gkvec ex_ctx ex_kp (17 / 4)).suggested_lmax = some 9 ∧
    0 ≤ ex_ctx.lmax_apw ∧
    (17 / 4 : ℚ) * ex_ctx.max_mt_radius < 2 ^ 31 - 1 ∧
    (17 / 4 : ℚ) * ex_ctx.max_mt_radius < ((9 : Int) : ℚ) ∧
    (∀ l : Int, (17 / 4 : ℚ) * ex_ctx.max_mt_radius < (l : ℚ) → 9 ≤ l) :=
  ⟨ex_suggested (17 / 4) 8 (by norm_num) (by norm_num) (by norm_num) (by norm_num),
    by decide, by simp only [ex_ctx]; norm_num,
    (suggested_lmax_least_above ex_ctx ex_kp (17 / 4) 9
      (ex_suggested (17 / 4) 8 (by norm_num) (by norm_num) (by norm_num) (by norm_num))
      (by decide) (by simp only [ex_ctx]; norm_num)).1,
    (suggested_lmax_least_above ex_ctx ex_kp (17 / 4) 9
      (ex_suggested (17 / 4) 8 (by norm_num) (by norm_num) (by norm_num) (by norm_num))
      (by decide) (by simp only [ex_ctx]; norm_num)).2.1⟩

end

section

open Finset Matrix

/-! ## The factorization stored by `initialize` -/

/-- The factors and pivots stored by `initialize` are those that the unblocked
factorization computes from `I + B·Q`. -/
theorem initialize_factors {T : Type} [Field T] [StarRing T] [DecidableEq T] [PivotAbs T]
    (q_op : Q_operator T) (bp : Beta_projectors_base T) (ispn : Int) (fresh : fresh_init T)
    (hp : bp.chunks_partition) (hq : q_op.size_ = bp.num_total_beta) :
    ( InverseS_k.initialize q_op bp ispn fresh).LU.size0 = bp.num_total_beta ∧
    ( InverseS_k.initialize q_op bp ispn fresh).LU.size1 = bp.num_total_beta ∧
    (∀ i t, i < bp.num_total_beta → t < bp.num_total_beta →
      ( InverseS_k.initialize q_op bp ispn fresh).LU.get i t
        = (getf2 bp.num_total_beta bp.num_total_beta
            (of_matrix (small_matrix q_op bp ispn))).A i t) ∧
    (∀ t, t < bp.num_total_beta →
      ( InverseS_k.initialize q_op bp ispn fresh).ipiv t
        = (getf2 bp.num_total_beta bp.num_total_beta
            (of_matrix (small_matrix q_op bp ispn))).ipiv t) := by
  obtain ⟨f0, f1, _⟩ := form_matrix_spec q_op bp ispn fresh hp hq
  have hm := form_matrix_toMatrix q_op bp ispn fresh hp hq
  unfold InverseS_k.initialize InverseS_k.factorize getrf
  simp only [mdarray.ld, mdarray.get, mdarray.idx]
  generalize InverseS_k.form_matrix q_op bp ispn fresh = fm at f0 f1 hm
  rw [f0]
  have hcopy : window (sddk_copy ⟨bp.num_total_beta, fm.size1, fresh.LU⟩ fm).data
      bp.num_total_beta bp.num_total_beta bp.num_total_beta
        = of_matrix (small_matrix q_op bp ispn) := by
    rw [window_eq_of_matrix, ← hm]
    have := sddk_copy_toMatrix ⟨bp.num_total_beta, fm.size1, fresh.LU⟩ fm f0.symm
      bp.num_total_beta bp.num_total_beta f0 f1
    rw [← this]
    rfl
  have hs0 : (sddk_copy ⟨bp.num_total_beta, fm.size1, fresh.LU⟩ fm).size0
      = bp.num_total_beta := rfl
  rw [hs0, hcopy]
  refine ⟨rfl, f1, ?_, ?_⟩
  · intro i t hi ht
    exact store_block_zero _ _ _ _ _ hi ht (le_refl _)
  · intro t ht
    rw [Nat.min_self, if_pos ht]

theorem form_matrix_adds_identity {T : Type} [Field T] [StarRing T] (q_op : Q_operator T)
    (bp : Beta_projectors_base T) (ispn : Int) (fresh : fresh_init T)
    (hp : bp.chunks_partition) :
    ∀ i j, i < bp.num_total_beta → j < bp.num_total_beta →
      (InverseS_k.form_matrix q_op bp ispn fresh).get i j
        = (InverseS_k.product_BQ q_op bp ispn fresh).get i j + (if i = j then 1 else 0) := by
  obtain ⟨b0, -, -⟩ := inner_beta_spec bp fresh hp
  intro i j hi hj
  unfold InverseS_k.form_matrix InverseS_k.product_BQ
  simp only [mdarray.get, mdarray.idx, mdarray.ld]
  rw [axpy_spec _ _ _ _ _ (Nat.succ_pos _)]
  have hsz : (q_op.lmatmul ⟨(inner_beta bp fresh).size0, q_op.size 1, fresh.BQ⟩
      (inner_beta bp fresh) ispn 1 0).size0 = bp.num_total_beta := b0
  rw [hsz]
  by_cases hij : i = j
  · rw [if_pos ((diag_stride hi hj).mpr hij), if_pos hij]
    simp
  · rw [if_neg (fun h => hij ((diag_stride hi hj).mp h)), if_neg hij]
    simp

/-- C15: when the chunks partition the projectors and `Q` is `n × n` with
`n = num_total_beta` (so that `B·Q` is `n × n` with leading dimension `n`), the
matrix that `initialize` factorizes is `B·Q` with one added to its `n` diagonal
entries and to no other entry, that is `I + B·Q` with `B = Beta^H·Beta`, and
the stored `(LU, ipiv)` is its LU factorization with row interchanges: the rows
of `I + B·Q` permuted by the pivots equal `L·U`, with `L` the unit lower
triangle and `U` the upper triangle of `LU`. -/
theorem initialize_stores_lu_of_identity_plus_BQ {T : Type} [Field T] [StarRing T]
    [DecidableEq T] [PivotAbs T] (q_op : Q_operator T) (bp : Beta_projectors_base T)
    (ispn : Int) (fresh : fresh_init T) (hp : bp.chunks_partition)
    (hq : q_op.size_ = bp.num_total_beta) :
    (InverseS_k.product_BQ q_op bp ispn fresh).ld = bp.num_total_beta ∧
    (InverseS_k.product_BQ q_op bp ispn fresh).toMatrix bp.num_total_beta bp.num_total_beta
      = bp.B * q_op.Q ispn bp.num_total_beta ∧
    (∀ i j, i < bp.num_total_beta → j < bp.num_total_beta →
      (InverseS_k.form_matrix q_op bp ispn fresh).get i j
        = (InverseS_k.product_BQ q_op bp ispn fresh).get i j + (if i = j then 1 else 0)) ∧
    (InverseS_k.form_matrix q_op bp ispn fresh).toMatrix bp.num_total_beta bp.num_total_beta
      = 1 + bp.B * q_op.Q ispn bp.num_total_beta ∧
    ∃ e : Equiv.Perm (Fin bp.num_total_beta),
      (∀ i, (e i).val
        = perm_of ( InverseS_k.initialize q_op bp ispn fresh).ipiv bp.num_total_beta i.val) ∧
      (1 + bp.B * q_op.Q ispn bp.num_total_beta).submatrix e id
        = lower_factor bp.num_total_beta ( InverseS_k.initialize q_op bp ispn fresh).LU.get
          * upper_factor bp.num_total_beta ( InverseS_k.initialize q_op bp ispn fresh).LU.get := by
  have hadd := form_matrix_adds_identity q_op bp ispn fresh hp
  have hm := form_matrix_toMatrix q_op bp ispn fresh hp hq
  obtain ⟨-, -, hLU, hpiv⟩ := initialize_factors q_op bp ispn fresh hp hq
  obtain ⟨hfac, hrange⟩ :=
    getf2_factor (of_matrix (small_matrix q_op bp ispn)) bp.num_total_beta
  have hperm : perm_of ( InverseS_k.initialize q_op bp ispn fresh).ipiv bp.num_total_beta
      = perm_of (getf2 bp.num_total_beta bp.num_total_beta
          (of_matrix (small_matrix q_op bp ispn))).ipiv bp.num_total_beta :=
    perm_of_congr _ _ _ hpiv
  obtain ⟨e, he⟩ := perm_fin_exists
    (perm_of (getf2 bp.num_total_beta bp.num_total_beta
      (of_matrix (small_matrix q_op bp ispn))).ipiv bp.num_total_beta) bp.num_total_beta
    (perm_of_lt _ _ _ (le_refl _) (fun t ht => hrange t ht))
  refine ⟨(inner_beta_spec bp fresh hp).1, ?_, hadd, hm, e, ?_, ?_⟩
  · ext i j
    have h1 := congrFun (congrFun hm i) j
    unfold mdarray.toMatrix at h1 ⊢
    rw [hadd i.val j.val i.isLt j.isLt] at h1
    unfold small_matrix at h1
    rw [Matrix.add_apply, Matrix.one_apply, add_comm] at h1
    have h2 : (if i.val = j.val then (1 : T) else 0) = if i = j then 1 else 0 := by
      by_cases hij : i = j
      · rw [if_pos hij, if_pos (congrArg Fin.val hij)]
      · rw [if_neg hij, if_neg (fun h => hij (Fin.ext h))]
    rw [h2] at h1
    exact add_left_cancel h1
  · intro i
    rw [hperm]
    exact he i
  · ext i k
    rw [Matrix.submatrix_apply, Matrix.mul_apply, id]
    have h1 := hfac i.val k.val i.isLt k.isLt
    rw [← he i] at h1
    have h2 : of_matrix (small_matrix q_op bp ispn) (e i).val k.val
        = (1 + bp.B * q_op.Q ispn bp.num_total_beta) (e i) k := by
      unfold of_matrix
      rw [dif_pos ⟨(e i).isLt, k.isLt⟩]
      rfl
    rw [← h2, h1]
    rw [← Fin.sum_univ_eq_sum_range
      (fun t => (if t < i.val then
          (getf2 bp.num_total_beta bp.num_total_beta
            (of_matrix (small_matrix q_op bp ispn))).A i.val t
          else if t = i.val then 1 else 0)
        * (if t ≤ k.val then
          (getf2 bp.num_total_beta bp.num_total_beta
            (of_matrix (small_matrix q_op bp ispn))).A t k.val else 0)) bp.num_total_beta]
    apply Finset.sum_congr rfl
    intro t _
    unfold lower_factor upper_factor
    congr 1
    · by_cases c1 : t.val < i.val
      · rw [if_pos c1, if_pos c1, hLU i.val t.val i.isLt t.isLt]
      · rw [if_neg c1, if_neg c1]
    · by_cases c2 : t.val ≤ k.val
      · rw [if_pos c2, if_pos c2, hLU t.val k.val t.isLt k.isLt]
      · rw [if_neg c2, if_neg c2]

/-- Witness of C15 on the concrete configuration. -/
theorem initialize_stores_lu_of_identity_plus_BQ_witness :
    ex_bp.chunks_partition ∧ ex_q.size_ = ex_bp.num_total_beta ∧
    (InverseS_k.form_matrix ex_q ex_bp 0 ex_finit).toMatrix ex_bp.num_total_beta
        ex_bp.num_total_beta
      = 1 + ex_bp.B * ex_q.Q 0 ex_bp.num_total_beta :=
  ⟨ex_partition, rfl,
    (initialize_stores_lu_of_identity_plus_BQ ex_q ex_bp 0 ex_finit ex_partition rfl).2.2.2.1⟩

end

section

open Finset

/-! ## Step (a): every entry of `bphi` is written once -/

theorem foldl_fst {α β γ : Type} (f : β → α → β) (g : β × γ → α → β × γ)
    (h : ∀ s a, (g s a).1 = f s.1 a) (l : List α) :
    ∀ s, (l.foldl g s).1 = l.foldl f s.1 := by
  induction l with
  | nil => intro s; rfl
  | cons a l ih =>
    intro s
    rw [List.foldl_cons, List.foldl_cons, ih, h]

theorem copy_band_traced_snd {T : Type} (loc : mdarray T) (off : Nat)
    (st : mdarray T × (Nat → Nat)) (lbnd a : Nat) :
    (copy_band_traced loc off st lbnd).2 a
      = if copy_band_writes loc off st.1 lbnd a then st.2 a + 1 else st.2 a := rfl

theorem band_loop_traced_fst {T : Type} (loc : mdarray T) (off : Nat) (b : mdarray T)
    (w : Nat → Nat) (n : Nat) :
    ((List.range n).foldl (copy_band_traced loc off) (b, w)).1
      = (List.range n).foldl (copy_band loc off) b :=
  foldl_fst (copy_band loc off) (copy_band_traced loc off) (fun _ _ => rfl) _ (b, w)

theorem band_loop_traced_spec {T : Type} (loc : mdarray T) (off : Nat) (b : mdarray T)
    (w : Nat → Nat) (hfit : off + loc.size0 ≤ b.size0) (n : Nat) :
    ∀ row col, row < b.size0 →
      ((List.range n).foldl (copy_band_traced loc off) (b, w)).2 (row + col * b.size0)
        = w (row + col * b.size0)
          + if off ≤ row ∧ row < off + loc.size0 ∧ col < n then 1 else 0 := by
  induction n with
  | zero =>
    intro row col _
    simp
  | succ n ih =>
    intro row col hrow
    rw [List.range_succ, List.foldl_append]
    simp only [List.foldl_cons, List.foldl_nil]
    rw [copy_band_traced_snd, band_loop_traced_fst, ih row col hrow]
    have hsz := (band_loop_spec loc off b hfit n).1
    have key := band_range_iff n col hrow hfit
    unfold copy_band_writes mdarray.idx mdarray.ld
    simp only [hsz]
    by_cases hc : col = n ∧ off ≤ row ∧ row < off + loc.size0
    · rw [if_pos (key.mpr hc)]
      obtain ⟨rfl, h1, h2⟩ := hc
      have c1 : ¬ (off ≤ row ∧ row < off + loc.size0 ∧ col < col) := fun h => lt_irrefl _ h.2.2
      have c2 : off ≤ row ∧ row < off + loc.size0 ∧ col < col + 1 :=
        ⟨h1, h2, Nat.lt_succ_self _⟩
      rw [if_neg c1, if_pos c2]
    · rw [if_neg (fun h => hc (key.mp h))]
      by_cases h3 : off ≤ row ∧ row < off + loc.size0 ∧ col < n
      · have c2 : off ≤ row ∧ row < off + loc.size0 ∧ col < n + 1 :=
          ⟨h3.1, h3.2.1, Nat.lt_succ_of_lt h3.2.2⟩
        rw [if_pos h3, if_pos c2]
      · have c2 : ¬ (off ≤ row ∧ row < off + loc.size0 ∧ col < n + 1) := by
          rintro ⟨h4, h5, h6⟩
          rcases Nat.lt_succ_iff_lt_or_eq.mp h6 with h7 | h7
          · exact h3 ⟨h4, h5, h7⟩
          · exact hc ⟨h7, h4, h5⟩
        rw [if_neg h3, if_neg c2]

theorem bphi_step_traced_fst {T : Type} [Field T] [StarRing T] (bp : Beta_projectors_base T)
    (X : mdarray T) (nbnd : Nat) (fresh : fresh_memory T)
    (st : (beta_projectors_coeffs_t T × mdarray T) × (Nat → Nat)) (s : Nat) :
    (bphi_step_traced bp X nbnd fresh st s).1 = bphi_step bp X nbnd fresh st.1 s := by
  unfold bphi_step_traced bphi_step
  simp only
  rw [band_loop_traced_fst]

theorem bphi_step_traced_spec {T : Type} [Field T] [StarRing T] (bp : Beta_projectors_base T)
    (X : mdarray T) (nbnd : Nat) (fresh : fresh_memory T)
    (st : (beta_projectors_coeffs_t T × mdarray T) × (Nat → Nat)) (s : Nat) (c : beta_chunk_t)
    (hc : bp.beta_chunks.getD s ⟨0, 0⟩ = c) (hfit : c.offset_ + c.num_beta_ ≤ st.1.2.size0) :
    ∀ row col, row < st.1.2.size0 →
      (bphi_step_traced bp X nbnd fresh st s).2 (row + col * st.1.2.size0)
        = st.2 (row + col * st.1.2.size0)
          + if c.offset_ ≤ row ∧ row < c.offset_ + c.num_beta_ ∧ col < nbnd then 1 else 0 := by
  intro row col hrow
  unfold bphi_step_traced
  simp only
  rw [generate_chunk, hc]
  have hsz : (inner (bp.generate st.1.1 s) X 0 nbnd (fresh.bphi_loc s)).size0 = c.num_beta_ := by
    rw [inner_size0, generate_size1, hc]
  rw [band_loop_traced_spec _ c.offset_ st.1.2 st.2 (by rw [hsz]; exact hfit) nbnd row col hrow,
    hsz]

theorem covers_iff (c : beta_chunk_t) (r : Nat) :
    c.covers r = true ↔ (c.offset_ ≤ r ∧ r < c.offset_ + c.num_beta_) := by
  unfold beta_chunk_t.covers
  exact decide_eq_true_iff

theorem countP_covers_cons (c : beta_chunk_t) (cs : List beta_chunk_t) (r : Nat) :
    (c :: cs).countP (fun c => c.covers r)
      = cs.countP (fun c => c.covers r)
        + if c.offset_ ≤ r ∧ r < c.offset_ + c.num_beta_ then 1 else 0 := by
  rw [List.countP_cons]
  by_cases h : c.offset_ ≤ r ∧ r < c.offset_ + c.num_beta_
  · rw [if_pos ((covers_iff c r).mpr h), if_pos h]
  · rw [if_neg (fun h' => h ((covers_iff c r).mp h')), if_neg h]

/-- The chunk loop of step (a) over chunks whose ranges lie in the buffer:
the counter of entry `(row, col)` goes up by the number of chunks covering
`row`, and the entry holds `Beta^H·X` as soon as one chunk covers `row`. -/
theorem bphi_chunks_traced_spec {T : Type} [Field T] [StarRing T] (bp : Beta_projectors_base T)
    (X : mdarray T) (nbnd : Nat) (fresh : fresh_memory T) (N : Nat) :
    ∀ (cs : List beta_chunk_t) (s : Nat)
      (st : (beta_projectors_coeffs_t T × mdarray T) × (Nat → Nat)),
      bp.beta_chunks.drop s = cs → (∀ c ∈ cs, c.offset_ + c.num_beta_ ≤ N) → st.1.2.size0 = N →
      ((List.range' s cs.length).foldl (bphi_step_traced bp X nbnd fresh) st).1
        = (List.range' s cs.length).foldl (bphi_step bp X nbnd fresh) st.1 ∧
      ((List.range' s cs.length).foldl (bphi_step bp X nbnd fresh) st.1).2.size0 = N ∧
      ((List.range' s cs.length).foldl (bphi_step bp X nbnd fresh) st.1).2.size1
        = st.1.2.size1 ∧
      ∀ row col, row < N →
        ((List.range' s cs.length).foldl (bphi_step_traced bp X nbnd fresh) st).2 (row + col * N)
          = st.2 (row + col * N)
            + (if col < nbnd then cs.countP (fun c => c.covers row) else 0) ∧
        ((List.range' s cs.length).foldl (bphi_step bp X nbnd fresh) st.1).2.get row col
          = if 0 < cs.countP (fun c => c.covers row) ∧ col < nbnd then BHX bp X row col
            else st.1.2.get row col := by
  intro cs
  induction cs with
  | nil =>
    intro s st _ _ hN
    simp only [List.length_nil, List.range'_zero, List.foldl_nil, List.countP_nil]
    refine ⟨trivial, hN, trivial, ?_⟩
    intro row col _
    have c1 : ¬ ((0 : Nat) < 0 ∧ col < nbnd) := fun h => lt_irrefl _ h.1
    rw [if_neg c1]
    simp
  | cons c cs ih =>
    intro s st hdrop hfit hN
    obtain ⟨hget, hdrop'⟩ := drop_cons_getD ⟨0, 0⟩ hdrop
    have hfc : c.offset_ + c.num_beta_ ≤ N := hfit c (List.mem_cons_self _ _)
    have hfit' : ∀ c' ∈ cs, c'.offset_ + c'.num_beta_ ≤ N :=
      fun c' hc' => hfit c' (List.mem_cons_of_mem _ hc')
    obtain ⟨s0, s1, s2⟩ := bphi_step_spec bp X nbnd fresh st.1 s c hget (by rw [hN]; exact hfc)
    have t1 := bphi_step_traced_fst bp X nbnd fresh st s
    have t2 := bphi_step_traced_spec bp X nbnd fresh st s c hget (by rw [hN]; exact hfc)
    obtain ⟨i0, i1, i2, i3⟩ := ih (s + 1) (bphi_step_traced bp X nbnd fresh st s) hdrop' hfit'
      (by rw [t1, s0, hN])
    simp only [List.length_cons, List.range'_succ, List.foldl_cons]
    rw [t1] at i0 i1 i2 i3
    refine ⟨i0, i1, by rw [i2, s1], ?_⟩
    intro row col hrow
    obtain ⟨j1, j2⟩ := i3 row col hrow
    have t2' := t2 row col (by rw [hN]; exact hrow)
    rw [hN] at t2'
    rw [j1, j2, t2', s2 row col (by rw [hN]; exact hrow), countP_covers_cons]
    constructor
    · by_cases hcol : col < nbnd
      · rw [if_pos hcol, if_pos hcol]
        by_cases hcov : c.offset_ ≤ row ∧ row < c.offset_ + c.num_beta_
        · have c1 : c.offset_ ≤ row ∧ row < c.offset_ + c.num_beta_ ∧ col < nbnd :=
            ⟨hcov.1, hcov.2, hcol⟩
          rw [if_pos hcov, if_pos c1]
          omega
        · have c1 : ¬ (c.offset_ ≤ row ∧ row < c.offset_ + c.num_beta_ ∧ col < nbnd) :=
            fun h => hcov ⟨h.1, h.2.1⟩
          rw [if_neg hcov, if_neg c1]
          omega
      · have c1 : ¬ (c.offset_ ≤ row ∧ row < c.offset_ + c.num_beta_ ∧ col < nbnd) :=
          fun h => hcol h.2.2
        rw [if_neg hcol, if_neg hcol, if_neg c1]
    · by_cases hrest : 0 < cs.countP (fun c => c.covers row) ∧ col < nbnd
      · have c1 : 0 < cs.countP (fun c => c.covers row)
            + (if c.offset_ ≤ row ∧ row < c.offset_ + c.num_beta_ then 1 else 0)
            ∧ col < nbnd := ⟨Nat.lt_of_lt_of_le hrest.1 (Nat.le_add_right _ _), hrest.2⟩
        rw [if_pos hrest, if_pos c1]
      · rw [if_neg hrest]
        by_cases hcov : c.offset_ ≤ row ∧ row < c.offset_ + c.num_beta_ ∧ col < nbnd
        · have c2 : c.offset_ ≤ row ∧ row < c.offset_ + c.num_beta_ := ⟨hcov.1, hcov.2.1⟩
          have c1 : 0 < cs.countP (fun c => c.covers row)
              + (if c.offset_ ≤ row ∧ row < c.offset_ + c.num_beta_ then 1 else 0)
              ∧ col < nbnd := by
            rw [if_pos c2]
            exact ⟨Nat.succ_pos _, hcov.2.2⟩
          rw [if_pos hcov, if_pos c1]
        · rw [if_neg hcov]
          have c1 : ¬ (0 < cs.countP (fun c => c.covers row)
              + (if c.offset_ ≤ row ∧ row < c.offset_ + c.num_beta_ then 1 else 0)
              ∧ col < nbnd) := by
            rintro ⟨h1, h2⟩
            by_cases c2 : c.offset_ ≤ row ∧ row < c.offset_ + c.num_beta_
            · exact hcov ⟨c2.1, c2.2, h2⟩
            · rw [if_neg c2, Nat.add_zero] at h1
              exact hrest ⟨h1, h2⟩
          rw [if_neg c1]

/-- An ordered partition, chunk after chunk from `off`, is a partition of the
rows `off .. N - 1` by ranges. -/
theorem partition_from_ranges {off N : Nat} {cs : List beta_chunk_t}
    (h : partition_from off cs N) :
    (∀ c ∈ cs, c.offset_ + c.num_beta_ ≤ N) ∧
      ∀ r, r < N → cs.countP (fun c => c.covers r) = if off ≤ r then 1 else 0 := by
  induction cs generalizing off with
  | nil =>
    refine ⟨fun c hc => absurd hc (List.not_mem_nil c), ?_⟩
    intro r hr
    have : off = N := h
    have c1 : ¬ off ≤ r := by omega
    rw [if_neg c1, List.countP_nil]
  | cons c cs ih =>
    obtain ⟨hoff, hp⟩ := h
    obtain ⟨i1, i2⟩ := ih hp
    have hle := partition_from_le hp
    refine ⟨?_, ?_⟩
    · intro c' hc'
      rcases List.mem_cons.mp hc' with h1 | h1
      · rw [h1, hoff]; exact hle
      · exact i1 c' h1
    · intro r hr
      rw [countP_covers_cons, i2 r hr, hoff]
      by_cases h1 : off + c.num_beta_ ≤ r
      · have c1 : ¬ (off ≤ r ∧ r < off + c.num_beta_) := by omega
        have c2 : off ≤ r := by omega
        rw [if_pos h1, if_neg c1, if_pos c2]
      · rw [if_neg h1]
        by_cases h2 : off ≤ r
        · have c1 : off ≤ r ∧ r < off + c.num_beta_ := by omega
          rw [if_pos c1, if_pos h2]
        · have c1 : ¬ (off ≤ r ∧ r < off + c.num_beta_) := fun h => h2 h.1
          rw [if_neg c1, if_neg h2]

theorem ranges_partition_of_chunks_partition {T : Type} (bp : Beta_projectors_base T)
    (h : bp.chunks_partition) : bp.ranges_partition := by
  obtain ⟨h1, h2⟩ := partition_from_ranges h
  refine ⟨h1, ?_⟩
  intro r hr
  rw [h2 r hr, if_pos (Nat.zero_le _)]

theorem ex_swapped_partition : ex_bp_swapped.ranges_partition := by
  refine ⟨by decide, ?_⟩
  intro r hr
  have h2 : r < 2 := hr
  interval_cases r
  · rfl
  · rfl

/-- C16: if the row ranges of the chunks partition `0 .. num_total_beta - 1`
(no gaps, no overlaps, in any order), then the chunk loop of step (a), run with
a write counter on a buffer `bphi` of `num_total_beta` rows and arbitrary
content, is the loop of `apply`, writes every entry `(r, b)` with
`r < num_beta` and `b < nbnd` exactly once, and leaves `(Beta^H·X)(r, b)`
there. -/
theorem bphi_written_once {T : Type} [Field T] [StarRing T] (bp : Beta_projectors_base T)
    (X : mdarray T) (nbnd : Nat) (fresh : fresh_memory T) (bc : beta_projectors_coeffs_t T)
    (bphi : mdarray T) (hp : bp.ranges_partition) (hN : bphi.size0 = bp.num_total_beta) :
    (bphi_loop_traced bp X nbnd fresh bc bphi).1 = bphi_loop bp X nbnd fresh bc bphi ∧
    ∀ row col, row < bp.num_total_beta → col < nbnd →
      (bphi_loop_traced bp X nbnd fresh bc bphi).2 (bphi.idx row col) = 1 ∧
      (bphi_loop bp X nbnd fresh bc bphi).2.get row col
        = ∑ g in range bp.num_gkvec_loc, star (bp.pw_coeffs_all g row) * X.get g col := by
  unfold bphi_loop_traced bphi_loop Beta_projectors_base.num_chunks
  rw [List.range_eq_range']
  obtain ⟨h0, -, -, h3⟩ := bphi_chunks_traced_spec bp X nbnd fresh bp.num_total_beta
    bp.beta_chunks 0 ((bc, bphi), fun _ => 0) rfl hp.1 hN
  refine ⟨h0, ?_⟩
  intro row col hrow hcol
  obtain ⟨j1, j2⟩ := h3 row col hrow
  have hcnt := hp.2 row hrow
  constructor
  · unfold mdarray.idx mdarray.ld
    rw [hN, j1, if_pos hcol, hcnt]
  · have c1 : 0 < bp.beta_chunks.countP (fun c => c.covers row) ∧ col < nbnd := by
      rw [hcnt]
      exact ⟨Nat.one_pos, hcol⟩
    rw [j2, if_pos c1]
    rfl

/-- Witness of C16: the two chunks in the opposite order, one band. -/
theorem bphi_written_once_witness :
    ex_bp_swapped.ranges_partition ∧
    (bphi_loop_traced ex_bp_swapped ex_X 1 ex_fresh (ex_bp_swapped.prepare ex_fresh.beta)
        ⟨2, 1, ex_fresh.bphi⟩).2 1 = 1 :=
  ⟨ex_swapped_partition,
    ((bphi_written_once ex_bp_swapped ex_X 1 ex_fresh (ex_bp_swapped.prepare ex_fresh.beta)
      ⟨2, 1, ex_fresh.bphi⟩ ex_swapped_partition rfl).2 1 0 (by decide) (by decide)).1⟩

/-! ## Step (d): the term added for one chunk -/

/-- C17: in step (d), for chunk `s` with descriptor `c` and an output `Y` with
one row per G-vector, the inner dimension `k` of the multiplication is the
projector count of the chunk, and the term added to `Y(i, j)` is
`Σ_{l < nbeta_c} Beta(i, offset_c + l) · R(offset_c + l, j)`.  The result does
not depend on what the reused coefficient buffer held before `generate`, nor
on the rows of `R` that belong to other chunks. -/
theorem accumulate_step_adds_chunk_term {T : Type} [Field T] (bp : Beta_projectors_base T)
    (R : mdarray T) (st : beta_projectors_coeffs_t T × mdarray T) (s : Nat) (c : beta_chunk_t)
    (hc : bp.beta_chunks.getD s ⟨0, 0⟩ = c) (hm : st.2.size0 = bp.num_gkvec_loc) :
    (bp.generate st.1 s).pw_coeffs_a.size1 = c.num_beta_ ∧
    (bp.generate st.1 s).beta_chunk.offset_ = c.offset_ ∧
    (∀ i j, i < st.2.size0 → j < st.2.size1 →
      (accumulate_step bp R st s).2.get i j
        = st.2.get i j
          + ∑ l in range c.num_beta_,
              bp.pw_coeffs_all i (c.offset_ + l) * R.get (c.offset_ + l) j) ∧
    (∀ (stale : beta_projectors_coeffs_t T) i j, i < st.2.size0 → j < st.2.size1 →
      (accumulate_step bp R (stale, st.2) s).2.get i j
        = (accumulate_step bp R st s).2.get i j) ∧
    (∀ (R' : mdarray T),
      (∀ l j, l < c.num_beta_ → j < st.2.size1 →
        R'.get (c.offset_ + l) j = R.get (c.offset_ + l) j) →
      ∀ i j, i < st.2.size0 → j < st.2.size1 →
        (accumulate_step bp R' st s).2.get i j = (accumulate_step bp R st s).2.get i j) := by
  obtain ⟨-, -, h⟩ := accumulate_step_spec bp R st s c hc hm
  refine ⟨by rw [generate_size1, hc], by rw [generate_chunk, hc], h, ?_, ?_⟩
  · intro stale i j hi hj
    obtain ⟨-, -, h'⟩ := accumulate_step_spec bp R (stale, st.2) s c hc hm
    rw [h' i j hi hj, h i j hi hj]
  · intro R' hR i j hi hj
    obtain ⟨-, -, h'⟩ := accumulate_step_spec bp R' st s c hc hm
    rw [h' i j hi hj, h i j hi hj]
    congr 1
    apply Finset.sum_congr rfl
    intro l hl
    rw [hR l j (Finset.mem_range.mp hl) hj]

/-- Witness of C17: the second chunk of the concrete configuration, added to a
copy of `X`, with `R = X`. -/
theorem accumulate_step_adds_chunk_term_witness :
    ex_bp.beta_chunks.getD 1 ⟨0, 0⟩ = ⟨1, 1⟩ ∧ ex_X.size0 = ex_bp.num_gkvec_loc ∧
    (ex_bp.generate (ex_bp.prepare ex_fresh.beta) 1).pw_coeffs_a.size1 = 1 :=
  ⟨rfl, rfl,
    (accumulate_step_adds_chunk_term ex_bp ex_X (ex_bp.prepare ex_fresh.beta, ex_X) 1 ⟨1, 1⟩
      rfl rfl).1⟩

/-! ## The band loop of step (a): disjoint writes -/

theorem copy_band_data {T : Type} (loc : mdarray T) (off : Nat) (b : mdarray T) (lbnd a : Nat) :
    (copy_band loc off b lbnd).data a
      = if copy_band_writes loc off b lbnd a then loc.ptr 0 lbnd (a - b.idx off lbnd)
        else b.data a := rfl

theorem copy_band_eq {T : Type} (loc : mdarray T) (off : Nat) (b : mdarray T) (lbnd : Nat) :
    copy_band loc off b lbnd = ⟨b.size0, b.size1, (copy_band loc off b lbnd).data⟩ := rfl

/-- The write ranges of two different bands do not meet, when a column of
`bphi_loc` is not longer than a column of `bphi`. -/
theorem copy_band_writes_disjoint {T : Type} (loc : mdarray T) (off : Nat) (b b' : mdarray T)
    (hs : b'.size0 = b.size0) (hfit : loc.size0 ≤ b.size0) {l l' : Nat} (hne : l ≠ l') (a : Nat) :
    ¬ (copy_band_writes loc off b l a ∧ copy_band_writes loc off b' l' a) := by
  unfold copy_band_writes mdarray.idx mdarray.ld
  rw [hs]
  rintro ⟨⟨h1, h2⟩, h3, h4⟩
  rcases Nat.lt_or_gt_of_ne hne with h | h
  · have := Nat.mul_le_mul_right b.size0 (Nat.succ_le_of_lt h)
    rw [Nat.succ_mul] at this
    omega
  · have := Nat.mul_le_mul_right b.size0 (Nat.succ_le_of_lt h)
    rw [Nat.succ_mul] at this
    omega

theorem copy_band_comm {T : Type} (loc : mdarray T) (off : Nat) (z : mdarray T)
    (hfit : loc.size0 ≤ z.size0) (x y : Nat) :
    copy_band loc off (copy_band loc off z x) y = copy_band loc off (copy_band loc off z y) x := by
  by_cases hxy : x = y
  · rw [hxy]
  rw [copy_band_eq loc off (copy_band loc off z x) y, copy_band_eq loc off (copy_band loc off z y) x]
  have hd : (copy_band loc off (copy_band loc off z x) y).data
      = (copy_band loc off (copy_band loc off z y) x).data := by
    funext a
    rw [copy_band_data, copy_band_data, copy_band_data, copy_band_data]
    have e1 : ∀ l a, copy_band_writes loc off (copy_band loc off z x) l a
        ↔ copy_band_writes loc off z l a := fun _ _ => Iff.rfl
    have e2 : ∀ l a, copy_band_writes loc off (copy_band loc off z y) l a
        ↔ copy_band_writes loc off z l a := fun _ _ => Iff.rfl
    have i1 : ∀ l, (copy_band loc off z x).idx off l = z.idx off l := fun _ => rfl
    have i2 : ∀ l, (copy_band loc off z y).idx off l = z.idx off l := fun _ => rfl
    by_cases hx : copy_band_writes loc off z x a
    · have hy : ¬ copy_band_writes loc off z y a :=
        fun h => copy_band_writes_disjoint loc off z z rfl hfit hxy a ⟨hx, h⟩
      rw [if_neg ((e1 y a).not.mpr hy), if_pos hx, if_pos ((e2 x a).mpr hx), i2]
    · rw [if_neg ((e2 x a).not.mpr hx), if_neg hx]
      by_cases hy : copy_band_writes loc off z y a
      · rw [if_pos ((e1 y a).mpr hy), if_pos hy, i1]
      · rw [if_neg ((e1 y a).not.mpr hy), if_neg hy]
  rw [hd]
  rfl

/-- The band loop run in any order of its iterations gives the same array. -/
theorem band_loop_perm {T : Type} (loc : mdarray T) (off : Nat) (S : Nat)
    (hfit : loc.size0 ≤ S) {l₁ l₂ : List Nat} (hperm : l₁.Perm l₂) :
    ∀ z : mdarray T, z.size0 = S →
      l₁.foldl (copy_band loc off) z = l₂.foldl (copy_band loc off) z := by
  induction hperm with
  | nil => intro z _; rfl
  | cons x _ ih =>
    intro z hz
    rw [List.foldl_cons, List.foldl_cons]
    exact ih _ (by rw [copy_band_size0, hz])
  | swap x y l =>
    intro z hz
    rw [List.foldl_cons, List.foldl_cons, List.foldl_cons, List.foldl_cons,
      copy_band_comm loc off z (by rw [hz]; exact hfit) y x]
  | trans _ _ ih₁ ih₂ =>
    intro z hz
    rw [ih₁ z hz, ih₂ z hz]

theorem copy_band_reads_column {T : Type} (loc loc' : mdarray T) (off : Nat) (b : mdarray T)
    (lbnd : Nat) (hs : loc'.size0 = loc.size0)
    (hcol : ∀ t, t < loc.size0 → loc'.get t lbnd = loc.get t lbnd) :
    copy_band loc' off b lbnd = copy_band loc off b lbnd := by
  rw [copy_band_eq loc' off b lbnd, copy_band_eq loc off b lbnd]
  have hd : (copy_band loc' off b lbnd).data = (copy_band loc off b lbnd).data := by
    funext a
    rw [copy_band_data, copy_band_data]
    have e : copy_band_writes loc' off b lbnd a ↔ copy_band_writes loc off b lbnd a := by
      unfold copy_band_writes
      rw [hs]
    by_cases hw : copy_band_writes loc off b lbnd a
    · rw [if_pos (e.mpr hw), if_pos hw]
      have ht : a - b.idx off lbnd < loc.size0 := by
        unfold copy_band_writes at hw
        omega
      have := hcol _ ht
      unfold mdarray.get mdarray.idx mdarray.ld at this
      unfold mdarray.ptr mdarray.idx mdarray.ld
      rw [hs] at this ⊢
      rw [Nat.zero_add, Nat.add_comm (lbnd * loc.size0), this]
    · rw [if_neg (e.not.mpr hw), if_neg hw]
  rw [hd]

/-- C18: in the band loop of step (a), with the chunk rows inside the buffer
(`beta_offset + bphi_loc.size(0) ≤ bphi.size(0)`), the iteration for band `lbnd`
changes no storage position outside its write range, which is the entries
`bphi(beta_offset .. beta_offset + bphi_loc.size(0) - 1, lbnd)`; it reads only
column `lbnd` of `bphi_loc`; the write ranges of two different iterations are
disjoint; and running the iterations in any order gives the same `bphi`. -/
theorem band_iterations_independent {T : Type} (bphi_loc : mdarray T) (beta_offset : Nat)
    (bphi : mdarray T) (hfit : beta_offset + bphi_loc.size0 ≤ bphi.size0) :
    (∀ lbnd a, ¬ copy_band_writes bphi_loc beta_offset bphi lbnd a →
      (copy_band bphi_loc beta_offset bphi lbnd).data a = bphi.data a) ∧
    (∀ lbnd a, copy_band_writes bphi_loc beta_offset bphi lbnd a ↔
      ∃ r, beta_offset ≤ r ∧ r < beta_offset + bphi_loc.size0 ∧ r < bphi.size0 ∧
        a = bphi.idx r lbnd) ∧
    (∀ lbnd (other : mdarray T), other.size0 = bphi_loc.size0 →
      (∀ t, t < bphi_loc.size0 → other.get t lbnd = bphi_loc.get t lbnd) →
      copy_band other beta_offset bphi lbnd = copy_band bphi_loc beta_offset bphi lbnd) ∧
    (∀ l l', l ≠ l' → ∀ a, ¬ (copy_band_writes bphi_loc beta_offset bphi l a
      ∧ copy_band_writes bphi_loc beta_offset bphi l' a)) ∧
    (∀ (nbnd : Nat) (order : List Nat), order.Perm (List.range nbnd) →
      order.foldl (copy_band bphi_loc beta_offset) bphi
        = (List.range nbnd).foldl (copy_band bphi_loc beta_offset) bphi) := by
  have hle : bphi_loc.size0 ≤ bphi.size0 := le_trans (Nat.le_add_left _ _) hfit
  refine ⟨?_, ?_, ?_, ?_, ?_⟩
  · intro lbnd a hw
    rw [copy_band_data, if_neg hw]
  · intro lbnd a
    unfold copy_band_writes mdarray.idx mdarray.ld
    constructor
    · rintro ⟨h1, h2⟩
      refine ⟨a - lbnd * bphi.size0, ?_, ?_, ?_, ?_⟩ <;> omega
    · rintro ⟨r, h1, h2, -, rfl⟩
      omega
  · intro lbnd other hs hcol
    exact copy_band_reads_column bphi_loc other beta_offset bphi lbnd hs hcol
  · intro l l' hne a
    exact copy_band_writes_disjoint bphi_loc beta_offset bphi bphi rfl hle hne a
  · intro nbnd order hperm
    exact band_loop_perm bphi_loc beta_offset bphi.size0 hle hperm bphi rfl

/-- Witness of C18: a chunk of one row copied at row `1` of a buffer of two
rows; the two bands in the opposite order give the same array. -/
theorem band_iterations_independent_witness :
    (1 + (mdarray.mk 1 2 (fun a => (a : ℚ))).size0 ≤ (mdarray.mk 2 2 (fun _ => (0 : ℚ))).size0) ∧
    [1, 0].foldl (copy_band (mdarray.mk 1 2 (fun a => (a : ℚ))) 1) (mdarray.mk 2 2 (fun _ => 0))
      = (List.range 2).foldl (copy_band (mdarray.mk 1 2 (fun a => (a : ℚ))) 1)
          (mdarray.mk 2 2 (fun _ => 0)) :=
  ⟨by decide,
    (band_iterations_independent (mdarray.mk 1 2 (fun a => (a : ℚ))) 1
      (mdarray.mk 2 2 (fun _ => 0)) (by decide)).2.2.2.2 2 [1, 0] (by decide)⟩

/-! ## `transform`: independence of the process grid -/

/-- Reading a distributed mathematical matrix at a global index gives the
element of the matrix, on every grid with positive block sizes. -/
theorem distribute_elem {T : Type} (grid : block_cyclic) (M N : Nat) (A : Nat → Nat → T)
    (hr : 0 < grid.bs_row) (hc : 0 < grid.bs_col) (i j : Nat) :
    (dmatrix.distribute grid M N A).elem i j = A i j := by
  unfold dmatrix.elem dmatrix.distribute
  simp only
  have h : grid.global ((grid.locate (i, j)).1, (grid.locate (i, j)).2) = (i, j) :=
    global_locate_2d grid hr hc (i, j)
  rw [h]

/-- The result of `transform` depends on the distributed matrix only through
its global elements. -/
theorem transform_congr {T : Type} [Field T] (wf_in : mdarray T) (i0 m : Nat)
    (D D' : dmatrix T) (irow0 jcol0 : Nat) (wf_out : mdarray T) (j0 n : Nat)
    (h : ∀ i j, D.elem i j = D'.elem i j) :
    transform wf_in i0 m D irow0 jcol0 wf_out j0 n
      = transform wf_in i0 m D' irow0 jcol0 wf_out j0 n := by
  unfold transform
  have hg : (fun a => D.elem (irow0 + a % m) (jcol0 + a / m))
      = (fun a => D'.elem (irow0 + a % m) (jcol0 + a / m)) := by
    funext a
    exact h _ _
  simp only [hg]

/-- The columns written by `transform` hold the product of the source band
block with the mathematical matrix. -/
theorem transform_get {T : Type} [Field T] (wf_in : mdarray T) (i0 m : Nat)
    (grid : block_cyclic) (M N : Nat) (A : Nat → Nat → T) (hr : 0 < grid.bs_row)
    (hc : 0 < grid.bs_col) (irow0 jcol0 : Nat) (wf_out : mdarray T) (j0 n : Nat)
    (hrows : wf_in.size0 ≤ wf_out.size0) {g j : Nat} (hg : g < wf_in.size0) (hj : j < n) :
    (transform wf_in i0 m (dmatrix.distribute grid M N A) irow0 jcol0 wf_out j0 n).get g (j0 + j)
      = ∑ i in range m, wf_in.get g (i0 + i) * A (irow0 + i) (jcol0 + j) := by
  unfold transform mdarray.get mdarray.idx mdarray.ld gemm_NN
  simp only
  rw [store_block_inside _ _ _ _ _ _ _ (lt_of_lt_of_le hg hrows) (Nat.zero_le _)
    (by rw [Nat.zero_add]; exact hg) (Nat.le_add_right _ _) (Nat.add_lt_add_left hj _)]
  rw [zero_mul, add_zero, one_mul, Nat.sub_zero, Nat.add_sub_cancel_left]
  apply Finset.sum_congr rfl
  intro i hi
  have hi' := Finset.mem_range.mp hi
  rw [distribute_elem grid M N A hr hc]
  have h1 : (i + j * m) % m = i := idx_mod j hi'
  have h2 : (i + j * m) / m = j := idx_div j hi'
  rw [h1, h2]
  unfold mdarray.ptr mdarray.idx mdarray.ld
  congr 2
  ring

/-- C14: for a fixed source band block and a fixed mathematical matrix `A`,
`transform` gives the same destination array whether `A` is distributed on a
`1 × 1` process grid or on a `P × Q` grid, for all positive block sizes of the
two distributions; the written columns hold the product of the source block
with `A`. -/
theorem transform_grid_invariant {T : Type} [Field T] (wf_in wf_out : mdarray T)
    (i0 m irow0 jcol0 j0 n M N : Nat) (A : Nat → Nat → T)
    (bs_row bs_col bs_row' bs_col' P Q : Nat) (h1 : 0 < bs_row) (h2 : 0 < bs_col)
    (h3 : 0 < bs_row') (h4 : 0 < bs_col') :
    transform wf_in i0 m (dmatrix.distribute (block_cyclic.mk bs_row bs_col 1 1) M N A)
        irow0 jcol0 wf_out j0 n
      = transform wf_in i0 m (dmatrix.distribute (block_cyclic.mk bs_row' bs_col' P Q) M N A)
        irow0 jcol0 wf_out j0 n ∧
    (wf_in.size0 ≤ wf_out.size0 → ∀ g j, g < wf_in.size0 → j < n →
      (transform wf_in i0 m (dmatrix.distribute (block_cyclic.mk bs_row' bs_col' P Q) M N A)
          irow0 jcol0 wf_out j0 n).get g (j0 + j)
        = ∑ i in range m, wf_in.get g (i0 + i) * A (irow0 + i) (jcol0 + j)) := by
  constructor
  · apply transform_congr
    intro i j
    rw [distribute_elem _ M N A h1 h2, distribute_elem _ M N A h3 h4]
  · intro hrows g j hg hj
    exact transform_get wf_in i0 m _ M N A h3 h4 irow0 jcol0 wf_out j0 n hrows hg hj

/-- Witness of C14: blocks of `2 × 2` on a `1 × 1` grid against blocks of
`1 × 3` on a `2 × 2` grid, with the concrete band block. -/
theorem transform_grid_invariant_witness :
    (0 < 2 ∧ 0 < 1 ∧ 0 < 3) ∧
    transform ex_X 0 1 (dmatrix.distribute (block_cyclic.mk 2 2 1 1) 1 1 (fun _ _ => (3 : ℚ)))
        0 0 ex_Y 0 1
      = transform ex_X 0 1 (dmatrix.distribute (block_cyclic.mk 1 3 2 2) 1 1 (fun _ _ => (3 : ℚ)))
        0 0 ex_Y 0 1 :=
  ⟨by decide,
    (transform_grid_invariant ex_X ex_Y 0 1 0 0 0 1 1 1 (fun _ _ => (3 : ℚ)) 2 2 1 3 2 2
      (by decide) (by decide) (by decide) (by decide)).1⟩

end

section

/-! ## The index heapsort -/

theorem compare_lt_iff (a b : ℚ) : compare_doubles a b < 0 ↔ a < b := by
  unfold compare_doubles
  by_cases h1 : a < b
  · rw [if_pos h1]
    exact ⟨fun _ => h1, fun _ => by decide⟩
  · rw [if_neg h1]
    by_cases h2 : b < a
    · rw [if_pos h2]
      exact ⟨fun h => absurd h (by decide), fun h => absurd h h1⟩
    · rw [if_neg h2]
      exact ⟨fun h => absurd h (by decide), fun h => absurd h h1⟩

theorem compare_ge_iff (a b : ℚ) : compare_doubles a b ≥ 0 ↔ b ≤ a := by
  rw [ge_iff_le, ← not_lt, compare_lt_iff, not_lt]

theorem larger_child_spec (data : Nat → ℚ) (p : Nat → Nat) (N k : Nat) (hk : k ≤ N / 2) :
    (larger_child data p N k = 2 * k ∨ larger_child data p N k = 2 * k + 1) ∧
    larger_child data p N k ≤ N ∧
    data (p (2 * k)) ≤ data (p (larger_child data p N k)) ∧
    (2 * k + 1 ≤ N → data (p (2 * k + 1)) ≤ data (p (larger_child data p N k))) := by
  unfold larger_child
  by_cases h : 2 * k < N ∧ compare_doubles (data (p (2 * k))) (data (p (2 * k + 1))) < 0
  · rw [if_pos h]
    have hlt := (compare_lt_iff _ _).mp h.2
    exact ⟨Or.inr rfl, by omega, le_of_lt hlt, fun _ => le_refl _⟩
  · rw [if_neg h]
    refine ⟨Or.inl rfl, by omega, le_refl _, ?_⟩
    intro h2
    have h3 : 2 * k < N := by omega
    have h4 : ¬ compare_doubles (data (p (2 * k))) (data (p (2 * k + 1))) < 0 :=
      fun h5 => h ⟨h3, h5⟩
    rw [compare_lt_iff, not_lt] at h4
    exact h4

theorem larger_child_congr (data : Nat → ℚ) (p p' : Nat → Nat) (N k : Nat)
    (h0 : p (2 * k) = p' (2 * k)) (h1 : p (2 * k + 1) = p' (2 * k + 1)) :
    larger_child data p N k = larger_child data p' N k := by
  unfold larger_child
  rw [h0, h1]

/-- Moving the hole from `k` to `j` is an exchange of the two positions in the
array that holds the sinking index at the hole. -/
theorem hole_move (q : Nat → Nat) (k j pki : Nat) (hjk : j ≠ k) (i : Nat) :
    Function.update (Function.update q k (q j)) j pki i
      = Function.update q k pki (Equiv.swap k j i) := by
  by_cases hij : i = j
  · rw [hij, Function.update_same, Equiv.swap_apply_right, Function.update_same]
  · rw [Function.update_noteq hij]
    by_cases hik : i = k
    · rw [hik, Function.update_same, Equiv.swap_apply_left, Function.update_noteq hjk]
    · rw [Function.update_noteq hik, Equiv.swap_apply_of_ne_of_ne hik hij,
        Function.update_noteq hik]

/-- The loop of `downheap` returns, with enough fuel, and restores heap order
from `k0` on; the result is a rearrangement of the positions `k .. N`. -/
theorem downheap_loop_spec (data : Nat → ℚ) (N pki k0 : Nat) :
    ∀ (fuel : Nat) (q : Nat → Nat) (k : Nat), k0 ≤ k → k ≤ N → N + 1 ≤ fuel + k →
      (1 ≤ k ∨ q k = pki) → downheap_inv data (Function.update q k pki) k0 k N →
      ∃ r, index_downheap_loop data N pki fuel q k = some r ∧ heap_on data r k0 N ∧
        ∃ σ : Equiv.Perm Nat, (∀ i, r i = Function.update q k pki (σ i)) ∧
          ∀ i, (i < k ∨ N < i) → σ i = i := by
  intro fuel
  induction fuel with
  | zero =>
    intro q k _ hkN hfuel
    omega
  | succ fuel ih =>
    intro q k hk0 hkN hfuel hq hinv
    obtain ⟨hA, hB, hC, hD⟩ := hinv
    have hfk : Function.update q k pki k = pki := Function.update_same _ _ _
    have hfne : ∀ x, x ≠ k → Function.update q k pki x = q x :=
      fun x hx => Function.update_noteq hx _ _
    have hread : ∀ x, (x = 2 * k ∨ x = 2 * k + 1) → q x = Function.update q k pki x := by
      intro x hx
      by_cases hxk : x = k
      · rcases hq with h | h
        · omega
        · rw [hxk, hfk, h]
      · exact (hfne x hxk).symm
    rw [index_downheap_loop]
    by_cases hlt : k ≤ N / 2
    · rw [if_pos hlt]
      have hcong := larger_child_congr data q (Function.update q k pki) N k
        (hread _ (Or.inl rfl)) (hread _ (Or.inr rfl))
      obtain ⟨hj, hjN, hj0, hj1⟩ := larger_child_spec data (Function.update q k pki) N k hlt
      rw [← hcong] at hj hjN hj0 hj1
      generalize larger_child data q N k = j at hj hjN hj0 hj1
      have hqj : q j = Function.update q k pki j := hread j hj
      have hj2 : j / 2 = k := by omega
      by_cases hbrk : compare_doubles (data pki) (data (q j)) ≥ 0
      · rw [if_pos hbrk]
        rw [compare_ge_iff, hqj] at hbrk
        refine ⟨_, rfl, ?_, 1, fun i => rfl, fun i _ => rfl⟩
        intro c hc1 hcN hc0
        by_cases hck : c / 2 = k
        · rw [hck, hfk]
          have hcc : c = 2 * k ∨ c = 2 * k + 1 := by omega
          rcases hcc with h | h
          · rw [h]
            exact le_trans hj0 hbrk
          · rw [h]
            exact le_trans (hj1 (by omega)) hbrk
        · by_cases hc : c = k
          · have hk0k : k0 < k := by omega
            rw [hc]
            exact le_of_lt (hC hk0k)
          · exact hA c hc1 hcN hc0 hck hc
      · rw [if_neg hbrk]
        rw [compare_ge_iff, not_le] at hbrk
        have hjk : j ≠ k := by
          intro h
          have h1 : q j = pki := by rw [hqj, h, hfk]
          rw [h1] at hbrk
          exact lt_irrefl _ hbrk
        have hkj : k < j := by omega
        have hmove := hole_move q k j pki hjk
        have hsw0 : Equiv.swap k j j = k := Equiv.swap_apply_right k j
        have hsw1 : Equiv.swap k j k = j := Equiv.swap_apply_left k j
        have hsw2 : ∀ x, x ≠ k → x ≠ j → Equiv.swap k j x = x :=
          fun x h1 h2 => Equiv.swap_apply_of_ne_of_ne h1 h2
        have hinv' : downheap_inv data (Function.update (Function.update q k (q j)) j pki)
            k0 j N := by
          refine ⟨?_, ?_, ?_, ?_⟩
          · intro c hc1 hcN hc0 hcj hcj'
            rw [hmove c, hmove (c / 2)]
            by_cases hck : c / 2 = k
            · have hcc : c = 2 * k ∨ c = 2 * k + 1 := by omega
              have hck' : c ≠ k := by omega
              rw [hck, hsw1, hsw2 c hck' hcj']
              rcases hcc with h | h
              · rw [h]; exact hj0
              · rw [h]; exact hj1 (by omega)
            · by_cases hc : c = k
              · have hk0k : k0 < k := by omega
                rw [hc, hsw1, hsw2 (k / 2) (by omega) (by omega)]
                exact hB hk0k j (by omega) hjN hj2
              · rw [hsw2 c hc hcj', hsw2 (c / 2) hck hcj]
                exact hA c hc1 hcN hc0 hck hc
          · intro _ c hc1 hcN hcj
            rw [hmove c, hmove (j / 2), hj2, hsw1, hsw2 c (by omega) (by omega)]
            have := hA c hc1 hcN (by omega) (by omega) (by omega)
            rw [hcj] at this
            exact this
          · intro _
            rw [hmove j, hmove (j / 2), hj2, hsw0, hsw1, hfk, ← hqj]
            exact hbrk
          · intro _
            omega
        obtain ⟨r, hr, hheap, σ, hσ, hfix⟩ := ih (Function.update q k (q j)) j (by omega) hjN
          (by omega) (Or.inl (by omega)) hinv'
        refine ⟨r, hr, hheap, Equiv.swap k j * σ, ?_, ?_⟩
        · intro i
          rw [hσ i, hmove]
          rfl
        · intro i hi
          have h1 : σ i = i := hfix i (by omega)
          rw [Equiv.Perm.mul_apply, h1]
          exact hsw2 i (by omega) (by omega)
    · rw [if_neg hlt]
      refine ⟨_, rfl, ?_, 1, fun i => rfl, fun i _ => rfl⟩
      intro c hc1 hcN hc0
      by_cases hck : c / 2 = k
      · omega
      · by_cases hc : c = k
        · have hk0k : k0 < k := by omega
          rw [hc]
          exact le_of_lt (hC hk0k)
        · exact hA c hc1 hcN hc0 hck hc

theorem index_downheap_spec (data : Nat → ℚ) (p : Nat → Nat) (N k0 : Nat) (hk : k0 ≤ N)
    (hheap : heap_on data p (k0 + 1) N) :
    ∃ r, index_downheap data p N k0 = some r ∧ heap_on data r k0 N ∧
      ∃ σ : Equiv.Perm Nat, (∀ i, r i = p (σ i)) ∧ ∀ i, (i < k0 ∨ N < i) → σ i = i := by
  have hself : Function.update p k0 (p k0) = p := Function.update_eq_self k0 p
  have hinv : downheap_inv data (Function.update p k0 (p k0)) k0 k0 N := by
    rw [hself]
    refine ⟨fun j h1 hN h0 hne _ => hheap j h1 hN (by omega), fun h => absurd h (lt_irrefl _),
      fun h => absurd h (lt_irrefl _), fun h => absurd h (lt_irrefl _)⟩
  have h := downheap_loop_spec data N (p k0) k0 (N + 1) p k0 (le_refl _) hk (by omega)
    (Or.inr rfl) hinv
  rw [hself] at h
  exact h

theorem heap_root_max (data : Nat → ℚ) (p : Nat → Nat) (N : Nat) (h : heap_on data p 0 N) :
    ∀ j, j ≤ N → data (p j) ≤ data (p 0) := by
  intro j
  induction j using Nat.strong_induction_on with
  | _ j ih =>
    intro hj
    by_cases h0 : j = 0
    · rw [h0]
    · have h1 := h j (by omega) hj (Nat.zero_le _)
      exact le_trans h1 (ih (j / 2) (by omega) (by omega))

theorem perm_le_of_fix (σ : Equiv.Perm Nat) (n : Nat) (h : ∀ i, n < i → σ i = i) :
    ∀ a, a ≤ n → σ a ≤ n := by
  intro a ha
  by_contra hcon
  have h1 : σ (σ a) = σ a := h (σ a) (by omega)
  have h2 : σ a = a := σ.injective h1
  omega

theorem swap_entries_apply (p : Nat → Nat) (a b i : Nat) :
    swap_entries p a b i = p (Equiv.swap a b i) := by
  unfold swap_entries
  by_cases hib : i = b
  · rw [hib, Function.update_same, Equiv.swap_apply_right]
  · rw [Function.update_noteq hib]
    by_cases hia : i = a
    · rw [hia, Function.update_same, Equiv.swap_apply_left]
    · rw [Function.update_noteq hia, Equiv.swap_apply_of_ne_of_ne hia hib]

theorem reverse_range_succ (n : Nat) :
    (List.range (n + 1)).reverse = n :: (List.range n).reverse := by
  rw [List.range_succ, List.reverse_append, List.reverse_singleton, List.singleton_append]

/-- The first phase of the sort: `downheap` for `k = n - 1` down to `0` makes
`p[0 .. N]` a heap, when heap order already holds from `n` on. -/
theorem heapify_spec (data : Nat → ℚ) (N : Nat) :
    ∀ (n : Nat) (p : Nat → Nat), n ≤ N / 2 + 1 → heap_on data p n N →
      ∃ r, (List.range n).reverse.foldlM (fun p k => index_downheap data p N k) p = some r ∧
        heap_on data r 0 N ∧
        ∃ σ : Equiv.Perm Nat, (∀ i, r i = p (σ i)) ∧ ∀ i, N < i → σ i = i := by
  intro n
  induction n with
  | zero =>
    intro p _ hheap
    exact ⟨p, rfl, hheap, 1, fun i => rfl, fun i _ => rfl⟩
  | succ n ih =>
    intro p hn hheap
    obtain ⟨r1, hr1, hheap1, σ1, hσ1, hfix1⟩ := index_downheap_spec data p N n (by omega) hheap
    obtain ⟨r, hr, hheap2, σ2, hσ2, hfix2⟩ := ih r1 (by omega) hheap1
    refine ⟨r, ?_, hheap2, σ1 * σ2, ?_, ?_⟩
    · rw [reverse_range_succ, List.foldlM_cons, hr1]
      exact hr
    · intro i
      rw [hσ2 i, hσ1 (σ2 i)]
      rfl
    · intro i hi
      rw [Equiv.Perm.mul_apply, hfix2 i hi, hfix1 i (Or.inr hi)]

/-- The second phase of the sort: with `p[0 .. n]` a heap below the sorted
tail `p[n + 1 .. count - 1]`, exchanging the root with the last heap position
and repairing the heap, for `n` down to `1`, sorts `p[0 .. count - 1]`. -/
theorem extract_spec (data : Nat → ℚ) (count : Nat) :
    ∀ (n : Nat) (p : Nat → Nat), n < count → heap_on data p 0 n →
      (∀ a b, n < a → a ≤ b → b < count → data (p a) ≤ data (p b)) →
      (∀ a b, a ≤ n → n < b → b < count → data (p a) ≤ data (p b)) →
      ∃ r, ((List.range n).reverse.map (fun n => n + 1)).foldlM
            (fun p n => index_downheap data (swap_entries p 0 n) (n - 1) 0) p = some r ∧
        (∀ a b, a ≤ b → b < count → data (r a) ≤ data (r b)) ∧
        ∃ σ : Equiv.Perm Nat, (∀ i, r i = p (σ i)) ∧ ∀ i, n < i → σ i = i := by
  intro n
  induction n with
  | zero =>
    intro p _ _ hsuf hbound
    refine ⟨p, rfl, ?_, 1, fun i => rfl, fun i _ => rfl⟩
    intro a b hab hb
    by_cases h1 : a = b
    · rw [h1]
    · by_cases h2 : a = 0
      · exact hbound a b (by omega) (by omega) hb
      · exact hsuf a b (by omega) hab hb
  | succ n ih =>
    intro p hn hheap hsuf hbound
    have hmax := heap_root_max data p (n + 1) hheap
    have hp1 : ∀ i, swap_entries p 0 (n + 1) i = p (Equiv.swap 0 (n + 1) i) :=
      swap_entries_apply p 0 (n + 1)
    have hp1_last : swap_entries p 0 (n + 1) (n + 1) = p 0 := by
      rw [hp1, Equiv.swap_apply_right]
    have hp1_first : swap_entries p 0 (n + 1) 0 = p (n + 1) := by
      rw [hp1, Equiv.swap_apply_left]
    have hp1_other : ∀ i, i ≠ 0 → i ≠ n + 1 → swap_entries p 0 (n + 1) i = p i := by
      intro i h1 h2
      rw [hp1, Equiv.swap_apply_of_ne_of_ne h1 h2]
    have hheap1 : heap_on data (swap_entries p 0 (n + 1)) (0 + 1) n := by
      intro j hj1 hjn hj0
      rw [hp1_other j (by omega) (by omega), hp1_other (j / 2) (by omega) (by omega)]
      exact hheap j hj1 (by omega) (Nat.zero_le _)
    obtain ⟨r1, hr1, hheap2, σ1, hσ1, hfix1⟩ :=
      index_downheap_spec data (swap_entries p 0 (n + 1)) n 0 (Nat.zero_le _) hheap1
    have hr1_hi : ∀ x, n < x → r1 x = swap_entries p 0 (n + 1) x := by
      intro x hx
      rw [hσ1 x, hfix1 x (Or.inr hx)]
    have hr1_lo : ∀ a, a ≤ n → ∃ x, x ≤ n + 1 ∧ r1 a = p x := by
      intro a ha
      have hy := perm_le_of_fix σ1 n (fun i hi => hfix1 i (Or.inr hi)) a ha
      by_cases h0 : σ1 a = 0
      · exact ⟨n + 1, le_refl _, by rw [hσ1 a, h0, hp1_first]⟩
      · exact ⟨σ1 a, by omega, by rw [hσ1 a, hp1_other _ h0 (by omega)]⟩
    have hsuf1 : ∀ a b, n < a → a ≤ b → b < count → data (r1 a) ≤ data (r1 b) := by
      intro a b ha hab hb
      by_cases h1 : a = b
      · rw [h1]
      · rw [hr1_hi a ha, hr1_hi b (by omega), hp1_other b (by omega) (by omega)]
        by_cases h2 : a = n + 1
        · rw [h2, hp1_last]
          exact hbound 0 b (by omega) (by omega) hb
        · rw [hp1_other a (by omega) h2]
          exact hsuf a b (by omega) hab hb
    have hbound1 : ∀ a b, a ≤ n → n < b → b < count → data (r1 a) ≤ data (r1 b) := by
      intro a b ha hnb hb
      obtain ⟨x, hx, hax⟩ := hr1_lo a ha
      rw [hax, hr1_hi b hnb]
      by_cases h2 : b = n + 1
      · rw [h2, hp1_last]
        exact hmax x hx
      · rw [hp1_other b (by omega) h2]
        exact hbound x b hx (by omega) hb
    obtain ⟨r, hr, hsorted, σ2, hσ2, hfix2⟩ := ih r1 (by omega) hheap2 hsuf1 hbound1
    refine ⟨r, ?_, hsorted, Equiv.swap 0 (n + 1) * σ1 * σ2, ?_, ?_⟩
    · rw [reverse_range_succ, List.map_cons, List.foldlM_cons]
      have e : n + 1 - 1 = n := rfl
      rw [e, hr1]
      exact hr
    · intro i
      rw [hσ2 i, hσ1 (σ2 i), hp1]
      rfl
    · intro i hi
      rw [Equiv.Perm.mul_apply, Equiv.Perm.mul_apply, hfix2 i (by omega),
        hfix1 i (Or.inr (by omega))]
      exact Equiv.swap_apply_of_ne_of_ne (by omega) (by omega)

/-- The index heapsort returns; the positions `0 .. count - 1` of its result
hold a permutation of the indices `0 .. count - 1`, in non-decreasing order of
their data; the other positions keep their content. -/
theorem gsl_heapsort_index_spec (data : Nat → ℚ) (count : Nat) (p : Nat → Nat) :
    ∃ r, gsl_heapsort_index data count p = some r ∧
      (∀ a b, a ≤ b → b < count → data (r a) ≤ data (r b)) ∧
      ∃ σ : Equiv.Perm Nat, (∀ i, i < count → r i = σ i) ∧ (∀ i, count ≤ i → σ i = i) ∧
        ∀ i, count ≤ i → r i = p i := by
  unfold gsl_heapsort_index
  by_cases hc : count = 0
  · rw [if_pos hc]
    refine ⟨p, rfl, ?_, 1, ?_, fun i _ => rfl, fun i _ => rfl⟩
    · intro a b _ hb
      omega
    · intro i hi
      omega
  · rw [if_neg hc]
    simp only
    have hN : count - 1 < count := by omega
    obtain ⟨r1, hr1, hheap1, σ1, hσ1, hfix1⟩ := heapify_spec data (count - 1)
      ((count - 1) / 2 + 1) (fun i => if i < count then i else p i) (le_refl _)
      (fun j _ hjN hj0 => by omega)
    obtain ⟨r, hr, hsorted, σ2, hσ2, hfix2⟩ := extract_spec data count (count - 1) r1 hN hheap1
      (fun a b ha _ hb => by omega) (fun a b _ hb hb' => by omega)
    have hfix : ∀ i, count - 1 < i → (σ1 * σ2) i = i := by
      intro i hi
      rw [Equiv.Perm.mul_apply, hfix2 i hi, hfix1 i hi]
    have hri : ∀ i, r i = (fun i => if i < count then i else p i) ((σ1 * σ2) i) := by
      intro i
      rw [hσ2 i, hσ1 (σ2 i)]
      rfl
    refine ⟨r, ?_, hsorted, σ1 * σ2, ?_, fun i hi => hfix i (by omega), ?_⟩
    · rw [hr1]
      exact hr
    · intro i hi
      have hle := perm_le_of_fix (σ1 * σ2) (count - 1) hfix i (by omega)
      rw [hri i]
      have c : (σ1 * σ2) i < count := by omega
      simp only
      rw [if_pos c]
    · intro i hi
      rw [hri i, hfix i (by omega)]
      have c : ¬ i < count := by omega
      simp only
      rw [if_neg c]

/-! ## `init_fft_grid`: the loops -/

theorem foldl_flatMap_eq {α β γ : Type} (f : γ → β → γ) (g : α → List β) (l : List α) :
    ∀ b : γ, (l.flatMap g).foldl f b = l.foldl (fun b a => (g a).foldl f b) b := by
  induction l with
  | nil => intro b; rfl
  | cons a l ih =>
    intro b
    rw [List.flatMap_cons, List.foldl_append, List.foldl_cons, ih]

/-- The three nested loops visit the grid points in the order of
`grid_points`. -/
theorem fill_grid_eq (geom : sirius_geometry) (fft : FFT3D) (st : grid_fill) :
    fill_grid geom fft st = fft.grid_points.foldl (fill_point geom) st := by
  unfold fill_grid FFT3D.grid_points
  rw [foldl_flatMap_eq]
  apply foldl_congr_mem
  intro b i _
  rw [foldl_flatMap_eq]
  apply foldl_congr_mem
  intro b' j _
  rw [List.foldl_map]

theorem fill_points_spec (geom : sirius_geometry) :
    ∀ (pts : List (Int × Int × Int)) (st : grid_fill),
      (pts.foldl (fill_point geom) st).ig = st.ig + pts.length ∧
      (∀ t, t < st.ig → (pts.foldl (fill_point geom) st).gvec t = st.gvec t
        ∧ (pts.foldl (fill_point geom) st).length t = st.length t) ∧
      (∀ t pt, pts[t]? = some pt →
        (pts.foldl (fill_point geom) st).gvec (st.ig + t) = pt ∧
        (pts.foldl (fill_point geom) st).length (st.ig + t) = geom.length_of pt) := by
  intro pts
  induction pts with
  | nil =>
    intro st
    refine ⟨rfl, fun t _ => ⟨rfl, rfl⟩, ?_⟩
    intro t pt h
    simp at h
  | cons p pts ih =>
    intro st
    obtain ⟨i0, i1, i2⟩ := ih (fill_point geom st p)
    have hig : (fill_point geom st p).ig = st.ig + 1 := rfl
    rw [List.foldl_cons]
    refine ⟨?_, ?_, ?_⟩
    · rw [i0, hig, List.length_cons]
      omega
    · intro t ht
      obtain ⟨j1, j2⟩ := i1 t (by rw [hig]; omega)
      rw [j1, j2]
      have hne : t ≠ st.ig := by omega
      exact ⟨Function.update_noteq hne _ _, Function.update_noteq hne _ _⟩
    · intro t pt h
      cases t with
      | zero =>
        rw [List.getElem?_cons_zero] at h
        have hp : p = pt := Option.some.inj h
        obtain ⟨j1, j2⟩ := i1 st.ig (by rw [hig]; omega)
        rw [Nat.add_zero, j1, j2, ← hp]
        exact ⟨Function.update_same _ _ _, Function.update_same _ _ _⟩
      | succ t =>
        rw [List.getElem?_cons_succ] at h
        obtain ⟨j1, j2⟩ := i2 t pt h
        rw [hig] at j1 j2
        have e : st.ig + (t + 1) = st.ig + 1 + t := by omega
        rw [e]
        exact ⟨j1, j2⟩

/-- The vector `length` after the enumeration does not depend on the content of
the fresh array `gvec`. -/
theorem fill_points_length_congr (geom : sirius_geometry) :
    ∀ (pts : List (Int × Int × Int)) (st st' : grid_fill), st.ig = st'.ig →
      st.length = st'.length →
      (pts.foldl (fill_point geom) st).length = (pts.foldl (fill_point geom) st').length := by
  intro pts
  induction pts with
  | nil => intro st st' _ h; exact h
  | cons p pts ih =>
    intro st st' h1 h2
    rw [List.foldl_cons, List.foldl_cons]
    apply ih
    · unfold fill_point
      simp only
      rw [h1]
    · unfold fill_point
      simp only
      rw [h1, h2]

/-- After the enumeration, for every index below the number of grid points,
`gvec` holds the grid point of that index and `length` its Cartesian length. -/
theorem fill_grid_spec (geom : sirius_geometry) (fft : FFT3D) (g0 : Nat → Int × Int × Int) :
    ∀ t, t < fft.grid_points.length →
      (fill_grid geom fft ⟨g0, fun _ => 0, 0⟩).gvec t = fft.grid_points.getD t (0, 0, 0) ∧
      (fill_grid geom fft ⟨g0, fun _ => 0, 0⟩).length t
        = geom.length_of ((fill_grid geom fft ⟨g0, fun _ => 0, 0⟩).gvec t) := by
  intro t ht
  rw [fill_grid_eq]
  obtain ⟨-, -, h⟩ := fill_points_spec geom fft.grid_points ⟨g0, fun _ => 0, 0⟩
  have hget : fft.grid_points[t]? = some (fft.grid_points.getD t (0, 0, 0)) := by
    rw [List.getD_eq_getElem _ _ ht, List.getElem?_eq_getElem ht]
  obtain ⟨j1, j2⟩ := h t _ hget
  simp only [Nat.zero_add] at j1 j2
  rw [j2, j1]
  exact ⟨rfl, rfl⟩

theorem reorder_step_fst (gvec : Nat → Int × Int × Int) (length : Nat → ℚ)
    (reorder : Nat → Nat) (pw_cutoff : ℚ) (st : (Nat → Int × Int × Int) × Nat) (i : Nat) :
    (reorder_step gvec length reorder pw_cutoff st i).1
      = Function.update st.1 i (gvec (reorder i)) := rfl

theorem reorder_step_snd (gvec : Nat → Int × Int × Int) (length : Nat → ℚ)
    (reorder : Nat → Nat) (pw_cutoff : ℚ) (st : (Nat → Int × Int × Int) × Nat) (i : Nat) :
    (reorder_step gvec length reorder pw_cutoff st i).2
      = if length (reorder i) ≤ pw_cutoff then st.2 + 1 else st.2 := rfl

theorem reorder_loop_spec (gvec : Nat → Int × Int × Int) (length : Nat → ℚ)
    (reorder : Nat → Nat) (pw_cutoff : ℚ) (g0 : Nat → Int × Int × Int) :
    ∀ n,
      (∀ i, ((List.range n).foldl (reorder_step gvec length reorder pw_cutoff) (g0, 0)).1 i
        = if i < n then gvec (reorder i) else g0 i) ∧
      ((List.range n).foldl (reorder_step gvec length reorder pw_cutoff) (g0, 0)).2
        = (List.range n).countP (fun i => decide (length (reorder i) ≤ pw_cutoff)) := by
  intro n
  induction n with
  | zero =>
    refine ⟨fun i => ?_, rfl⟩
    simp
  | succ n ih =>
    obtain ⟨ih1, ih2⟩ := ih
    rw [List.range_succ, List.foldl_append, List.countP_append]
    simp only [List.foldl_cons, List.foldl_nil]
    rw [reorder_step_fst, reorder_step_snd]
    refine ⟨?_, ?_⟩
    · intro i
      by_cases hi : i = n
      · rw [hi, Function.update_same, if_pos (Nat.lt_succ_self _)]
      · rw [Function.update_noteq hi]
        have := ih1 i
        rw [this]
        by_cases h2 : i < n
        · rw [if_pos h2, if_pos (Nat.lt_succ_of_lt h2)]
        · have c : ¬ i < n + 1 := by omega
          rw [if_neg h2, if_neg c]
    · rw [ih2]
      by_cases hc : length (reorder n) ≤ pw_cutoff
      · rw [if_pos hc]
        simp [hc]
      · rw [if_neg hc]
        simp [hc]

/-- What `init_fft_grid` leaves, when `size()` of the FFT grid is the number of
its points: the call returns; `reorder` is the result of the index sort of the
lengths; `gvec_` holds the grid points in the order of `reorder`. -/
theorem init_fft_grid_spec (geom : sirius_geometry) (fft_init : Int × Int × Int → FFT3D)
    (self : global_fft) (fresh : fft_fresh)
    (hsize : (self.new_fft geom fft_init).size
      = (self.new_fft geom fft_init).grid_points.length) :
    ∃ (g : global_fft) (reorder : Nat → Nat),
      self.init_fft_grid geom fft_init fresh = some g ∧
      gsl_heapsort_index
          (fill_grid geom (self.new_fft geom fft_init) ⟨fresh.gvec, fun _ => 0, 0⟩).length
          (self.new_fft geom fft_init).size (fun _ => 0) = some reorder ∧
      g.fft_ = self.new_fft geom fft_init ∧ g.pw_cutoff_ = self.pw_cutoff_ ∧
      (∀ i, i < (self.new_fft geom fft_init).size → reorder i < (self.new_fft geom fft_init).size) ∧
      (∀ i, i < (self.new_fft geom fft_init).size →
        g.gvec_ i = (self.new_fft geom fft_init).grid_points.getD (reorder i) (0, 0, 0)) ∧
      (∀ i, i < (self.new_fft geom fft_init).size →
        geom.length_of (g.gvec_ i)
          = (fill_grid geom (self.new_fft geom fft_init) ⟨fresh.gvec, fun _ => 0, 0⟩).length
              (reorder i)) ∧
      g.num_gvec_ = (List.range (self.new_fft geom fft_init).size).countP
        (fun i => decide
          ((fill_grid geom (self.new_fft geom fft_init) ⟨fresh.gvec, fun _ => 0, 0⟩).length
              (reorder i) ≤ self.pw_cutoff_)) := by
  obtain ⟨reorder, hsort, -, σ, hσ, hfix, -⟩ := gsl_heapsort_index_spec
    (fill_grid geom (self.new_fft geom fft_init) ⟨fresh.gvec, fun _ => 0, 0⟩).length
    (self.new_fft geom fft_init).size (fun _ => 0)
  have hlt : ∀ i, i < (self.new_fft geom fft_init).size
      → reorder i < (self.new_fft geom fft_init).size := by
    intro i hi
    rw [hσ i hi]
    by_contra hcon
    have h1 : σ (σ i) = σ i := hfix _ (by omega)
    have h2 : σ i = i := σ.injective h1
    omega
  obtain ⟨hl1, hl2⟩ := reorder_loop_spec
    (fill_grid geom (self.new_fft geom fft_init) ⟨fresh.gvec, fun _ => 0, 0⟩).gvec
    (fill_grid geom (self.new_fft geom fft_init) ⟨fresh.gvec, fun _ => 0, 0⟩).length
    reorder self.pw_cutoff_ fresh.gvec_ (self.new_fft geom fft_init).size
  have hfill := fill_grid_spec geom (self.new_fft geom fft_init) fresh.gvec
  refine ⟨global_fft.store_sorted (self.new_fft geom fft_init)
    (fill_grid geom (self.new_fft geom fft_init) ⟨fresh.gvec, fun _ => 0, 0⟩) self fresh reorder,
    reorder, ?_, hsort, ?_⟩
  · unfold global_fft.init_fft_grid
    unfold global_fft.new_fft at hsort ⊢
    simp only
    rw [hsort]
    rfl
  · refine ⟨rfl, rfl, hlt, ?_, ?_, hl2⟩
    · intro i hi
      unfold global_fft.store_sorted
      simp only
      rw [hl1 i, if_pos hi]
      exact (hfill (reorder i) (by rw [← hsize]; exact hlt i hi)).1
    · intro i hi
      unfold global_fft.store_sorted
      simp only
      rw [hl1 i, if_pos hi]
      exact ((hfill (reorder i) (by rw [← hsize]; exact hlt i hi)).2).symm

theorem fill_grid_length_congr (geom : sirius_geometry) (fft : FFT3D)
    (g0 g1 : Nat → Int × Int × Int) :
    (fill_grid geom fft ⟨g0, fun _ => 0, 0⟩).length
      = (fill_grid geom fft ⟨g1, fun _ => 0, 0⟩).length := by
  rw [fill_grid_eq, fill_grid_eq]
  exact fill_points_length_congr geom _ _ _ rfl rfl

theorem new_fft_congr (geom : sirius_geometry) (fft_init : Int × Int × Int → FFT3D)
    (self other : global_fft) (h : other.pw_cutoff_ = self.pw_cutoff_) :
    other.new_fft geom fft_init = self.new_fft geom fft_init := by
  unfold global_fft.new_fft
  rw [h]

/-- C11: when `size()` of the FFT grid is the number of its points,
`init_fft_grid` returns and leaves `gvec_` ordered by non-decreasing Cartesian
length: for all `a < b < fft size`, `length(gvec_[a]) ≤ length(gvec_[b])`.  The
order depends only on the lattice and the cutoff: a call on any other object
with the same cutoff, whatever its earlier state and the content of the memory
it allocates, leaves the same `gvec_[0 .. size - 1]`. -/
theorem gvec_sorted_by_length (geom : sirius_geometry) (fft_init : Int × Int × Int → FFT3D)
    (self : global_fft) (fresh : fft_fresh)
    (hsize : (self.new_fft geom fft_init).size
      = (self.new_fft geom fft_init).grid_points.length) :
    ∃ g, self.init_fft_grid geom fft_init fresh = some g ∧
      (∀ a b, a < b → b < g.fft_.size →
        geom.length_of (g.gvec_ a) ≤ geom.length_of (g.gvec_ b)) ∧
      ∀ (other : global_fft) (fresh' : fft_fresh), other.pw_cutoff_ = self.pw_cutoff_ →
        ∃ g', other.init_fft_grid geom fft_init fresh' = some g' ∧
          g'.fft_.size = g.fft_.size ∧ ∀ i, i < g.fft_.size → g'.gvec_ i = g.gvec_ i := by
  obtain ⟨g, reorder, hg, hsort, hfft, -, hlt, hgv, hlen, -⟩ :=
    init_fft_grid_spec geom fft_init self fresh hsize
  obtain ⟨r2, hr2, hsorted, -⟩ := gsl_heapsort_index_spec
    (fill_grid geom (self.new_fft geom fft_init) ⟨fresh.gvec, fun _ => 0, 0⟩).length
    (self.new_fft geom fft_init).size (fun _ => 0)
  have hrr : r2 = reorder := Option.some.inj (hr2.symm.trans hsort)
  rw [hrr] at hsorted
  refine ⟨g, hg, ?_, ?_⟩
  · intro a b hab hb
    rw [hfft] at hb
    rw [hlen a (by omega), hlen b hb]
    exact hsorted a b (le_of_lt hab) hb
  · intro other fresh' hcut
    have hnew := new_fft_congr geom fft_init self other hcut
    have hsize' : (other.new_fft geom fft_init).size
        = (other.new_fft geom fft_init).grid_points.length := by
      rw [hnew]; exact hsize
    obtain ⟨g', reorder', hg', hsort', hfft', -, -, hgv', -, -⟩ :=
      init_fft_grid_spec geom fft_init other fresh' hsize'
    rw [hnew, fill_grid_length_congr geom _ fresh'.gvec fresh.gvec] at hsort'
    have hrr' : reorder' = reorder := Option.some.inj (hsort'.symm.trans hsort)
    refine ⟨g', hg', by rw [hfft', hfft, hnew], ?_⟩
    intro i hi
    rw [hfft] at hi
    rw [hgv i hi, hgv' i (by rw [hnew]; exact hi), hnew, hrr']

/-! ## `init_fft_grid`: the number of G-vectors within the cutoff -/

/-- A property of indices that passes from every index to the smaller ones
holds exactly on the first `countP` indices. -/
theorem countP_initial_segment (P : Nat → Bool) :
    ∀ n, (∀ i i', i ≤ i' → i' < n → P i' = true → P i = true) →
      ∀ ig, ig < n → (P ig = true ↔ ig < (List.range n).countP P) := by
  intro n
  induction n with
  | zero =>
    intro _ ig hig
    omega
  | succ n ih =>
    intro hdown ig hig
    have hdown' : ∀ i i', i ≤ i' → i' < n → P i' = true → P i = true :=
      fun i i' h1 h2 h3 => hdown i i' h1 (by omega) h3
    have hle : (List.range n).countP P ≤ n := by
      have := List.countP_le_length (p := P) (l := List.range n)
      rw [List.length_range] at this
      exact this
    rw [List.range_succ, List.countP_append, List.countP_cons, List.countP_nil, Nat.zero_add]
    by_cases hn : P n = true
    · rw [if_pos hn]
      have hall : (List.range n).countP P = n := by
        have h1 : (List.range n).countP P = (List.range n).length := by
          rw [List.countP_eq_length]
          intro a ha
          exact hdown a n (le_of_lt (List.mem_range.mp ha)) (Nat.lt_succ_self _) hn
        rw [h1, List.length_range]
      rw [hall]
      constructor
      · intro _
        exact hig
      · intro _
        exact hdown ig n (by omega) (Nat.lt_succ_self _) hn
    · rw [if_neg hn, Nat.add_zero]
      by_cases h2 : ig = n
      · rw [h2]
        constructor
        · intro h
          exact absurd h hn
        · intro h
          omega
      · exact ih hdown' ig (by omega)

theorem countP_range_getD {α : Type} (q : α → Bool) (d : α) :
    ∀ l : List α, (List.range l.length).countP (fun t => q (l.getD t d)) = l.countP q := by
  intro l
  induction l with
  | nil => rfl
  | cons a l ih =>
    rw [List.length_cons, List.range_succ_eq_map, List.countP_cons, List.countP_map,
      List.countP_cons, ← ih]
    rfl

theorem perm_symm_fix (σ : Equiv.Perm Nat) (n : Nat) (h : ∀ i, n ≤ i → σ i = i) :
    ∀ a, a < n → σ a < n ∧ σ.symm a < n := by
  intro a ha
  constructor
  · by_contra hcon
    have h1 : σ (σ a) = σ a := h _ (by omega)
    have h2 : σ a = a := σ.injective h1
    omega
  · by_contra hcon
    have h1 : σ (σ.symm a) = σ.symm a := h _ (by omega)
    rw [Equiv.apply_symm_apply] at h1
    omega

/-- Counting over the sorted indices is counting over all indices. -/
theorem countP_reorder (Q : Nat → Bool) (n : Nat) (reorder : Nat → Nat) (σ : Equiv.Perm Nat)
    (hσ : ∀ i, i < n → reorder i = σ i) (hfix : ∀ i, n ≤ i → σ i = i) :
    (List.range n).countP (fun i => Q (reorder i)) = (List.range n).countP Q := by
  have h1 : (List.range n).countP (fun i => Q (reorder i))
      = (List.range n).countP (fun i => Q (σ i)) := by
    apply List.countP_congr
    intro x hx
    rw [hσ x (List.mem_range.mp hx)]
  have h2 : (List.range n).countP (fun i => Q (σ i)) = ((List.range n).map σ).countP Q := by
    rw [List.countP_map]
    rfl
  have hperm : ((List.range n).map σ).Perm (List.range n) := by
    rw [List.perm_ext_iff_of_nodup ((List.nodup_range n).map σ.injective) (List.nodup_range n)]
    intro a
    rw [List.mem_map, List.mem_range]
    constructor
    · rintro ⟨i, hi, rfl⟩
      exact (perm_symm_fix σ n hfix i (List.mem_range.mp hi)).1
    · intro ha
      exact ⟨σ.symm a, List.mem_range.mpr (perm_symm_fix σ n hfix a ha).2,
        Equiv.apply_symm_apply σ a⟩
  rw [h1, h2, hperm.countP_eq]

theorem ex_max_frac : max_frac_coord ex_geometry ex_global_fft.pw_cutoff_ = (3, 3, 3) := by
  have h1 : int_of_double 1 = 1 := by
    rw [int_of_double_nonneg (by norm_num) (by norm_num), Int.floor_one]
  have h0 : int_of_double 0 = 0 := by
    rw [int_of_double_nonneg (le_refl _) (by norm_num), Int.floor_zero]
  unfold max_frac_coord max_frac_step ex_geometry ex_global_fft
  simp only [h1, h0]
  decide

theorem ex_grid_size :
    (ex_global_fft.new_fft ex_geometry ex_fft_init).size
      = (ex_global_fft.new_fft ex_geometry ex_fft_init).grid_points.length := by
  unfold global_fft.new_fft
  rw [ex_max_frac]
  decide

/-- Witness of C11 on the example lattice. -/
theorem gvec_sorted_by_length_witness :
    (ex_global_fft.new_fft ex_geometry ex_fft_init).size
        = (ex_global_fft.new_fft ex_geometry ex_fft_init).grid_points.length ∧
    ∃ g, ex_global_fft.init_fft_grid ex_geometry ex_fft_init ex_fft_fresh = some g ∧
      ∀ a b, a < b → b < g.fft_.size →
        ex_geometry.length_of (g.gvec_ a) ≤ ex_geometry.length_of (g.gvec_ b) :=
  ⟨ex_grid_size,
    (gvec_sorted_by_length ex_geometry ex_fft_init ex_global_fft ex_fft_fresh ex_grid_size).imp
      (fun _ h => ⟨h.1, h.2.1⟩)⟩

/-- C12: when `size()` of the FFT grid is the number of its points, after
`init_fft_grid` the member `num_gvec_` is the number of triples inside the grid
limits whose length is at most `pw_cutoff_`, and these are the first
`num_gvec_` entries of `gvec_`: for `ig < fft size`, entry `ig` has length at
most `pw_cutoff_` if and only if `ig < num_gvec_`. -/
theorem num_gvec_counts_cutoff (geom : sirius_geometry) (fft_init : Int × Int × Int → FFT3D)
    (self : global_fft) (fresh : fft_fresh)
    (hsize : (self.new_fft geom fft_init).size
      = (self.new_fft geom fft_init).grid_points.length) :
    ∃ g, self.init_fft_grid geom fft_init fresh = some g ∧
      g.num_gvec_
        = g.fft_.grid_points.countP (fun pt => decide (geom.length_of pt ≤ g.pw_cutoff_)) ∧
      ∀ ig, ig < g.fft_.size → (geom.length_of (g.gvec_ ig) ≤ g.pw_cutoff_ ↔ ig < g.num_gvec_) := by
  obtain ⟨g, reorder, hg, hsort, hfft, hcut, hlt, -, hlen, hnum⟩ :=
    init_fft_grid_spec geom fft_init self fresh hsize
  obtain ⟨r2, hr2, hsorted, σ, hσ, hfix, -⟩ := gsl_heapsort_index_spec
    (fill_grid geom (self.new_fft geom fft_init) ⟨fresh.gvec, fun _ => 0, 0⟩).length
    (self.new_fft geom fft_init).size (fun _ => 0)
  have hrr : r2 = reorder := Option.some.inj (hr2.symm.trans hsort)
  rw [hrr] at hsorted hσ
  have hfill := fill_grid_spec geom (self.new_fft geom fft_init) fresh.gvec
  refine ⟨g, hg, ?_, ?_⟩
  · rw [hnum, hfft, hcut]
    rw [countP_reorder
      (fun t => decide
        ((fill_grid geom (self.new_fft geom fft_init) ⟨fresh.gvec, fun _ => 0, 0⟩).length t
          ≤ self.pw_cutoff_))
      (self.new_fft geom fft_init).size reorder σ hσ hfix]
    rw [← countP_range_getD
      (fun pt => decide (geom.length_of pt ≤ self.pw_cutoff_)) (0, 0, 0)
      (self.new_fft geom fft_init).grid_points, ← hsize]
    apply List.countP_congr
    intro t ht
    have ht' := List.mem_range.mp ht
    obtain ⟨j1, j2⟩ := hfill t (by rw [← hsize]; exact ht')
    rw [j2, j1]
  · intro ig hig
    rw [hfft] at hig
    rw [hlen ig hig, hcut, hnum]
    have hpre := countP_initial_segment
      (fun i => decide
        ((fill_grid geom (self.new_fft geom fft_init) ⟨fresh.gvec, fun _ => 0, 0⟩).length
          (reorder i) ≤ self.pw_cutoff_))
      (self.new_fft geom fft_init).size
      (fun i i' hii hi' hP => by
        rw [decide_eq_true_iff] at hP ⊢
        exact le_trans (hsorted i i' hii hi') hP) ig hig
    rw [← hpre, decide_eq_true_iff]

/-- Witness of C12 on the example lattice: five grid points, three of them
within the cutoff `1`. -/
theorem num_gvec_counts_cutoff_witness :
    (ex_global_fft.new_fft ex_geometry ex_fft_init).size
        = (ex_global_fft.new_fft ex_geometry ex_fft_init).grid_points.length ∧
    ∃ g, ex_global_fft.init_fft_grid ex_geometry ex_fft_init ex_fft_fresh = some g ∧
      g.num_gvec_ = g.fft_.grid_points.countP
        (fun pt => decide (ex_geometry.length_of pt ≤ g.pw_cutoff_)) :=
  ⟨ex_grid_size,
    (num_gvec_counts_cutoff ex_geometry ex_fft_init ex_global_fft ex_fft_fresh ex_grid_size).imp
      (fun _ h => ⟨h.1, h.2.1⟩)⟩

/-! ## `init_fft_grid`: `gvec_` enumerates the grid, and the index maps -/

theorem mem_int_range (lo hi x : Int) : x ∈ int_range lo hi ↔ (lo ≤ x ∧ x ≤ hi) := by
  unfold int_range
  rw [List.mem_map]
  constructor
  · rintro ⟨t, ht, rfl⟩
    have h1 := List.mem_range.mp ht
    omega
  · rintro ⟨h1, h2⟩
    refine ⟨(x - lo).toNat, List.mem_range.mpr (by omega), by omega⟩

theorem int_range_nodup (lo hi : Int) : (int_range lo hi).Nodup := by
  unfold int_range
  apply List.Nodup.map _ (List.nodup_range _)
  intro a b h
  simp only at h
  omega

theorem mem_grid_points (fft : FFT3D) (pt : Int × Int × Int) :
    pt ∈ fft.grid_points ↔ fft.inside pt := by
  unfold FFT3D.grid_points FFT3D.inside
  simp only [List.mem_flatMap, List.mem_map, mem_int_range]
  constructor
  · rintro ⟨i, hi, j, hj, k, hk, rfl⟩
    exact ⟨hi, hj, hk⟩
  · rintro ⟨hi, hj, hk⟩
    exact ⟨pt.1, hi, pt.2.1, hj, pt.2.2, hk, rfl⟩

theorem grid_points_nodup (fft : FFT3D) : fft.grid_points.Nodup := by
  unfold FFT3D.grid_points
  rw [List.nodup_flatMap]
  refine ⟨?_, ?_⟩
  · intro i _
    rw [List.nodup_flatMap]
    refine ⟨?_, ?_⟩
    · intro j _
      apply List.Nodup.map _ (int_range_nodup _ _)
      intro a b h
      exact congrArg (fun p : Int × Int × Int => p.2.2) h
    · apply List.Pairwise.imp _ (int_range_nodup _ _)
      intro a b hab
      intro x hx hy
      obtain ⟨k, -, rfl⟩ := List.mem_map.mp hx
      obtain ⟨k', -, h'⟩ := List.mem_map.mp hy
      exact hab (congrArg (fun p : Int × Int × Int => p.2.1) h').symm
  · apply List.Pairwise.imp _ (int_range_nodup _ _)
    intro a b hab
    intro x hx hy
    obtain ⟨j, -, hx'⟩ := List.mem_flatMap.mp hx
    obtain ⟨k, -, rfl⟩ := List.mem_map.mp hx'
    obtain ⟨j', -, hy'⟩ := List.mem_flatMap.mp hy
    obtain ⟨k', -, h'⟩ := List.mem_map.mp hy'
    exact hab (congrArg (fun p : Int × Int × Int => p.1) h').symm

theorem map_range_getD {α : Type} (d : α) :
    ∀ l : List α, (List.range l.length).map (fun t => l.getD t d) = l := by
  intro l
  induction l with
  | nil => rfl
  | cons a l ih =>
    rw [List.length_cons, List.range_succ_eq_map, List.map_cons, List.map_map]
    congr 1

/-- The sorted indices are a rearrangement of all indices. -/
theorem map_reorder_perm (n : Nat) (reorder : Nat → Nat) (σ : Equiv.Perm Nat)
    (hσ : ∀ i, i < n → reorder i = σ i) (hfix : ∀ i, n ≤ i → σ i = i) :
    ((List.range n).map reorder).Perm (List.range n) := by
  have h1 : (List.range n).map reorder = (List.range n).map σ := by
    apply List.map_congr_left
    intro x hx
    exact hσ x (List.mem_range.mp hx)
  rw [h1, List.perm_ext_iff_of_nodup ((List.nodup_range n).map σ.injective) (List.nodup_range n)]
  intro a
  rw [List.mem_map, List.mem_range]
  constructor
  · rintro ⟨i, hi, rfl⟩
    exact (perm_symm_fix σ n hfix i (List.mem_range.mp hi)).1
  · intro ha
    exact ⟨σ.symm a, List.mem_range.mpr (perm_symm_fix σ n hfix a ha).2,
      Equiv.apply_symm_apply σ a⟩

theorem index_step_fst (fft : FFT3D) (gv : Nat → Int × Int × Int)
    (st : (Int → Int → Int → Int) × (Nat → Int)) (ig : Nat) (a b c : Int) :
    (index_step fft gv st ig).1 a b c
      = if a = (gv ig).1 ∧ b = (gv ig).2.1 ∧ c = (gv ig).2.2 then (ig : Int)
        else st.1 a b c := rfl

theorem index_step_snd (fft : FFT3D) (gv : Nat → Int × Int × Int)
    (st : (Int → Int → Int → Int) × (Nat → Int)) (ig : Nat) :
    (index_step fft gv st ig).2
      = Function.update st.2 ig (fft.index (gv ig).1 (gv ig).2.1 (gv ig).2.2) := rfl

/-- The last loop of `init_fft_grid`, for a list of pairwise different
triples: every triple is mapped to its index, and every index to the FFT
buffer position of its triple. -/
theorem index_loop_spec (fft : FFT3D) (gv : Nat → Int × Int × Int)
    (st : (Int → Int → Int → Int) × (Nat → Int)) :
    ∀ n, (∀ i j, i < n → j < n → gv i = gv j → i = j) →
      (∀ ig, ig < n →
        ((List.range n).foldl (index_step fft gv) st).1 (gv ig).1 (gv ig).2.1 (gv ig).2.2
          = (ig : Int)) ∧
      (∀ ig, ((List.range n).foldl (index_step fft gv) st).2 ig
        = if ig < n then fft.index (gv ig).1 (gv ig).2.1 (gv ig).2.2 else st.2 ig) := by
  intro n
  induction n with
  | zero =>
    intro _
    refine ⟨fun ig h => absurd h (Nat.not_lt_zero _), fun ig => ?_⟩
    simp
  | succ n ih =>
    intro hinj
    obtain ⟨ih1, ih2⟩ := ih (fun i j hi hj h => hinj i j (by omega) (by omega) h)
    rw [List.range_succ, List.foldl_append]
    simp only [List.foldl_cons, List.foldl_nil]
    refine ⟨?_, ?_⟩
    · intro ig hig
      rw [index_step_fst]
      by_cases h : ig = n
      · rw [h, if_pos ⟨rfl, rfl, rfl⟩]
      · have hne : ¬ ((gv ig).1 = (gv n).1 ∧ (gv ig).2.1 = (gv n).2.1
            ∧ (gv ig).2.2 = (gv n).2.2) := by
          rintro ⟨h1, h2, h3⟩
          have heq : gv ig = gv n := Prod.ext h1 (Prod.ext h2 h3)
          exact h (hinj ig n hig (Nat.lt_succ_self _) heq)
        rw [if_neg hne]
        exact ih1 ig (by omega)
    · intro ig
      rw [index_step_snd]
      by_cases h : ig = n
      · rw [h, Function.update_same, if_pos (Nat.lt_succ_self _)]
      · rw [Function.update_noteq h, ih2 ig]
        by_cases h2 : ig < n
        · rw [if_pos h2, if_pos (Nat.lt_succ_of_lt h2)]
        · have c : ¬ ig < n + 1 := by omega
          rw [if_neg h2, if_neg c]

theorem store_sorted_gvec (fft : FFT3D) (filled : grid_fill) (self : global_fft)
    (fresh : fft_fresh) (reorder : Nat → Nat) :
    (global_fft.store_sorted fft filled self fresh reorder).index_by_gvec_
        = ((List.range fft.size).foldl
            (index_step fft (global_fft.store_sorted fft filled self fresh reorder).gvec_)
            (fresh.index_by_gvec_, self.fft_index_)).1 ∧
    (global_fft.store_sorted fft filled self fresh reorder).fft_index_
        = ((List.range fft.size).foldl
            (index_step fft (global_fft.store_sorted fft filled self fresh reorder).gvec_)
            (fresh.index_by_gvec_, self.fft_index_)).2 := ⟨rfl, rfl⟩

theorem init_fft_grid_eq (geom : sirius_geometry) (fft_init : Int × Int × Int → FFT3D)
    (self : global_fft) (fresh : fft_fresh) (reorder : Nat → Nat)
    (hsort : gsl_heapsort_index
      (fill_grid geom (self.new_fft geom fft_init) ⟨fresh.gvec, fun _ => 0, 0⟩).length
      (self.new_fft geom fft_init).size (fun _ => 0) = some reorder) :
    self.init_fft_grid geom fft_init fresh
      = some (global_fft.store_sorted (self.new_fft geom fft_init)
          (fill_grid geom (self.new_fft geom fft_init) ⟨fresh.gvec, fun _ => 0, 0⟩) self fresh
          reorder) := by
  unfold global_fft.init_fft_grid
  unfold global_fft.new_fft at hsort ⊢
  simp only
  rw [hsort]
  rfl

/-- C21: when `size()` of the FFT grid is the number of its points, after
`init_fft_grid` the entries `gvec_[0 .. size - 1]` are a rearrangement of the
integer triples inside the grid limits, each triple at exactly one index;
`index_by_gvec` is the inverse, `index_by_gvec(gvec_(0, ig), gvec_(1, ig),
gvec_(2, ig)) = ig`, and `fft_index(ig)` is the FFT buffer position
`fft_.index` of the triple of `ig`. -/
theorem gvec_enumerates_grid (geom : sirius_geometry) (fft_init : Int × Int × Int → FFT3D)
    (self : global_fft) (fresh : fft_fresh)
    (hsize : (self.new_fft geom fft_init).size
      = (self.new_fft geom fft_init).grid_points.length) :
    ∃ g, self.init_fft_grid geom fft_init fresh = some g ∧
      ((List.range g.fft_.size).map g.gvec_).Perm g.fft_.grid_points ∧
      (∀ pt, pt ∈ g.fft_.grid_points ↔ g.fft_.inside pt) ∧
      (∀ pt, g.fft_.inside pt → ∃! ig, ig < g.fft_.size ∧ g.gvec_ ig = pt) ∧
      (∀ ig, ig < g.fft_.size → g.fft_.inside (g.gvec_ ig)) ∧
      (∀ ig, ig < g.fft_.size →
        g.index_by_gvec (g.gvec_ ig).1 (g.gvec_ ig).2.1 (g.gvec_ ig).2.2 = (ig : Int)) ∧
      (∀ ig, ig < g.fft_.size →
        g.fft_index ig = g.fft_.index (g.gvec_ ig).1 (g.gvec_ ig).2.1 (g.gvec_ ig).2.2) := by
  obtain ⟨g, reorder, hg, hsort, hfft, -, hlt, hgv, -, -⟩ :=
    init_fft_grid_spec geom fft_init self fresh hsize
  obtain ⟨r2, hr2, -, σ, hσ, hfix, -⟩ := gsl_heapsort_index_spec
    (fill_grid geom (self.new_fft geom fft_init) ⟨fresh.gvec, fun _ => 0, 0⟩).length
    (self.new_fft geom fft_init).size (fun _ => 0)
  have hrr : r2 = reorder := Option.some.inj (hr2.symm.trans hsort)
  rw [hrr] at hσ
  have hgeq : g = global_fft.store_sorted (self.new_fft geom fft_init)
      (fill_grid geom (self.new_fft geom fft_init) ⟨fresh.gvec, fun _ => 0, 0⟩) self fresh
      reorder :=
    Option.some.inj (hg.symm.trans (init_fft_grid_eq geom fft_init self fresh reorder hsort))
  have hperm : ((List.range g.fft_.size).map g.gvec_).Perm g.fft_.grid_points := by
    rw [hfft]
    have h1 : (List.range (self.new_fft geom fft_init).size).map g.gvec_
        = ((List.range (self.new_fft geom fft_init).size).map reorder).map
            (fun t => (self.new_fft geom fft_init).grid_points.getD t (0, 0, 0)) := by
      rw [List.map_map]
      apply List.map_congr_left
      intro i hi
      exact hgv i (List.mem_range.mp hi)
    have h2 := (map_reorder_perm (self.new_fft geom fft_init).size reorder σ hσ hfix).map
      (fun t => (self.new_fft geom fft_init).grid_points.getD t (0, 0, 0))
    rw [← h1] at h2
    have h3 := map_range_getD (0, 0, 0) (self.new_fft geom fft_init).grid_points
    rw [← hsize] at h3
    rw [h3] at h2
    exact h2
  have hnodup : ((List.range g.fft_.size).map g.gvec_).Nodup :=
    hperm.nodup_iff.mpr (grid_points_nodup _)
  have hinj : ∀ i j, i < g.fft_.size → j < g.fft_.size → g.gvec_ i = g.gvec_ j → i = j :=
    fun i j hi hj h =>
      List.inj_on_of_nodup_map hnodup (List.mem_range.mpr hi) (List.mem_range.mpr hj) h
  have hmem : ∀ pt, pt ∈ g.fft_.grid_points ↔ g.fft_.inside pt :=
    fun pt => mem_grid_points g.fft_ pt
  refine ⟨g, hg, hperm, hmem, ?_, ?_, ?_, ?_⟩
  · intro pt hpt
    have h1 : pt ∈ (List.range g.fft_.size).map g.gvec_ :=
      hperm.mem_iff.mpr ((hmem pt).mpr hpt)
    obtain ⟨ig, hig, hpt'⟩ := List.mem_map.mp h1
    refine ⟨ig, ⟨List.mem_range.mp hig, hpt'⟩, ?_⟩
    rintro j ⟨hj, hjpt⟩
    exact hinj j ig hj (List.mem_range.mp hig) (hjpt.trans hpt'.symm)
  · intro ig hig
    rw [← hmem]
    exact hperm.mem_iff.mp (List.mem_map.mpr ⟨ig, List.mem_range.mpr hig, rfl⟩)
  · intro ig hig
    have hloop := (index_loop_spec g.fft_ g.gvec_ (fresh.index_by_gvec_, self.fft_index_)
      g.fft_.size hinj).1 ig hig
    unfold global_fft.index_by_gvec
    have hmap : g.index_by_gvec_ = ((List.range g.fft_.size).foldl
        (index_step g.fft_ g.gvec_) (fresh.index_by_gvec_, self.fft_index_)).1 := by
      rw [hgeq]
      rfl
    rw [hmap]
    exact hloop
  · intro ig hig
    have hloop := (index_loop_spec g.fft_ g.gvec_ (fresh.index_by_gvec_, self.fft_index_)
      g.fft_.size hinj).2 ig
    rw [if_pos hig] at hloop
    unfold global_fft.fft_index
    have hmap : g.fft_index_ = ((List.range g.fft_.size).foldl
        (index_step g.fft_ g.gvec_) (fresh.index_by_gvec_, self.fft_index_)).2 := by
      rw [hgeq]
      rfl
    rw [hmap]
    exact hloop

/-- Witness of C21 on the example lattice. -/
theorem gvec_enumerates_grid_witness :
    (ex_global_fft.new_fft ex_geometry ex_fft_init).size
        = (ex_global_fft.new_fft ex_geometry ex_fft_init).grid_points.length ∧
    ∃ g, ex_global_fft.init_fft_grid ex_geometry ex_fft_init ex_fft_fresh = some g ∧
      ((List.range g.fft_.size).map g.gvec_).Perm g.fft_.grid_points :=
  ⟨ex_grid_size,
    (gvec_enumerates_grid ex_geometry ex_fft_init ex_global_fft ex_fft_fresh ex_grid_size).imp
      (fun _ h => ⟨h.1, h.2.1⟩)⟩

/-- The inner loop raises exactly when the label is already in the list. -/
theorem check_label_eq (labels_ : List String) (label : String) :
    check_label labels_ label =
      if label ∈ labels_ then
        Except.error "atom type with such label is already in list"
      else Except.ok () := by
  unfold check_label
  induction labels_ with
  | nil => simp [List.foldlM]; rfl
  | cons l ls ih =>
    rw [List.foldlM_cons]
    by_cases h : l = label
    · simp [h]; rfl
    · have hne : ¬ label = l := fun e => h e.symm
      simp only [h, if_false, List.mem_cons, hne, false_or]
      exact ih

/-- The loop over `atom_types`, started from labels already read: it returns
all labels in order when they are pairwise distinct, and raises otherwise. -/
theorem read_labels_loop (l acc : List String) (hacc : acc.Nodup) :
    l.foldlM
        (fun labels_ label => do
          check_label labels_ label
          pure (labels_ ++ [label]))
        acc =
      if (acc ++ l).Nodup then Except.ok (acc ++ l)
      else (Except.error "atom type with such label is already in list" :
        Except String (List String)) := by
  induction l generalizing acc with
  | nil => simp [hacc]; rfl
  | cons a l ih =>
    rw [List.foldlM_cons, check_label_eq]
    by_cases h : a ∈ acc
    · have hnd : ¬ (acc ++ a :: l).Nodup := by
        intro hn
        have := (List.nodup_append.mp hn).2.2
        exact this h (List.mem_cons_self a l)
      rw [if_pos h, if_neg hnd]
      rfl
    · rw [if_neg h]
      have hacc2 : (acc ++ [a]).Nodup := by
        rw [List.nodup_append]
        refine ⟨hacc, List.nodup_singleton a, ?_⟩
        intro x hx hx2
        rw [List.mem_singleton] at hx2
        exact h (hx2 ▸ hx)
      have := ih (acc ++ [a]) hacc2
      simp only [List.append_assoc, List.singleton_append] at this
      exact this

/-- The loop over `atom_types` returns the list itself when its labels are
pairwise distinct, and raises otherwise. -/
theorem read_labels_eq (l : List String) :
    read_labels l =
      if l.Nodup then Except.ok l
      else Except.error "atom type with such label is already in list" := by
  have := read_labels_loop l [] List.nodup_nil
  simpa [read_labels] using this

/-- When the section `unit_cell` exists and the labels are pairwise distinct,
`read` goes on to the coordinates with `labels_` equal to `atom_types`. -/
theorem read_of_nodup (self : unit_cell_input_section) (parser : unit_cell_json)
    (hex : parser.exist_unit_cell = true) (hnd : parser.atom_types.Nodup) :
    self.read parser =
      (read_coordinates parser.atoms parser.atom_types).map (fun coordinates_ =>
        { lattice_vectors_ := fun i x =>
            if i < 3 ∧ x < 3 then
              (parser.lattice_vectors i).getD x 0 * parser.lattice_vectors_scale.getD 1
            else self.lattice_vectors_ i x
          labels_ := parser.atom_types
          atom_files_ :=
            match parser.atom_files with
            | some files => read_atom_files files parser.atom_types self.atom_files_
            | none => self.atom_files_
          coordinates_ := coordinates_ }) := by
  unfold unit_cell_input_section.read
  rw [if_pos hex, read_labels_eq, if_pos hnd]
  dsimp only [bind, Except.bind]
  cases read_coordinates parser.atoms parser.atom_types <;> rfl

/-- When the section `unit_cell` exists and a label occurs twice, `read`
raises the diagnostic of the label loop. -/
theorem read_of_not_nodup (self : unit_cell_input_section) (parser : unit_cell_json)
    (hex : parser.exist_unit_cell = true) (hnd : ¬ parser.atom_types.Nodup) :
    self.read parser = Except.error "atom type with such label is already in list" := by
  unfold unit_cell_input_section.read
  rw [if_pos hex, read_labels_eq, if_neg hnd]
  rfl

/-- C22: when the section `unit_cell` exists, `read` raises "atom type with
such label is already in list" for an `atom_types` list in which a label occurs
twice; and when `read` does not raise, `labels_` equals the `atom_types` list in
its original order and its entries are pairwise distinct. -/
theorem read_labels_distinct (self : unit_cell_input_section) (parser : unit_cell_json)
    (hex : parser.exist_unit_cell = true) :
    (¬ parser.atom_types.Nodup →
      self.read parser = Except.error "atom type with such label is already in list") ∧
    (∀ s, self.read parser = Except.ok s →
      s.labels_ = parser.atom_types ∧ s.labels_.Nodup) := by
  refine ⟨read_of_not_nodup self parser hex, ?_⟩
  intro s hs
  by_cases hnd : parser.atom_types.Nodup
  · rw [read_of_nodup self parser hex hnd] at hs
    cases hc : read_coordinates parser.atoms parser.atom_types with
    | error e => rw [hc] at hs; cases hs
    | ok c =>
      rw [hc] at hs
      have : s = _ := (Except.ok.inj hs).symm
      subst this
      exact ⟨rfl, hnd⟩
  · rw [read_of_not_nodup self parser hex hnd] at hs
    cases hs

/-- Instance of C22: the list `A, B, A` is rejected with the diagnostic of the
label loop, and a successful read of the list `A, B` leaves these labels, which
are distinct. -/
theorem read_labels_distinct_witness :
    ex_json_twice.exist_unit_cell = true ∧ ¬ ex_json_twice.atom_types.Nodup ∧
    ex_section.read ex_json_twice =
      Except.error "atom type with such label is already in list" ∧
    (∀ s, ex_section.read ex_json = Except.ok s →
      s.labels_ = ex_json.atom_types ∧ s.labels_.Nodup) :=
  ⟨rfl, by decide,
    (read_labels_distinct ex_section ex_json_twice rfl).1 (by decide),
    (read_labels_distinct ex_section ex_json rfl).2⟩

/-- The call `v.resize(6, 0.0)` on a vector of three components appends three
zeros. -/
theorem vector_resize_three (v : List ℚ) (h : v.length = 3) :
    vector_resize v 6 0 = v ++ [0, 0, 0] := by
  unfold vector_resize
  rw [List.take_of_length_le (by omega), h]
  rfl

/-- An entry of 3 or 6 components is accepted and stored with its three values
followed by three zeros, or unchanged. -/
theorem read_coordinate_ok (v : List ℚ) (h : v.length = 3 ∨ v.length = 6) :
    read_coordinate v = Except.ok (stored_coordinate v) := by
  unfold read_coordinate stored_coordinate
  rw [if_neg (not_not.mpr h)]
  by_cases h3 : v.length = 3
  · rw [if_pos h3, if_pos h3, vector_resize_three v h3]
  · rw [if_neg h3, if_neg h3]

/-- An entry of another size is rejected. -/
theorem read_coordinate_error (v : List ℚ) (h : ¬ (v.length = 3 ∨ v.length = 6)) :
    read_coordinate v = Except.error "wrong coordinates size" := by
  unfold read_coordinate
  rw [if_pos h]

/-- A stored vector has six components. -/
theorem stored_coordinate_length (v : List ℚ) (h : v.length = 3 ∨ v.length = 6) :
    (stored_coordinate v).length = 6 := by
  unfold stored_coordinate
  by_cases h3 : v.length = 3
  · rw [if_pos h3, List.length_append, h3]; rfl
  · rw [if_neg h3]; omega

/-- A loop that appends the result of a fallible step for every element
returns all results in order when every step succeeds. -/
theorem foldlM_push_back_ok {α β : Type} (f : α → Except String β) (g : α → β)
    (l : List α) (acc : List β) (h : ∀ a ∈ l, f a = Except.ok (g a)) :
    l.foldlM
        (fun acc a => do
          let b ← f a
          pure (acc ++ [b]))
        acc =
      Except.ok (acc ++ l.map g) := by
  induction l generalizing acc with
  | nil => simp; rfl
  | cons a l ih =>
    rw [List.foldlM_cons, h a (List.mem_cons_self a l)]
    have := ih (acc ++ [g a]) (fun b hb => h b (List.mem_cons_of_mem a hb))
    simp only [List.append_assoc, List.singleton_append] at this
    simpa using this

/-- A loop that appends the result of a fallible step for every element raises
the diagnostic of the step when some step fails, all failures having the same
diagnostic. -/
theorem foldlM_push_back_error {α β : Type} (f : α → Except String β) (e : String)
    (l : List α) (acc : List β) (hf : ∀ a ∈ l, f a = Except.error e ∨ ∃ b, f a = Except.ok b)
    (h : ∃ a ∈ l, f a = Except.error e) :
    l.foldlM
        (fun acc a => do
          let b ← f a
          pure (acc ++ [b]))
        acc =
      Except.error e := by
  induction l generalizing acc with
  | nil => obtain ⟨a, ha, _⟩ := h; cases ha
  | cons a l ih =>
    rw [List.foldlM_cons]
    rcases hf a (List.mem_cons_self a l) with he | ⟨b, hb⟩
    · rw [he]; rfl
    · rw [hb]
      obtain ⟨x, hx, hxe⟩ := h
      have hx2 : x ∈ l := by
        rcases List.mem_cons.mp hx with rfl | hx2
        · rw [hb] at hxe; cases hxe
        · exact hx2
      exact ih (acc ++ [b]) (fun y hy => hf y (List.mem_cons_of_mem a hy)) ⟨x, hx2, hxe⟩

/-- The loop over the atoms of a label stores every entry when all have 3 or 6
components. -/
theorem read_atoms_ok (entries : List (List ℚ))
    (h : ∀ v ∈ entries, v.length = 3 ∨ v.length = 6) :
    read_atoms entries = Except.ok (entries.map stored_coordinate) := by
  have := foldlM_push_back_ok read_coordinate stored_coordinate entries []
    (fun v hv => read_coordinate_ok v (h v hv))
  simpa [read_atoms] using this

/-- The loop over the atoms of a label raises when an entry has another
size. -/
theorem read_atoms_error (entries : List (List ℚ))
    (h : ∃ v ∈ entries, ¬ (v.length = 3 ∨ v.length = 6)) :
    read_atoms entries = Except.error "wrong coordinates size" := by
  unfold read_atoms
  refine foldlM_push_back_error read_coordinate _ entries [] ?_ ?_
  · intro v _
    by_cases hv : v.length = 3 ∨ v.length = 6
    · exact Or.inr ⟨_, read_coordinate_ok v hv⟩
    · exact Or.inl (read_coordinate_error v hv)
  · obtain ⟨v, hv, hbad⟩ := h
    exact ⟨v, hv, read_coordinate_error v hbad⟩

/-- The loop over the labels stores the atoms of every label when all entries
have 3 or 6 components. -/
theorem read_coordinates_ok (atoms : String → List (List ℚ)) (labels_ : List String)
    (h : ∀ label ∈ labels_, ∀ v ∈ atoms label, v.length = 3 ∨ v.length = 6) :
    read_coordinates atoms labels_ =
      Except.ok (labels_.map (fun label => (atoms label).map stored_coordinate)) := by
  have := foldlM_push_back_ok (fun label => read_atoms (atoms label))
    (fun label => (atoms label).map stored_coordinate) labels_ []
    (fun label hl => read_atoms_ok (atoms label) (h label hl))
  simpa [read_coordinates] using this

/-- The loop over the labels raises when an entry of a label has another
size. -/
theorem read_coordinates_error (atoms : String → List (List ℚ)) (labels_ : List String)
    (h : ∃ label ∈ labels_, ∃ v ∈ atoms label, ¬ (v.length = 3 ∨ v.length = 6)) :
    read_coordinates atoms labels_ = Except.error "wrong coordinates size" := by
  unfold read_coordinates
  refine foldlM_push_back_error (fun label => read_atoms (atoms label)) _ labels_ [] ?_ ?_
  · intro label _
    by_cases hl : ∀ v ∈ atoms label, v.length = 3 ∨ v.length = 6
    · exact Or.inr ⟨_, read_atoms_ok (atoms label) hl⟩
    · push_neg at hl
      obtain ⟨v, hv, h3, h6⟩ := hl
      exact Or.inl (read_atoms_error (atoms label) ⟨v, hv, fun hh => hh.elim h3 h6⟩)
  · obtain ⟨label, hl, v, hv, hbad⟩ := h
    exact ⟨label, hl, read_atoms_error (atoms label) ⟨v, hv, hbad⟩⟩

/-- C23: the size check of `read` accepts a coordinate entry if and only if it
has 3 or 6 components, and raises "wrong coordinates size" otherwise; for an
existing section `unit_cell` with distinct labels, `read` raises this
diagnostic when some entry of a listed label has another size, and otherwise
succeeds with `coordinates_` holding one list per label in label order, whose
entries are the entries of the label in order, every stored vector having
exactly 6 components and an entry of 3 components being stored as its three
values followed by three zeros. -/
theorem read_coordinates_sizes (self : unit_cell_input_section) (parser : unit_cell_json)
    (hex : parser.exist_unit_cell = true) (hnd : parser.atom_types.Nodup) :
    (∀ v : List ℚ,
      ((∃ w, read_coordinate v = Except.ok w) ↔ (v.length = 3 ∨ v.length = 6)) ∧
      (¬ (v.length = 3 ∨ v.length = 6) →
        read_coordinate v = Except.error "wrong coordinates size")) ∧
    ((∃ label ∈ parser.atom_types, ∃ v ∈ parser.atoms label,
        ¬ (v.length = 3 ∨ v.length = 6)) →
      self.read parser = Except.error "wrong coordinates size") ∧
    ((∀ label ∈ parser.atom_types, ∀ v ∈ parser.atoms label,
        v.length = 3 ∨ v.length = 6) →
      ∃ s, self.read parser = Except.ok s) ∧
    (∀ s, self.read parser = Except.ok s →
      (∀ label ∈ parser.atom_types, ∀ v ∈ parser.atoms label,
        v.length = 3 ∨ v.length = 6) ∧
      s.coordinates_.length = s.labels_.length ∧
      s.coordinates_ =
        s.labels_.map (fun label => (parser.atoms label).map
          (fun v => if v.length = 3 then v ++ [0, 0, 0] else v)) ∧
      (∀ c ∈ s.coordinates_, ∀ v ∈ c, v.length = 6)) := by
  have hread := read_of_nodup self parser hex hnd
  refine ⟨?_, ?_, ?_, ?_⟩
  · intro v
    refine ⟨⟨?_, fun h => ⟨_, read_coordinate_ok v h⟩⟩, read_coordinate_error v⟩
    rintro ⟨w, hw⟩
    by_contra hbad
    rw [read_coordinate_error v hbad] at hw
    cases hw
  · intro hbad
    rw [hread, read_coordinates_error parser.atoms parser.atom_types hbad]
    rfl
  · intro hall
    rw [hread, read_coordinates_ok parser.atoms parser.atom_types hall]
    exact ⟨_, rfl⟩
  · intro s hs
    have hall : ∀ label ∈ parser.atom_types, ∀ v ∈ parser.atoms label,
        v.length = 3 ∨ v.length = 6 := by
      by_contra hbad
      push_neg at hbad
      obtain ⟨label, hl, v, hv, h3, h6⟩ := hbad
      rw [hread, read_coordinates_error parser.atoms parser.atom_types
        ⟨label, hl, v, hv, fun hh => hh.elim h3 h6⟩] at hs
      cases hs
    rw [hread, read_coordinates_ok parser.atoms parser.atom_types hall] at hs
    have : s = _ := (Except.ok.inj hs).symm
    subst this
    refine ⟨hall, by simp, rfl, ?_⟩
    intro c hc v hv
    simp only [List.mem_map] at hc
    obtain ⟨label, hl, rfl⟩ := hc
    simp only [List.mem_map] at hv
    obtain ⟨w, hw, rfl⟩ := hv
    exact stored_coordinate_length w (hall label hl w hw)

/-- Instance of C23: the input with one atom of three components under `A` and
one of six under `B` is read, and the input with an atom of four components is
rejected. -/
theorem read_coordinates_sizes_witness :
    ex_json.exist_unit_cell = true ∧ ex_json.atom_types.Nodup ∧
    (∃ s, ex_section.read ex_json = Except.ok s) ∧
    ex_section.read ex_json_four = Except.error "wrong coordinates size" :=
  ⟨rfl, by decide,
    (read_coordinates_sizes ex_section ex_json rfl (by decide)).2.2.1 (by
      intro label hl v hv
      simp only [ex_json, List.mem_cons, List.mem_singleton, List.not_mem_nil, or_false] at hl
      rcases hl with rfl | rfl
      · simp [ex_json] at hv; subst hv; decide
      · simp [ex_json] at hv; subst hv; decide),
    (read_coordinates_sizes ex_section ex_json_four rfl (by decide)).2.1
      ⟨"A", by decide, [1, 2, 3, 4], by simp [ex_json_four, ex_json], by decide⟩⟩

end

section

open Finset

/-- A call of `printf` advances the offset by the length of the whole text,
whatever part of it was written. -/
theorem printf_offset (self : pstdout) (text : List Nat) :
    (self.printf text).offset_ = self.offset_ + text.length := rfl

/-- After a sequence of calls the offset has advanced by the total length of
the texts. -/
theorem printf_all_offset (self : pstdout) (texts : List (List Nat)) :
    (self.printf_all texts).offset_ = self.offset_ + (texts.map List.length).sum := by
  unfold pstdout.printf_all
  induction texts generalizing self with
  | nil => simp
  | cons t ts ih =>
    rw [List.foldl_cons, ih, printf_offset, List.map_cons, List.sum_cons, Nat.add_assoc]

/-- C25: the code at the failing input, one call of `printf` on a new `pstdout`
with a text of 10000 characters: the write offset becomes 10000, which is
above the buffer capacity 8192, and the remaining size `buffer_.size() -
offset_` of the next call is negative. -/
theorem printf_offset_past_capacity :
    (pstdout_new.printf (List.replicate 10000 97)).offset_ = 10000 ∧
    ¬ (pstdout_new.printf (List.replicate 10000 97)).offset_ ≤ pstdout.buffer_size ∧
    (pstdout.buffer_size : Int) -
      ((pstdout_new.printf (List.replicate 10000 97)).offset_ : Int) < 0 := by
  have h : (pstdout_new.printf (List.replicate 10000 97)).offset_ = 10000 := by
    rw [printf_offset, List.length_replicate]
    rfl
  rw [h]
  refine ⟨rfl, ?_, ?_⟩
  · unfold pstdout.buffer_size; omega
  · unfold pstdout.buffer_size; omega

end

end sirius
